import Mathlib

/-!
# Verification of `assign_roles` (ff14raidroles)

Shallow embedding of `src/source.py`.  The program reduces role assignment to a
minimum-cost flow problem:

* `assign_roles(players, roles)` builds a `networkx.DiGraph` with a synthetic
  `source` and `sink`, one node per player and per role, edges
  `source → player` (capacity 1, weight 0), `player → role` (capacity 1,
  weight = zero-based rank in the preference list, only for roles that are keys
  of `roles`) and `role → sink` (capacity = the role's capacity, weight 0);
  demands are `-num_positions` at the source and `num_positions` at the sink
  where `num_positions = sum(roles.values())`.
* It then calls `networkx.algorithms.flow.min_cost_flow`; `NetworkXUnfeasible`
  is converted into a generic `Exception`.  The library routine returns an
  integral flow satisfying every node demand and every edge capacity that
  minimises the total cost `Σ flow(e) * weight(e)`; it reports infeasibility
  (in particular for negative capacities) when no such flow exists.
* Finally for each player (in insertion order) the first outgoing edge carrying
  positive flow determines the assigned role.

Python dicts are modelled as association lists (insertion order preserved, keys
unique).  Node names are modelled by the inductive type `Node`, which keeps the
four layers of identifiers apart, matching the intended use where no player is
called `"source"`/`"sink"` or shares a name with a role.  The networkx solver
is external library code; it is modelled by its documented contract as an
exhaustive minimum search over all integral flows respecting the capacities,
returning an optimal feasible flow or `none` (= `NetworkXUnfeasible`).
-/

/-- Identifiers: player and role names are strings in the source. -/
abbrev Ident := String

/-- Nodes of the constructed flow network: the synthetic `source` and `sink`
nodes, one node per player, one node per role. -/
inductive Node where
  | source : Node
  | sink : Node
  | agent : Ident → Node
  | cat : Ident → Node
deriving DecidableEq, Repr

/-- Attributes attached to an edge by `G.add_edge(u, v, capacity=…, weight=…)`.
Capacities come straight from the `roles` dict, whose values are arbitrary
Python ints, hence `Int`; weights are `0` or a list index, hence `Nat`. -/
structure EdgeData where
  capacity : Int
  weight : Nat
deriving DecidableEq, Repr

/-- A directed edge with its attributes. -/
abbrev Edge := Node × Node × EdgeData

/-- `G.add_edge u v d` on a `networkx.DiGraph`: if the edge `(u, v)` is already
present its attributes are overwritten in place, otherwise the edge is appended
(adjacency order = insertion order). -/
def addEdge : List Edge → Node → Node → EdgeData → List Edge
  | [], u, v, d => [(u, v, d)]
  | e :: es, u, v, d =>
    if e.1 = u ∧ e.2.1 = v then (u, v, d) :: es else e :: addEdge es u v d

/-- The `players` argument: a dict mapping player names to preference lists. -/
abbrev Players := List (Ident × List Ident)

/-- The `roles` argument: a dict mapping role names to capacities. -/
abbrev Roles := List (Ident × Int)

/-- `sum(roles.values())` — the total number of available positions. -/
def numPositions (roles : Roles) : Int :=
  (roles.map (·.2)).sum

/-- The role keys, i.e. what `role in roles` tests membership of. -/
def roleKeys (roles : Roles) : List Ident :=
  roles.map (·.1)

/-- Edge construction of `assign_roles` (source lines 33–46): the three loops
adding `source → player`, `player → role` and `role → sink` edges, in program
order, via `add_edge`. -/
def buildEdges (players : Players) (roles : Roles) : List Edge :=
  let es1 := players.foldl (fun es pl => addEdge es .source (.agent pl.1) ⟨1, 0⟩) []
  let es2 := players.foldl
    (fun es pl =>
      pl.2.enum.foldl
        (fun es ir =>
          if ir.2 ∈ roleKeys roles then
            addEdge es (.agent pl.1) (.cat ir.2) ⟨1, ir.1⟩
          else es)
        es)
    es1
  roles.foldl (fun es rc => addEdge es (.cat rc.1) .sink ⟨rc.2, 0⟩) es2

/-- The node demands (source lines 29–31): `-num_positions` at the source,
`num_positions` at the sink, `0` (no `demand` attribute) everywhere else. -/
def demandOf (np : Int) : Node → Int
  | .source => -np
  | .sink => np
  | _ => 0

/-! ## The min-cost-flow solver (networkx contract) -/

/-- A candidate flow: each edge of the graph paired with the (integral,
non-negative) amount of flow it carries. -/
abbrev FlowList := List (Edge × Nat)

/-- Total flow entering node `n`. -/
def flowInto (n : Node) (efs : FlowList) : Nat :=
  (efs.map (fun ef => if ef.1.2.1 = n then ef.2 else 0)).sum

/-- Total flow leaving node `n`. -/
def flowOutOf (n : Node) (efs : FlowList) : Nat :=
  (efs.map (fun ef => if ef.1.1 = n then ef.2 else 0)).sum

/-- Net flow into node `n` (networkx satisfies `inflow - outflow = demand`). -/
def netFlowAt (n : Node) (efs : FlowList) : Int :=
  (flowInto n efs : Int) - (flowOutOf n efs : Int)

/-- Total cost of a flow: `Σ flow(e) * weight(e)`. -/
def flowCost (efs : FlowList) : Nat :=
  (efs.map (fun ef => ef.2 * ef.1.2.2.weight)).sum

/-- The candidate flow values for one edge: `0, …, capacity` (none if the
capacity is negative, since flows are non-negative). -/
def flowOptions (e : Edge) : List (Edge × Nat) :=
  (List.range (e.2.2.capacity + 1).toNat).map (fun x => (e, x))

/-- All candidate flows on an edge list: every way of choosing a value within
capacity on every edge. -/
def candidates : List Edge → List FlowList
  | [] => [[]]
  | e :: es => (flowOptions e).flatMap (fun ex => (candidates es).map (ex :: ·))

/-- The nodes at which the (executable) feasibility check tests the demand
constraint: `source`, `sink` and every edge endpoint.  All other nodes have
zero demand and zero incident flow. -/
def checkNodes (efs : FlowList) : List Node :=
  Node.source :: Node.sink :: efs.flatMap (fun ef => [ef.1.1, ef.1.2.1])

/-- Executable feasibility: every edge within capacity and every node demand
met. -/
def feasibleB (np : Int) (efs : FlowList) : Bool :=
  efs.all (fun ef => (ef.2 : Int) ≤ ef.1.2.2.capacity) &&
  (checkNodes efs).all (fun n => netFlowAt n efs == demandOf np n)

/-- Feasibility as a proposition: capacities respected and `inflow - outflow =
demand` at every node. -/
def Feasible (np : Int) (efs : FlowList) : Prop :=
  (∀ ef ∈ efs, (ef.2 : Int) ≤ ef.1.2.2.capacity) ∧
  ∀ n, netFlowAt n efs = demandOf np n

/-- First element of minimal cost, `none` on the empty list. -/
def pickMin (cost : FlowList → Nat) : List FlowList → Option FlowList
  | [] => none
  | x :: xs =>
    match pickMin cost xs with
    | none => some x
    | some y => if cost x ≤ cost y then some x else some y

/-- Model of `networkx.algorithms.flow.min_cost_flow` restricted to the graphs
this program builds: returns a feasible integral flow of minimum total cost,
or `none` (`NetworkXUnfeasible`) when no feasible flow exists.  The networkx
implementation guarantees exactly this contract (integrality holds because all
capacities and demands are integers); which optimal flow is returned is an
implementation detail, modelled here by exhaustive first-minimum search. -/
def min_cost_flow (np : Int) (es : List Edge) : Option FlowList :=
  pickMin flowCost ((candidates es).filter (feasibleB np))

/-! ## Decoding the flow (source lines 54–62) -/

/-- The Python node name of a node (`networkx` nodes are the strings
themselves; `"source"` and `"sink"` are the literals of lines 21–22). -/
def nodeName : Node → Ident
  | .source => "source"
  | .sink => "sink"
  | .agent p => p
  | .cat r => r

/-- Scan `flowDict[player].items()` (the outgoing edges of `player`, in
insertion order) for the first edge with positive flow; `break` after it. -/
def firstPositiveTarget (p : Ident) (efs : FlowList) : Option Node :=
  efs.findSome? (fun ef =>
    if ef.1.1 = Node.agent p ∧ 0 < ef.2 then some ef.1.2.1 else none)

/-- Build the assignment dict: for each player in order, its first
positive-flow outgoing edge (if any) names its role. -/
def decode (players : Players) (efs : FlowList) : List (Ident × Ident) :=
  players.foldl
    (fun acc pl =>
      match firstPositiveTarget pl.1 efs with
      | some t => acc ++ [(pl.1, nodeName t)]
      | none => acc)
    []

/-- `assign_roles(players, roles)` (source lines 5–62): build the network,
solve min-cost flow (`none` models the `Exception` raised on
`NetworkXUnfeasible`), decode the assignment, return it with the graph. -/
def assign_roles (players : Players) (roles : Roles) :
    Option (List (Ident × Ident) × List Edge) :=
  let es := buildEdges players roles
  match min_cost_flow (numPositions roles) es with
  | none => none
  | some efs => some (decode players efs, es)

/-! ## Derived definitions used by the verification -/

/-- The `source → player` edges, in loop order (source lines 33–35). -/
def srcEdges (players : Players) : List Edge :=
  players.map (fun pl => (.source, .agent pl.1, ⟨1, 0⟩))

/-- The preference edges of one player whose list is enumerated from index
`i`: one `player → role` edge per preference that is a key of `roles`, with
weight the enumeration index (source lines 37–42). -/
def prefEdgesFrom (roles : Roles) (p : Ident) (i : Nat) (prefs : List Ident) : List Edge :=
  (prefs.enumFrom i).filterMap
    (fun ir =>
      if ir.2 ∈ roleKeys roles then some (.agent p, .cat ir.2, ⟨1, ir.1⟩) else none)

/-- All preference edges, in loop order. -/
def prefEdges (players : Players) (roles : Roles) : List Edge :=
  players.flatMap (fun pl => prefEdgesFrom roles pl.1 0 pl.2)

/-- The `role → sink` edges, in loop order (source lines 44–46). -/
def sinkEdges (roles : Roles) : List Edge :=
  roles.map (fun rc => (.cat rc.1, .sink, ⟨rc.2, 0⟩))

/-- The attribute data stored in a graph for the edge `(u, v)`, if present. -/
def edgeDataOf (es : List Edge) (u v : Node) : Option EdgeData :=
  (es.find? (fun e => decide (e.1 = u ∧ e.2.1 = v))).map (·.2.2)

/-- The `(u, v)` keys of an edge list. -/
def edgeKeys (es : List Edge) : List (Node × Node) :=
  es.map (fun e => (e.1, e.2.1))

/-- The zero-based rank of the last occurrence of `r` in a preference list. -/
def lastRank (prefs : List Ident) (r : Ident) : Option Nat :=
  ((prefs.enum.filter (fun ir => decide (ir.2 = r))).map (·.1)).getLast?

/-- The preference list of player `p` (empty if `p` is not a player). -/
def prefsOf (players : Players) (p : Ident) : List Ident :=
  (players.lookup p).getD []

/-- Total cost of an assignment: the sum over assigned players of the
zero-based rank of the assigned role in that player's preference list. -/
def rankCost (players : Players) (asg : List (Ident × Ident)) : Nat :=
  (asg.map (fun pr => (prefsOf players pr.1).indexOf pr.2)).sum

/-- A feasible assignment in the sense of the specification: each assigned
player appears at most once and is a player, every assigned pair names a role
from that player's preference list that is a key of the role dict, and no
role exceeds its capacity. -/
def FeasAssign (players : Players) (roles : Roles) (asg : List (Ident × Ident)) : Prop :=
  (asg.map (·.1)).Nodup ∧
  (∀ pr ∈ asg, ∃ pl ∈ players, pl.1 = pr.1 ∧ pr.2 ∈ pl.2) ∧
  (∀ pr ∈ asg, pr.2 ∈ roleKeys roles) ∧
  ∀ rc ∈ roles, ((asg.countP (fun pr => decide (pr.2 = rc.1)) : Int) ≤ rc.2)

/-- An assignment that fills every role exactly to its capacity. -/
def Saturating (roles : Roles) (asg : List (Ident × Ident)) : Prop :=
  ∀ rc ∈ roles, ((asg.countP (fun pr => decide (pr.2 = rc.1)) : Int) = rc.2)

/-- The flow value an assignment induces on one edge of the built network:
`1` on the source edge of an assigned player, `1` on the preference edge of an
assigned pair, the number of players assigned to a role on its sink edge. -/
def assignFlowVal (asg : List (Ident × Ident)) : Edge → Nat
  | (.source, .agent p, _) => if asg.any (fun pr => pr.1 == p) then 1 else 0
  | (.agent p, .cat r, _) => if (p, r) ∈ asg then 1 else 0
  | (.cat r, .sink, _) => asg.countP (fun pr => decide (pr.2 = r))
  | _ => 0

/-- The flow induced by an assignment on an edge list. -/
def flowOfAssignment (es : List Edge) (asg : List (Ident × Ident)) : FlowList :=
  es.map (fun e => (e, assignFlowVal asg e))

/-- The players having at least one preference that is a key of `roles`
("eligible" agents: their node has at least one outgoing edge). -/
def eligiblePlayers (players : Players) (roles : Roles) : Players :=
  players.filter (fun pl => pl.2.any (fun r => decide (r ∈ roleKeys roles)))

/-- Total flow carried from `agent p` to `cat r`. -/
def pairFlow (p r : Ident) (efs : FlowList) : Nat :=
  (efs.map (fun ef =>
    if ef.1.1 = Node.agent p ∧ ef.1.2.1 = Node.cat r then ef.2 else 0)).sum

/-! ## Properties of the solver model -/

theorem pickMin_eq_none {c : FlowList → Nat} {l : List FlowList} :
    pickMin c l = none ↔ l = [] := by
  cases l with
  | nil => simp [pickMin]
  | cons x xs =>
    simp only [pickMin]
    cases h : pickMin c xs with
    | none => simp
    | some y =>
      constructor
      · intro hx
        by_cases hc : c x ≤ c y <;> simp [hc] at hx
      · intro hx
        exact absurd hx (by simp)

theorem pickMin_mem {c : FlowList → Nat} {l : List FlowList} {x : FlowList}
    (h : pickMin c l = some x) : x ∈ l := by
  induction l with
  | nil => simp [pickMin] at h
  | cons a as ih =>
    simp only [pickMin] at h
    cases ha : pickMin c as with
    | none =>
      rw [ha] at h
      simp only [Option.some.injEq] at h
      simp [← h]
    | some y =>
      rw [ha] at h
      by_cases hc : c a ≤ c y
      · simp only [if_pos hc, Option.some.injEq] at h
        simp [← h]
      · simp only [if_neg hc, Option.some.injEq] at h
        exact List.mem_cons_of_mem _ (ih (h ▸ ha))

theorem pickMin_le {c : FlowList → Nat} {l : List FlowList} {x : FlowList}
    (h : pickMin c l = some x) : ∀ y ∈ l, c x ≤ c y := by
  induction l generalizing x with
  | nil => simp [pickMin] at h
  | cons a as ih =>
    simp only [pickMin] at h
    cases ha : pickMin c as with
    | none =>
      rw [ha] at h
      simp only [Option.some.injEq] at h
      have hnil : as = [] := pickMin_eq_none.mp ha
      subst hnil
      intro z hz
      simp only [List.mem_singleton] at hz
      subst hz
      rw [h]
    | some y =>
      rw [ha] at h
      by_cases hc : c a ≤ c y
      · simp only [if_pos hc, Option.some.injEq] at h
        subst h
        intro z hz
        rcases List.mem_cons.mp hz with rfl | hz
        · exact le_refl _
        · exact le_trans hc (ih ha z hz)
      · simp only [if_neg hc, Option.some.injEq] at h
        subst h
        intro z hz
        rcases List.mem_cons.mp hz with rfl | hz
        · exact le_of_lt (lt_of_not_le hc)
        · exact ih ha z hz

theorem mem_flowOptions {e : Edge} {ex : Edge × Nat} :
    ex ∈ flowOptions e ↔ ex.1 = e ∧ (ex.2 : Int) ≤ e.2.2.capacity := by
  unfold flowOptions
  simp only [List.mem_map, List.mem_range]
  constructor
  · rintro ⟨x, hx, rfl⟩
    refine ⟨rfl, ?_⟩
    have : (x : Int) < e.2.2.capacity + 1 := Int.lt_toNat.mp hx
    omega
  · rintro ⟨h1, h2⟩
    refine ⟨ex.2, ?_, ?_⟩
    · exact Int.lt_toNat.mpr (by omega)
    · rw [← h1]

theorem mem_candidates {es : List Edge} {efs : FlowList} :
    efs ∈ candidates es ↔
      efs.map (·.1) = es ∧ ∀ ef ∈ efs, (ef.2 : Int) ≤ ef.1.2.2.capacity := by
  induction es generalizing efs with
  | nil =>
    constructor
    · intro h
      simp only [candidates, List.mem_singleton] at h
      subst h
      simp
    · rintro ⟨h1, _⟩
      have : efs = [] := by
        cases efs with
        | nil => rfl
        | cons a l => simp at h1
      subst this
      simp [candidates]
  | cons e es ih =>
    constructor
    · intro h
      simp only [candidates, List.mem_flatMap, List.mem_map] at h
      obtain ⟨ex, hex, g, hg, rfl⟩ := h
      obtain ⟨hx1, hx2⟩ := mem_flowOptions.mp hex
      obtain ⟨hg1, hg2⟩ := ih.mp hg
      refine ⟨by simp [hx1, hg1], ?_⟩
      intro ef hef
      rcases List.mem_cons.mp hef with hef | hef
      · subst hef; rw [hx1]; exact hx2
      · exact hg2 ef hef
    · rintro ⟨h1, h2⟩
      cases efs with
      | nil => simp at h1
      | cons ef g =>
        simp only [List.map_cons, List.cons.injEq] at h1
        obtain ⟨hef, hg⟩ := h1
        simp only [candidates, List.mem_flatMap, List.mem_map]
        refine ⟨ef, mem_flowOptions.mpr ⟨hef, hef ▸ h2 ef (by simp)⟩, g,
          ih.mpr ⟨hg, fun x hx => h2 x (List.mem_cons_of_mem _ hx)⟩, rfl⟩

theorem flowInto_eq_zero {n : Node} {efs : FlowList}
    (h : ∀ ef ∈ efs, ef.1.2.1 ≠ n) : flowInto n efs = 0 := by
  unfold flowInto
  refine List.sum_eq_zero ?_
  intro x hx
  obtain ⟨ef, hef, rfl⟩ := List.mem_map.mp hx
  simp [h ef hef]

theorem flowOutOf_eq_zero {n : Node} {efs : FlowList}
    (h : ∀ ef ∈ efs, ef.1.1 ≠ n) : flowOutOf n efs = 0 := by
  unfold flowOutOf
  refine List.sum_eq_zero ?_
  intro x hx
  obtain ⟨ef, hef, rfl⟩ := List.mem_map.mp hx
  simp [h ef hef]

theorem feasibleB_iff {np : Int} {efs : FlowList} :
    feasibleB np efs = true ↔ Feasible np efs := by
  unfold feasibleB Feasible
  rw [Bool.and_eq_true, List.all_eq_true, List.all_eq_true]
  constructor
  · rintro ⟨h1, h2⟩
    refine ⟨fun ef hef => by simpa using h1 ef hef, ?_⟩
    intro n
    by_cases hn : n ∈ checkNodes efs
    · have := h2 n hn
      simpa using this
    · have hnotin : ∀ ef ∈ efs, ef.1.1 ≠ n ∧ ef.1.2.1 ≠ n := by
        intro ef hef
        constructor <;> intro hc <;> exact hn (by
          simp only [checkNodes, List.mem_cons, List.mem_flatMap]
          right; right; exact ⟨ef, hef, by simp [hc]⟩)
      have hsrc : n ≠ Node.source := fun hc => hn (by simp [checkNodes, hc])
      have hsnk : n ≠ Node.sink := fun hc => hn (by simp [checkNodes, hc])
      have hin : flowInto n efs = 0 := flowInto_eq_zero (fun ef hef => (hnotin ef hef).2)
      have hout : flowOutOf n efs = 0 := flowOutOf_eq_zero (fun ef hef => (hnotin ef hef).1)
      have hd : demandOf np n = 0 := by
        cases n with
        | source => exact absurd rfl hsrc
        | sink => exact absurd rfl hsnk
        | agent p => rfl
        | cat r => rfl
      rw [netFlowAt, hin, hout, hd]
      simp
  · rintro ⟨h1, h2⟩
    refine ⟨fun ef hef => by simpa using h1 ef hef, ?_⟩
    intro n _
    simpa using h2 n

theorem min_cost_flow_some_spec {np : Int} {es : List Edge} {efs : FlowList}
    (h : min_cost_flow np es = some efs) :
    efs.map (·.1) = es ∧ Feasible np efs ∧
      ∀ g : FlowList, g.map (·.1) = es → Feasible np g → flowCost efs ≤ flowCost g := by
  have hmem := pickMin_mem h
  rw [List.mem_filter] at hmem
  obtain ⟨hc, hf⟩ := hmem
  obtain ⟨hmap, hcap⟩ := mem_candidates.mp hc
  have hfeas := feasibleB_iff.mp hf
  refine ⟨hmap, hfeas, ?_⟩
  intro g hg1 hg2
  refine pickMin_le h g ?_
  rw [List.mem_filter]
  exact ⟨mem_candidates.mpr ⟨hg1, hg2.1⟩, feasibleB_iff.mpr hg2⟩

theorem min_cost_flow_none_spec {np : Int} {es : List Edge}
    (h : min_cost_flow np es = none) :
    ∀ g : FlowList, g.map (·.1) = es → ¬Feasible np g := by
  intro g hg hfeas
  have : (candidates es).filter (feasibleB np) = [] := pickMin_eq_none.mp h
  have hmem : g ∈ (candidates es).filter (feasibleB np) := by
    rw [List.mem_filter]
    exact ⟨mem_candidates.mpr ⟨hg, hfeas.1⟩, feasibleB_iff.mpr hfeas⟩
  rw [this] at hmem
  exact absurd hmem (List.not_mem_nil g)

theorem min_cost_flow_isSome {np : Int} {es : List Edge} {g : FlowList}
    (hg : g.map (·.1) = es) (hfeas : Feasible np g) :
    (min_cost_flow np es).isSome := by
  cases h : min_cost_flow np es with
  | none => exact absurd hfeas (min_cost_flow_none_spec h g hg)
  | some efs => rfl

/-! ## Structure of the built graph -/

theorem addEdge_of_not_mem {es : List Edge} {u v : Node} {d : EdgeData}
    (h : ∀ e ∈ es, ¬(e.1 = u ∧ e.2.1 = v)) : addEdge es u v d = es ++ [(u, v, d)] := by
  induction es with
  | nil => rfl
  | cons e es ih =>
    simp only [addEdge]
    rw [if_neg (h e (by simp)), ih (fun x hx => h x (List.mem_cons_of_mem _ hx))]
    simp

theorem mem_srcEdges {players : Players} {e : Edge} :
    e ∈ srcEdges players ↔ ∃ pl ∈ players, e = (.source, .agent pl.1, ⟨1, 0⟩) := by
  simp only [srcEdges, List.mem_map]
  constructor
  · rintro ⟨pl, hpl, rfl⟩; exact ⟨pl, hpl, rfl⟩
  · rintro ⟨pl, hpl, rfl⟩; exact ⟨pl, hpl, rfl⟩

theorem mem_prefEdgesFrom {roles : Roles} {p : Ident} {i : Nat} {prefs : List Ident}
    {e : Edge} :
    e ∈ prefEdgesFrom roles p i prefs ↔
      ∃ jr ∈ prefs.enumFrom i, jr.2 ∈ roleKeys roles ∧
        e = (.agent p, .cat jr.2, ⟨1, jr.1⟩) := by
  simp only [prefEdgesFrom, List.mem_filterMap]
  constructor
  · rintro ⟨jr, hjr, he⟩
    by_cases hr : jr.2 ∈ roleKeys roles
    · rw [if_pos hr] at he
      exact ⟨jr, hjr, hr, (Option.some.injEq _ _ ▸ he).symm⟩
    · rw [if_neg hr] at he
      exact absurd he (by simp)
  · rintro ⟨jr, hjr, hr, rfl⟩
    exact ⟨jr, hjr, by rw [if_pos hr]⟩

theorem mem_prefEdges {players : Players} {roles : Roles} {e : Edge} :
    e ∈ prefEdges players roles ↔
      ∃ pl ∈ players, ∃ jr ∈ pl.2.enum, jr.2 ∈ roleKeys roles ∧
        e = (.agent pl.1, .cat jr.2, ⟨1, jr.1⟩) := by
  simp only [prefEdges, List.mem_flatMap]
  constructor
  · rintro ⟨pl, hpl, he⟩
    obtain ⟨jr, hjr, hr, rfl⟩ := mem_prefEdgesFrom.mp he
    exact ⟨pl, hpl, jr, hjr, hr, rfl⟩
  · rintro ⟨pl, hpl, jr, hjr, hr, rfl⟩
    exact ⟨pl, hpl, mem_prefEdgesFrom.mpr ⟨jr, hjr, hr, rfl⟩⟩

theorem mem_sinkEdges {roles : Roles} {e : Edge} :
    e ∈ sinkEdges roles ↔ ∃ rc ∈ roles, e = (.cat rc.1, .sink, ⟨rc.2, 0⟩) := by
  simp only [sinkEdges, List.mem_map]
  constructor
  · rintro ⟨rc, hrc, rfl⟩; exact ⟨rc, hrc, rfl⟩
  · rintro ⟨rc, hrc, rfl⟩; exact ⟨rc, hrc, rfl⟩

theorem foldl_src_eq (players : Players) (es0 : List Edge)
    (hfresh : ∀ pl ∈ players, ∀ e ∈ es0, ¬(e.1 = Node.source ∧ e.2.1 = Node.agent pl.1))
    (hnd : (players.map (·.1)).Nodup) :
    players.foldl (fun es pl => addEdge es .source (.agent pl.1) ⟨1, 0⟩) es0
      = es0 ++ srcEdges players := by
  induction players generalizing es0 with
  | nil => simp [srcEdges]
  | cons pl pls ih =>
    simp only [List.map_cons, List.nodup_cons] at hnd
    obtain ⟨hnotin, hnd⟩ := hnd
    simp only [List.foldl_cons]
    rw [addEdge_of_not_mem (hfresh pl (by simp)), ih _ ?_ hnd]
    · simp [srcEdges]
    · intro q hq e he
      rcases List.mem_append.mp he with he | he
      · exact hfresh q (List.mem_cons_of_mem _ hq) e he
      · simp only [List.mem_singleton] at he
        subst he
        rintro ⟨-, h2⟩
        simp only [Node.agent.injEq] at h2
        exact hnotin (h2 ▸ List.mem_map.mpr ⟨q, hq, rfl⟩)

theorem foldl_pref_inner_eq (roles : Roles) (p : Ident) (prefs : List Ident) (i : Nat)
    (es0 : List Edge)
    (hfresh : ∀ r ∈ prefs, ∀ e ∈ es0, ¬(e.1 = Node.agent p ∧ e.2.1 = Node.cat r))
    (hnd : prefs.Nodup) :
    (prefs.enumFrom i).foldl
        (fun es ir =>
          if ir.2 ∈ roleKeys roles then addEdge es (.agent p) (.cat ir.2) ⟨1, ir.1⟩ else es)
        es0
      = es0 ++ prefEdgesFrom roles p i prefs := by
  induction prefs generalizing i es0 with
  | nil => simp [prefEdgesFrom]
  | cons r prefs ih =>
    simp only [List.nodup_cons] at hnd
    obtain ⟨hrnot, hnd⟩ := hnd
    have hstep : List.enumFrom i (r :: prefs) = (i, r) :: List.enumFrom (i + 1) prefs := rfl
    rw [hstep]
    simp only [List.foldl_cons]
    have hpe : prefEdgesFrom roles p i (r :: prefs)
        = (if r ∈ roleKeys roles then [(Node.agent p, Node.cat r, ⟨1, i⟩)] else [])
            ++ prefEdgesFrom roles p (i + 1) prefs := by
      simp only [prefEdgesFrom, hstep, List.filterMap_cons]
      by_cases hr : r ∈ roleKeys roles
      · rw [if_pos hr, if_pos hr]; rfl
      · rw [if_neg hr, if_neg hr]; rfl
    by_cases hr : r ∈ roleKeys roles
    · rw [if_pos hr, addEdge_of_not_mem (hfresh r (by simp)), ih (i + 1) _ ?_ hnd]
      · rw [hpe, if_pos hr]
        simp
      · intro r2 hr2 e he
        rcases List.mem_append.mp he with he | he
        · exact hfresh r2 (List.mem_cons_of_mem _ hr2) e he
        · simp only [List.mem_singleton] at he
          subst he
          rintro ⟨-, h2⟩
          simp only [Node.cat.injEq] at h2
          exact hrnot (h2 ▸ hr2)
    · rw [if_neg hr, ih (i + 1) _ (fun r2 hr2 => hfresh r2 (List.mem_cons_of_mem _ hr2)) hnd,
        hpe, if_neg hr]
      simp

theorem foldl_pref_eq (players : Players) (roles : Roles) (es0 : List Edge)
    (hfresh : ∀ pl ∈ players, ∀ e ∈ es0, e.1 ≠ Node.agent pl.1)
    (hnd : (players.map (·.1)).Nodup)
    (hprefs : ∀ pl ∈ players, pl.2.Nodup) :
    players.foldl
        (fun es pl =>
          pl.2.enum.foldl
            (fun es ir =>
              if ir.2 ∈ roleKeys roles then addEdge es (.agent pl.1) (.cat ir.2) ⟨1, ir.1⟩
              else es)
            es)
        es0
      = es0 ++ prefEdges players roles := by
  induction players generalizing es0 with
  | nil => simp [prefEdges]
  | cons pl pls ih =>
    simp only [List.map_cons, List.nodup_cons] at hnd
    obtain ⟨hnotin, hnd⟩ := hnd
    simp only [List.foldl_cons]
    have henum : pl.2.enum = pl.2.enumFrom 0 := rfl
    rw [henum, foldl_pref_inner_eq roles pl.1 pl.2 0 es0
        (fun r _ e he => fun hc => hfresh pl (by simp) e he hc.1)
        (hprefs pl (by simp)),
      ih _ ?_ hnd (fun q hq => hprefs q (List.mem_cons_of_mem _ hq))]
    · simp [prefEdges]
    · intro q hq e he
      rcases List.mem_append.mp he with he | he
      · exact hfresh q (List.mem_cons_of_mem _ hq) e he
      · obtain ⟨jr, _, _, rfl⟩ := mem_prefEdgesFrom.mp he
        intro hc
        simp only [Node.agent.injEq] at hc
        exact hnotin (hc ▸ List.mem_map.mpr ⟨q, hq, rfl⟩)

theorem foldl_sink_eq (roles : Roles) (es0 : List Edge)
    (hfresh : ∀ rc ∈ roles, ∀ e ∈ es0, ¬(e.1 = Node.cat rc.1 ∧ e.2.1 = Node.sink))
    (hnd : (roles.map (·.1)).Nodup) :
    roles.foldl (fun es rc => addEdge es (.cat rc.1) .sink ⟨rc.2, 0⟩) es0
      = es0 ++ sinkEdges roles := by
  induction roles generalizing es0 with
  | nil => simp [sinkEdges]
  | cons rc rcs ih =>
    simp only [List.map_cons, List.nodup_cons] at hnd
    obtain ⟨hnotin, hnd⟩ := hnd
    simp only [List.foldl_cons]
    rw [addEdge_of_not_mem (hfresh rc (by simp)), ih _ ?_ hnd]
    · simp [sinkEdges]
    · intro q hq e he
      rcases List.mem_append.mp he with he | he
      · exact hfresh q (List.mem_cons_of_mem _ hq) e he
      · simp only [List.mem_singleton] at he
        subst he
        rintro ⟨h1, -⟩
        simp only [Node.cat.injEq] at h1
        exact hnotin (h1 ▸ List.mem_map.mpr ⟨q, hq, rfl⟩)

/-- Under the dict constraints (unique player names, unique role names,
no repeated role inside one preference list) the built graph is exactly the
source edges, then the preference edges, then the sink edges. -/
theorem buildEdges_eq {players : Players} {roles : Roles}
    (hp : (players.map (·.1)).Nodup)
    (hprefs : ∀ pl ∈ players, pl.2.Nodup)
    (hr : (roles.map (·.1)).Nodup) :
    buildEdges players roles
      = srcEdges players ++ prefEdges players roles ++ sinkEdges roles := by
  unfold buildEdges
  rw [foldl_src_eq players [] (by simp) hp]
  simp only [List.nil_append]
  rw [foldl_pref_eq players roles (srcEdges players) ?_ hp hprefs]
  · rw [foldl_sink_eq roles _ ?_ hr]
    intro rc hrc e he
    rcases List.mem_append.mp he with he | he
    · obtain ⟨pl, _, rfl⟩ := mem_srcEdges.mp he
      rintro ⟨-, h2⟩
      exact absurd h2 (by simp)
    · obtain ⟨pl, _, jr, _, _, rfl⟩ := mem_prefEdges.mp he
      rintro ⟨h1, -⟩
      exact absurd h1 (by simp)
  · intro pl hpl e he
    obtain ⟨q, _, rfl⟩ := mem_srcEdges.mp he
    simp

/-! ## Sum lemmas for flow accounting -/

theorem sum_map_add {α : Type} {l : List α} {f g : α → Nat} :
    (l.map (fun x => f x + g x)).sum = (l.map f).sum + (l.map g).sum := by
  induction l with
  | nil => rfl
  | cons a l ih => simp only [List.map_cons, List.sum_cons, ih]; omega

theorem le_sum_map_of_mem {α : Type} {l : List α} {f : α → Nat} {x : α} (hx : x ∈ l) :
    f x ≤ (l.map f).sum := by
  induction l with
  | nil => exact absurd hx (List.not_mem_nil x)
  | cons a l ih =>
    rcases List.mem_cons.mp hx with rfl | hx
    · simp
    · simp only [List.map_cons, List.sum_cons]
      exact le_trans (ih hx) (Nat.le_add_left _ _)

theorem sum_map_ite_eq {ns : List Node} (hnd : ns.Nodup) {m : Node} (hm : m ∈ ns)
    (v : Nat) : (ns.map (fun n => if m = n then v else 0)).sum = v := by
  induction ns with
  | nil => exact absurd hm (List.not_mem_nil m)
  | cons n ns ih =>
    simp only [List.nodup_cons] at hnd
    obtain ⟨hn, hnd⟩ := hnd
    simp only [List.map_cons, List.sum_cons]
    by_cases h : m = n
    · subst h
      rw [if_pos rfl]
      have : (ns.map (fun n => if m = n then v else 0)).sum = 0 :=
        List.sum_eq_zero (by
          intro x hx
          obtain ⟨k, hk, rfl⟩ := List.mem_map.mp hx
          have hmk : ¬m = k := fun hc => hn (by rw [hc]; exact hk)
          rw [if_neg hmk])
      omega
    · rw [if_neg h]
      have hm2 : m ∈ ns := by
        rcases List.mem_cons.mp hm with rfl | hm2
        · exact absurd rfl h
        · exact hm2
      simp [ih hnd hm2]

theorem sum_ite_key_int {roles : Roles} (hnd : (roles.map (·.1)).Nodup) {r : Ident}
    {c : Int} (hm : (r, c) ∈ roles) :
    (roles.map (fun rc => if rc.1 = r then rc.2 else 0)).sum = c := by
  induction roles with
  | nil => exact absurd hm (List.not_mem_nil _)
  | cons rc rcs ih =>
    simp only [List.map_cons, List.nodup_cons] at hnd
    obtain ⟨hn, hnd⟩ := hnd
    simp only [List.map_cons, List.sum_cons]
    by_cases h : rc.1 = r
    · rw [if_pos h]
      have hrc : rc.2 = c := by
        rcases List.mem_cons.mp hm with heq | hm2
        · rw [← heq]
        · exact absurd (by rw [h]; exact List.mem_map.mpr ⟨(r, c), hm2, rfl⟩) hn
      have hz : (rcs.map (fun rc => if rc.1 = r then rc.2 else 0)).sum = 0 :=
        List.sum_eq_zero (by
          intro x hx
          obtain ⟨k, hk, rfl⟩ := List.mem_map.mp hx
          have hkr : ¬k.1 = r := by
            intro hc
            exact hn (by rw [h, ← hc]; exact List.mem_map.mpr ⟨k, hk, rfl⟩)
          rw [if_neg hkr])
      rw [hrc, hz, add_zero]
    · rw [if_neg h]
      have hm2 : (r, c) ∈ rcs := by
        rcases List.mem_cons.mp hm with heq | hm2
        · exact absurd (by rw [← heq]) h
        · exact hm2
      simp [ih hnd hm2]

theorem sum_ite_one_count {α : Type} [DecidableEq α] {l : List α} (a : α) :
    (l.map (fun x => if x = a then 1 else 0)).sum = l.count a := by
  induction l with
  | nil => rfl
  | cons x l ih =>
    simp only [List.map_cons, List.sum_cons, List.count_cons, ih]
    by_cases h : x = a
    · simp only [if_pos h, beq_iff_eq, if_pos h]
      omega
    · simp only [if_neg h, beq_iff_eq, if_neg h]
      omega

theorem flowInto_append {n : Node} {a b : FlowList} :
    flowInto n (a ++ b) = flowInto n a + flowInto n b := by
  simp [flowInto]

theorem flowOutOf_append {n : Node} {a b : FlowList} :
    flowOutOf n (a ++ b) = flowOutOf n a + flowOutOf n b := by
  simp [flowOutOf]

theorem flowInto_eq_sum {n : Node} {efs : FlowList}
    (h : ∀ ef ∈ efs, ef.1.2.1 = n) : flowInto n efs = (efs.map (·.2)).sum := by
  unfold flowInto
  congr 1
  exact List.map_congr_left (fun ef hef => by rw [if_pos (h ef hef)])

theorem flowOutOf_eq_sum {n : Node} {efs : FlowList}
    (h : ∀ ef ∈ efs, ef.1.1 = n) : flowOutOf n efs = (efs.map (·.2)).sum := by
  unfold flowOutOf
  congr 1
  exact List.map_congr_left (fun ef hef => by rw [if_pos (h ef hef)])

theorem sum_flowOutOf_nodes {ns : List Node} (hnd : ns.Nodup) {efs : FlowList}
    (h : ∀ ef ∈ efs, ef.1.1 ∈ ns) :
    (ns.map (fun n => flowOutOf n efs)).sum = (efs.map (·.2)).sum := by
  induction efs with
  | nil =>
    simp only [List.map_nil, List.sum_nil]
    exact List.sum_eq_zero (by
      intro x hx
      obtain ⟨k, _, rfl⟩ := List.mem_map.mp hx
      simp [flowOutOf])
  | cons ef efs ih =>
    have hstep : ∀ n, flowOutOf n (ef :: efs)
        = (if ef.1.1 = n then ef.2 else 0) + flowOutOf n efs := by
      intro n; simp [flowOutOf]
    simp only [hstep, List.map_cons, List.sum_cons]
    rw [sum_map_add, ih (fun x hx => h x (List.mem_cons_of_mem _ hx)),
      sum_map_ite_eq hnd (h ef (by simp)) ef.2]

theorem sum_flowInto_nodes {ns : List Node} (hnd : ns.Nodup) {efs : FlowList}
    (h : ∀ ef ∈ efs, ef.1.2.1 ∈ ns) :
    (ns.map (fun n => flowInto n efs)).sum = (efs.map (·.2)).sum := by
  induction efs with
  | nil =>
    simp only [List.map_nil, List.sum_nil]
    exact List.sum_eq_zero (by
      intro x hx
      obtain ⟨k, _, rfl⟩ := List.mem_map.mp hx
      simp [flowInto])
  | cons ef efs ih =>
    have hstep : ∀ n, flowInto n (ef :: efs)
        = (if ef.1.2.1 = n then ef.2 else 0) + flowInto n efs := by
      intro n; simp [flowInto]
    simp only [hstep, List.map_cons, List.sum_cons]
    rw [sum_map_add, ih (fun x hx => h x (List.mem_cons_of_mem _ hx)),
      sum_map_ite_eq hnd (h ef (by simp)) ef.2]

theorem cast_sum_map {α : Type} (l : List α) (f : α → Nat) :
    (((l.map f).sum : Nat) : Int) = (l.map (fun x => (f x : Int))).sum := by
  rw [Nat.cast_list_sum, List.map_map]
  rfl

theorem saturated_of_sum_eq {l : FlowList}
    (hle : ∀ ef ∈ l, (ef.2 : Int) ≤ ef.1.2.2.capacity)
    (hsum : (l.map (fun ef => (ef.2 : Int))).sum
      = (l.map (fun ef => ef.1.2.2.capacity)).sum) :
    ∀ ef ∈ l, (ef.2 : Int) = ef.1.2.2.capacity := by
  induction l with
  | nil => intro ef hef; exact absurd hef (List.not_mem_nil ef)
  | cons e l ih =>
    simp only [List.map_cons, List.sum_cons] at hsum
    have hrest : (l.map (fun ef => (ef.2 : Int))).sum
        ≤ (l.map (fun ef => ef.1.2.2.capacity)).sum :=
      List.sum_le_sum (fun ef hef => hle ef (List.mem_cons_of_mem _ hef))
    have hhead : (e.2 : Int) ≤ e.1.2.2.capacity := hle e (by simp)
    have h1 : (e.2 : Int) = e.1.2.2.capacity := by omega
    have h2 : (l.map (fun ef => (ef.2 : Int))).sum
        = (l.map (fun ef => ef.1.2.2.capacity)).sum := by omega
    intro ef hef
    rcases List.mem_cons.mp hef with rfl | hef
    · exact h1
    · exact ih (fun x hx => hle x (List.mem_cons_of_mem _ hx)) h2 ef hef

theorem sum_filter_ite {q : Edge × Nat → Bool} {efs : FlowList} {f : Edge × Nat → Nat} :
    ((efs.filter q).map f).sum = (efs.map (fun ef => if q ef then f ef else 0)).sum := by
  induction efs with
  | nil => rfl
  | cons ef efs ih =>
    by_cases h : q ef
    · simp [List.filter_cons, h, ih]
    · simp [List.filter_cons, h, ih]

/-! ## Analysis of feasible flows on the built graph -/

theorem sum_map_fst {efs : FlowList} {es : List Edge} (hmap : efs.map (·.1) = es)
    (F : Edge → Nat) : (efs.map (fun ef => F ef.1)).sum = (es.map F).sum := by
  rw [← hmap, List.map_map]
  rfl

theorem sum_map_fst_int {efs : FlowList} {es : List Edge} (hmap : efs.map (·.1) = es)
    (F : Edge → Int) : (efs.map (fun ef => F ef.1)).sum = (es.map F).sum := by
  rw [← hmap, List.map_map]
  rfl

theorem sum_flowOutOf_nodes2 {ns : List Node} (hnd : ns.Nodup) (efs : FlowList) :
    (ns.map (fun n => flowOutOf n efs)).sum
      = (efs.map (fun ef => if ef.1.1 ∈ ns then ef.2 else 0)).sum := by
  induction efs with
  | nil =>
    simp only [List.map_nil, List.sum_nil]
    exact List.sum_eq_zero (by
      intro x hx
      obtain ⟨k, _, rfl⟩ := List.mem_map.mp hx
      simp [flowOutOf])
  | cons ef efs ih =>
    have hstep : ∀ n, flowOutOf n (ef :: efs)
        = (if ef.1.1 = n then ef.2 else 0) + flowOutOf n efs := by
      intro n; simp [flowOutOf]
    simp only [hstep, List.map_cons, List.sum_cons]
    rw [sum_map_add, ih]
    congr 1
    by_cases hm : ef.1.1 ∈ ns
    · rw [if_pos hm, sum_map_ite_eq hnd hm]
    · rw [if_neg hm]
      exact List.sum_eq_zero (by
        intro x hx
        obtain ⟨k, hk, rfl⟩ := List.mem_map.mp hx
        have hnk : ¬ef.1.1 = k := fun hc => hm (by rw [hc]; exact hk)
        rw [if_neg hnk])

theorem sum_flowInto_nodes2 {ns : List Node} (hnd : ns.Nodup) (efs : FlowList) :
    (ns.map (fun n => flowInto n efs)).sum
      = (efs.map (fun ef => if ef.1.2.1 ∈ ns then ef.2 else 0)).sum := by
  induction efs with
  | nil =>
    simp only [List.map_nil, List.sum_nil]
    exact List.sum_eq_zero (by
      intro x hx
      obtain ⟨k, _, rfl⟩ := List.mem_map.mp hx
      simp [flowInto])
  | cons ef efs ih =>
    have hstep : ∀ n, flowInto n (ef :: efs)
        = (if ef.1.2.1 = n then ef.2 else 0) + flowInto n efs := by
      intro n; simp [flowInto]
    simp only [hstep, List.map_cons, List.sum_cons]
    rw [sum_map_add, ih]
    congr 1
    by_cases hm : ef.1.2.1 ∈ ns
    · rw [if_pos hm, sum_map_ite_eq hnd hm]
    · rw [if_neg hm]
      exact List.sum_eq_zero (by
        intro x hx
        obtain ⟨k, hk, rfl⟩ := List.mem_map.mp hx
        have hnk : ¬ef.1.2.1 = k := fun hc => hm (by rw [hc]; exact hk)
        rw [if_neg hnk])

theorem mem_graph_cases {players : Players} {roles : Roles} {e : Edge}
    (he : e ∈ srcEdges players ++ prefEdges players roles ++ sinkEdges roles) :
    (∃ pl ∈ players, e = (.source, .agent pl.1, ⟨1, 0⟩)) ∨
    (∃ pl ∈ players, ∃ jr ∈ pl.2.enum, jr.2 ∈ roleKeys roles ∧
      e = (.agent pl.1, .cat jr.2, ⟨1, jr.1⟩)) ∨
    (∃ rc ∈ roles, e = (.cat rc.1, .sink, ⟨rc.2, 0⟩)) := by
  rcases List.mem_append.mp he with he | he
  · rcases List.mem_append.mp he with he | he
    · exact Or.inl (mem_srcEdges.mp he)
    · exact Or.inr (Or.inl (mem_prefEdges.mp he))
  · exact Or.inr (Or.inr (mem_sinkEdges.mp he))

theorem flow_edge_cases {players : Players} {roles : Roles} {efs : FlowList}
    (hG : efs.map (·.1) = srcEdges players ++ prefEdges players roles ++ sinkEdges roles)
    {ef : Edge × Nat} (hef : ef ∈ efs) :
    (∃ pl ∈ players, ef.1 = (.source, .agent pl.1, ⟨1, 0⟩)) ∨
    (∃ pl ∈ players, ∃ jr ∈ pl.2.enum, jr.2 ∈ roleKeys roles ∧
      ef.1 = (.agent pl.1, .cat jr.2, ⟨1, jr.1⟩)) ∨
    (∃ rc ∈ roles, ef.1 = (.cat rc.1, .sink, ⟨rc.2, 0⟩)) :=
  mem_graph_cases (hG ▸ List.mem_map_of_mem (·.1) hef)

theorem flow_src_total {players : Players} {roles : Roles} {np : Int} {efs : FlowList}
    (hG : efs.map (·.1) = srcEdges players ++ prefEdges players roles ++ sinkEdges roles)
    (hfeas : Feasible np efs) :
    (flowOutOf Node.source efs : Int) = np := by
  have h0 : flowInto Node.source efs = 0 := flowInto_eq_zero (by
    intro ef hef
    rcases flow_edge_cases hG hef with ⟨pl, _, he⟩ | ⟨pl, _, jr, _, _, he⟩ | ⟨rc, _, he⟩ <;>
      rw [he] <;> simp)
  have hb := hfeas.2 Node.source
  rw [netFlowAt, h0] at hb
  simp only [demandOf] at hb
  omega

theorem flow_sink_total {players : Players} {roles : Roles} {np : Int} {efs : FlowList}
    (hG : efs.map (·.1) = srcEdges players ++ prefEdges players roles ++ sinkEdges roles)
    (hfeas : Feasible np efs) :
    (flowInto Node.sink efs : Int) = np := by
  have h0 : flowOutOf Node.sink efs = 0 := flowOutOf_eq_zero (by
    intro ef hef
    rcases flow_edge_cases hG hef with ⟨pl, _, he⟩ | ⟨pl, _, jr, _, _, he⟩ | ⟨rc, _, he⟩ <;>
      rw [he] <;> simp)
  have hb := hfeas.2 Node.sink
  rw [netFlowAt, h0] at hb
  simp only [demandOf] at hb
  omega

theorem flow_agent_balance {np : Int} {efs : FlowList} (hfeas : Feasible np efs)
    (p : Ident) : flowOutOf (Node.agent p) efs = flowInto (Node.agent p) efs := by
  have hb := hfeas.2 (Node.agent p)
  rw [netFlowAt] at hb
  simp only [demandOf] at hb
  omega

theorem flow_cat_balance {np : Int} {efs : FlowList} (hfeas : Feasible np efs)
    (r : Ident) : flowInto (Node.cat r) efs = flowOutOf (Node.cat r) efs := by
  have hb := hfeas.2 (Node.cat r)
  rw [netFlowAt] at hb
  simp only [demandOf] at hb
  omega

theorem flow_into_agent_le_one {players : Players} {roles : Roles} {np : Int}
    {efs : FlowList}
    (hG : efs.map (·.1) = srcEdges players ++ prefEdges players roles ++ sinkEdges roles)
    (hfeas : Feasible np efs)
    (hp : (players.map (·.1)).Nodup) (p : Ident) :
    flowInto (Node.agent p) efs ≤ 1 := by
  have hstep1 : flowInto (Node.agent p) efs
      ≤ (efs.map (fun ef => if ef.1.2.1 = Node.agent p then 1 else 0)).sum := by
    unfold flowInto
    refine List.sum_le_sum ?_
    intro ef hef
    by_cases hc : ef.1.2.1 = Node.agent p
    · rw [if_pos hc, if_pos hc]
      rcases flow_edge_cases hG hef with ⟨pl, _, he⟩ | ⟨pl, _, jr, _, _, he⟩ | ⟨rc, _, he⟩
      · have hcap := hfeas.1 ef hef
        rw [he] at hcap
        have h1 : (ef.2 : Int) ≤ 1 := by simpa using hcap
        exact_mod_cast h1
      · rw [he] at hc
        exact absurd hc (by simp)
      · rw [he] at hc
        exact absurd hc (by simp)
    · rw [if_neg hc, if_neg hc]
  have hstep2 : (efs.map (fun ef => if ef.1.2.1 = Node.agent p then 1 else 0)).sum
      = ((srcEdges players ++ prefEdges players roles ++ sinkEdges roles).map
          (fun e => if e.2.1 = Node.agent p then 1 else 0)).sum :=
    sum_map_fst hG (fun e => if e.2.1 = Node.agent p then 1 else 0)
  have hstep3 : ((srcEdges players ++ prefEdges players roles ++ sinkEdges roles).map
      (fun e => if e.2.1 = Node.agent p then 1 else 0)).sum
      = ((players.map (·.1)).map (fun q => if q = p then 1 else 0)).sum := by
    simp only [List.map_append, List.sum_append]
    have hz1 : ((prefEdges players roles).map
        (fun e => if e.2.1 = Node.agent p then 1 else 0)).sum = 0 :=
      List.sum_eq_zero (by
        intro x hx
        obtain ⟨e, he, rfl⟩ := List.mem_map.mp hx
        obtain ⟨pl, _, jr, _, _, rfl⟩ := mem_prefEdges.mp he
        simp)
    have hz2 : ((sinkEdges roles).map
        (fun e => if e.2.1 = Node.agent p then 1 else 0)).sum = 0 :=
      List.sum_eq_zero (by
        intro x hx
        obtain ⟨e, he, rfl⟩ := List.mem_map.mp hx
        obtain ⟨rc, _, rfl⟩ := mem_sinkEdges.mp he
        simp)
    rw [hz1, hz2, add_zero, add_zero]
    unfold srcEdges
    rw [List.map_map, List.map_map]
    refine congrArg List.sum (List.map_congr_left ?_)
    intro pl _
    simp [Function.comp, Node.agent.injEq]
  calc flowInto (Node.agent p) efs
      ≤ (efs.map (fun ef => if ef.1.2.1 = Node.agent p then 1 else 0)).sum := hstep1
    _ = ((srcEdges players ++ prefEdges players roles ++ sinkEdges roles).map
          (fun e => if e.2.1 = Node.agent p then 1 else 0)).sum := hstep2
    _ = ((players.map (·.1)).map (fun q => if q = p then 1 else 0)).sum := hstep3
    _ = (players.map (·.1)).count p := sum_ite_one_count p
    _ ≤ 1 := List.nodup_iff_count_le_one.mp hp p

theorem flow_out_agent_le_one {players : Players} {roles : Roles} {np : Int}
    {efs : FlowList}
    (hG : efs.map (·.1) = srcEdges players ++ prefEdges players roles ++ sinkEdges roles)
    (hfeas : Feasible np efs)
    (hp : (players.map (·.1)).Nodup) (p : Ident) :
    flowOutOf (Node.agent p) efs ≤ 1 := by
  rw [flow_agent_balance hfeas p]
  exact flow_into_agent_le_one hG hfeas hp p


theorem sum_filter_ite_int {q : Edge × Nat → Bool} {efs : FlowList}
    {f : Edge × Nat → Int} :
    ((efs.filter q).map f).sum = (efs.map (fun ef => if q ef then f ef else 0)).sum := by
  induction efs with
  | nil => rfl
  | cons ef efs ih =>
    by_cases h : q ef
    · simp [List.filter_cons, h, ih]
    · simp [List.filter_cons, h, ih]

theorem flowInto_int {n : Node} {efs : FlowList} :
    (flowInto n efs : Int)
      = (efs.map (fun ef => if ef.1.2.1 = n then (ef.2 : Int) else 0)).sum := by
  unfold flowInto
  rw [cast_sum_map]
  refine congrArg List.sum (List.map_congr_left ?_)
  intro ef _
  by_cases hc : ef.1.2.1 = n <;> simp [hc]

theorem flowOutOf_int {n : Node} {efs : FlowList} :
    (flowOutOf n efs : Int)
      = (efs.map (fun ef => if ef.1.1 = n then (ef.2 : Int) else 0)).sum := by
  unfold flowOutOf
  rw [cast_sum_map]
  refine congrArg List.sum (List.map_congr_left ?_)
  intro ef _
  by_cases hc : ef.1.1 = n <;> simp [hc]

theorem sink_edges_saturated {players : Players} {roles : Roles} {efs : FlowList}
    (hG : efs.map (·.1) = srcEdges players ++ prefEdges players roles ++ sinkEdges roles)
    (hfeas : Feasible (numPositions roles) efs) :
    ∀ ef ∈ efs, ef.1.2.1 = Node.sink → (ef.2 : Int) = ef.1.2.2.capacity := by
  have hvals : ((efs.filter (fun ef => decide (ef.1.2.1 = Node.sink))).map
      (fun ef => (ef.2 : Int))).sum = numPositions roles := by
    rw [sum_filter_ite_int]
    have heq : (efs.map (fun ef => if decide (ef.1.2.1 = Node.sink) then (ef.2 : Int) else 0)).sum
        = (efs.map (fun ef => if ef.1.2.1 = Node.sink then (ef.2 : Int) else 0)).sum := by
      refine congrArg List.sum (List.map_congr_left ?_)
      intro ef _
      by_cases hc : ef.1.2.1 = Node.sink <;> simp [hc]
    rw [heq, ← flowInto_int]
    exact flow_sink_total hG hfeas
  have hcaps : ((efs.filter (fun ef => decide (ef.1.2.1 = Node.sink))).map
      (fun ef => ef.1.2.2.capacity)).sum = numPositions roles := by
    rw [sum_filter_ite_int]
    have heq : (efs.map (fun ef => if decide (ef.1.2.1 = Node.sink) then ef.1.2.2.capacity else 0)).sum
        = (efs.map (fun ef => (fun e => if e.2.1 = Node.sink then e.2.2.capacity else 0) ef.1)).sum := by
      refine congrArg List.sum (List.map_congr_left ?_)
      intro ef _
      by_cases hc : ef.1.2.1 = Node.sink <;> simp [hc]
    rw [heq, sum_map_fst_int hG (fun e => if e.2.1 = Node.sink then e.2.2.capacity else 0)]
    simp only [List.map_append, List.sum_append]
    have hz1 : ((srcEdges players).map
        (fun e => if e.2.1 = Node.sink then e.2.2.capacity else 0)).sum = 0 :=
      List.sum_eq_zero (by
        intro x hx
        obtain ⟨e, he, rfl⟩ := List.mem_map.mp hx
        obtain ⟨pl, _, rfl⟩ := mem_srcEdges.mp he
        simp)
    have hz2 : ((prefEdges players roles).map
        (fun e => if e.2.1 = Node.sink then e.2.2.capacity else 0)).sum = 0 :=
      List.sum_eq_zero (by
        intro x hx
        obtain ⟨e, he, rfl⟩ := List.mem_map.mp hx
        obtain ⟨pl, _, jr, _, _, rfl⟩ := mem_prefEdges.mp he
        simp)
    rw [hz1, hz2]
    have hsink : ((sinkEdges roles).map
        (fun e => if e.2.1 = Node.sink then e.2.2.capacity else 0)).sum
        = (roles.map (·.2)).sum := by
      unfold sinkEdges
      rw [List.map_map]
      refine congrArg List.sum (List.map_congr_left ?_)
      intro rc _
      simp [Function.comp]
    rw [hsink]
    simp [numPositions]
  have hsat := saturated_of_sum_eq
    (l := efs.filter (fun ef => decide (ef.1.2.1 = Node.sink)))
    (fun ef hef => hfeas.1 ef (List.mem_of_mem_filter hef))
    (by rw [hvals, hcaps])
  intro ef hef htgt
  exact hsat ef (List.mem_filter.mpr ⟨hef, by simp [htgt]⟩)

theorem flow_out_cat_eq_cap {players : Players} {roles : Roles} {efs : FlowList}
    (hG : efs.map (·.1) = srcEdges players ++ prefEdges players roles ++ sinkEdges roles)
    (hfeas : Feasible (numPositions roles) efs)
    (hr : (roles.map (·.1)).Nodup) {rc : Ident × Int} (hrc : rc ∈ roles) :
    (flowOutOf (Node.cat rc.1) efs : Int) = rc.2 := by
  rw [flowOutOf_int]
  have hpt : (efs.map (fun ef => if ef.1.1 = Node.cat rc.1 then (ef.2 : Int) else 0)).sum
      = (efs.map (fun ef =>
          (fun e => if e.1 = Node.cat rc.1 then e.2.2.capacity else 0) ef.1)).sum := by
    refine congrArg List.sum (List.map_congr_left ?_)
    intro ef hef
    by_cases hc : ef.1.1 = Node.cat rc.1
    · rw [if_pos hc]
      have hsink : ef.1.2.1 = Node.sink := by
        rcases flow_edge_cases hG hef with ⟨pl, _, he⟩ | ⟨pl, _, jr, _, _, he⟩ | ⟨rc2, _, he⟩
        · rw [he] at hc; exact absurd hc (by simp)
        · rw [he] at hc; exact absurd hc (by simp)
        · rw [he]
      rw [sink_edges_saturated hG hfeas ef hef hsink]
      simp [hc]
    · rw [if_neg hc]
      simp [hc]
  rw [hpt, sum_map_fst_int hG (fun e => if e.1 = Node.cat rc.1 then e.2.2.capacity else 0)]
  simp only [List.map_append, List.sum_append]
  have hz1 : ((srcEdges players).map
      (fun e => if e.1 = Node.cat rc.1 then e.2.2.capacity else 0)).sum = 0 :=
    List.sum_eq_zero (by
      intro x hx
      obtain ⟨e, he, rfl⟩ := List.mem_map.mp hx
      obtain ⟨pl, _, rfl⟩ := mem_srcEdges.mp he
      simp)
  have hz2 : ((prefEdges players roles).map
      (fun e => if e.1 = Node.cat rc.1 then e.2.2.capacity else 0)).sum = 0 :=
    List.sum_eq_zero (by
      intro x hx
      obtain ⟨e, he, rfl⟩ := List.mem_map.mp hx
      obtain ⟨pl, _, jr, _, _, rfl⟩ := mem_prefEdges.mp he
      simp)
  rw [hz1, hz2]
  have hsink : ((sinkEdges roles).map
      (fun e => if e.1 = Node.cat rc.1 then e.2.2.capacity else 0)).sum
      = (roles.map (fun rc2 => if rc2.1 = rc.1 then rc2.2 else 0)).sum := by
    unfold sinkEdges
    rw [List.map_map]
    refine congrArg List.sum (List.map_congr_left ?_)
    intro rc2 _
    simp [Function.comp, Node.cat.injEq]
  rw [hsink, sum_ite_key_int hr (show (rc.1, rc.2) ∈ roles from hrc)]
  simp

theorem flow_into_cat_eq_cap {players : Players} {roles : Roles} {efs : FlowList}
    (hG : efs.map (·.1) = srcEdges players ++ prefEdges players roles ++ sinkEdges roles)
    (hfeas : Feasible (numPositions roles) efs)
    (hr : (roles.map (·.1)).Nodup) {rc : Ident × Int} (hrc : rc ∈ roles) :
    (flowInto (Node.cat rc.1) efs : Int) = rc.2 := by
  rw [flow_cat_balance hfeas rc.1]
  exact flow_out_cat_eq_cap hG hfeas hr hrc

/-! ## The decoded assignment -/

theorem pairFlow_le_out {p r : Ident} {efs : FlowList} :
    pairFlow p r efs ≤ flowOutOf (Node.agent p) efs := by
  unfold pairFlow flowOutOf
  refine List.sum_le_sum ?_
  intro ef _
  by_cases h1 : ef.1.1 = Node.agent p <;> by_cases h2 : ef.1.2.1 = Node.cat r <;>
    simp [h1, h2]

theorem pairFlow_add_le_out {p r1 r2 : Ident} {efs : FlowList} (hne : r1 ≠ r2) :
    pairFlow p r1 efs + pairFlow p r2 efs ≤ flowOutOf (Node.agent p) efs := by
  unfold pairFlow flowOutOf
  rw [← sum_map_add]
  refine List.sum_le_sum ?_
  intro ef _
  by_cases h1 : ef.1.1 = Node.agent p
  · by_cases h2 : ef.1.2.1 = Node.cat r1
    · have h3 : ¬(ef.1.1 = Node.agent p ∧ ef.1.2.1 = Node.cat r2) := by
        rintro ⟨-, hc⟩
        rw [h2] at hc
        simp only [Node.cat.injEq] at hc
        exact hne hc
      rw [if_pos ⟨h1, h2⟩, if_neg h3, if_pos h1]
      omega
    · by_cases h3 : ef.1.2.1 = Node.cat r2
      · rw [if_neg (fun hc => h2 hc.2), if_pos ⟨h1, h3⟩, if_pos h1]
        omega
      · rw [if_neg (fun hc => h2 hc.2), if_neg (fun hc => h3 hc.2), if_pos h1]
        omega
  · rw [if_neg (fun hc => h1 hc.1), if_neg (fun hc => h1 hc.1), if_neg h1]

theorem le_pairFlow {p r : Ident} {efs : FlowList} {ef : Edge × Nat} (hef : ef ∈ efs)
    (hsrc : ef.1.1 = Node.agent p) (htgt : ef.1.2.1 = Node.cat r) :
    ef.2 ≤ pairFlow p r efs := by
  unfold pairFlow
  have h2 := le_sum_map_of_mem
    (f := fun ef => if ef.1.1 = Node.agent p ∧ ef.1.2.1 = Node.cat r then ef.2 else 0) hef
  have h3 : (if ef.1.1 = Node.agent p ∧ ef.1.2.1 = Node.cat r then ef.2 else 0)
      ≤ (efs.map
          (fun ef => if ef.1.1 = Node.agent p ∧ ef.1.2.1 = Node.cat r then ef.2 else 0)).sum := h2
  rw [if_pos ⟨hsrc, htgt⟩] at h3
  exact h3

theorem firstPositiveTarget_some {p : Ident} {efs : FlowList} {t : Node}
    (h : firstPositiveTarget p efs = some t) :
    ∃ ef ∈ efs, ef.1.1 = Node.agent p ∧ 0 < ef.2 ∧ ef.1.2.1 = t := by
  induction efs with
  | nil => simp [firstPositiveTarget] at h
  | cons ef efs ih =>
    rw [firstPositiveTarget, List.findSome?_cons] at h
    by_cases hc : ef.1.1 = Node.agent p ∧ 0 < ef.2
    · rw [if_pos hc] at h
      simp only [Option.some.injEq] at h
      exact ⟨ef, by simp, hc.1, hc.2, h⟩
    · rw [if_neg hc] at h
      obtain ⟨ef2, hef2, h1, h2, h3⟩ := ih h
      exact ⟨ef2, List.mem_cons_of_mem _ hef2, h1, h2, h3⟩

theorem firstPositiveTarget_none {p : Ident} {efs : FlowList}
    (h : firstPositiveTarget p efs = none) :
    ∀ ef ∈ efs, ef.1.1 = Node.agent p → ef.2 = 0 := by
  rw [firstPositiveTarget, List.findSome?_eq_none] at h
  intro ef hef hsrc
  have h2 := h ef hef
  by_cases hv : 0 < ef.2
  · rw [if_pos ⟨hsrc, hv⟩] at h2
    exact absurd h2 (by simp)
  · omega

theorem firstPositiveTarget_isSome_iff {p : Ident} {efs : FlowList} :
    (firstPositiveTarget p efs).isSome ↔ 0 < flowOutOf (Node.agent p) efs := by
  constructor
  · intro h
    obtain ⟨t, ht⟩ := Option.isSome_iff_exists.mp h
    obtain ⟨ef, hef, hsrc, hv, _⟩ := firstPositiveTarget_some ht
    have h2 : ef.2 ≤ flowOutOf (Node.agent p) efs := by
      unfold flowOutOf
      have h3 := le_sum_map_of_mem
        (f := fun ef => if ef.1.1 = Node.agent p then ef.2 else 0) hef
      have h4 : (if ef.1.1 = Node.agent p then ef.2 else 0)
          ≤ (efs.map (fun ef => if ef.1.1 = Node.agent p then ef.2 else 0)).sum := h3
      rw [if_pos hsrc] at h4
      exact h4
    omega
  · intro h
    cases hfp : firstPositiveTarget p efs with
    | some t => rfl
    | none =>
      have hz : flowOutOf (Node.agent p) efs = 0 := by
        unfold flowOutOf
        refine List.sum_eq_zero ?_
        intro x hx
        obtain ⟨ef, hef, rfl⟩ := List.mem_map.mp hx
        by_cases hsrc : ef.1.1 = Node.agent p
        · rw [if_pos hsrc, firstPositiveTarget_none hfp ef hef hsrc]
        · rw [if_neg hsrc]
      omega

theorem decode_foldl_acc (players : Players) (efs : FlowList)
    (acc : List (Ident × Ident)) :
    players.foldl
        (fun acc pl =>
          match firstPositiveTarget pl.1 efs with
          | some t => acc ++ [(pl.1, nodeName t)]
          | none => acc)
        acc
      = acc ++ players.filterMap
          (fun pl => (firstPositiveTarget pl.1 efs).map (fun t => (pl.1, nodeName t))) := by
  induction players generalizing acc with
  | nil => simp
  | cons pl pls ih =>
    simp only [List.foldl_cons, List.filterMap_cons]
    cases hfp : firstPositiveTarget pl.1 efs with
    | none =>
      simp only [hfp, Option.map_none']
      exact ih acc
    | some t =>
      simp only [hfp, Option.map_some']
      rw [ih]
      simp

theorem decode_eq_filterMap {players : Players} {efs : FlowList} :
    decode players efs
      = players.filterMap
          (fun pl => (firstPositiveTarget pl.1 efs).map (fun t => (pl.1, nodeName t))) := by
  unfold decode
  rw [decode_foldl_acc]
  simp

theorem length_filterMap_eq_sum {α β : Type} (l : List α) (f : α → Option β) :
    (l.filterMap f).length = (l.map (fun x => if (f x).isSome then 1 else 0)).sum := by
  induction l with
  | nil => rfl
  | cons a l ih =>
    simp only [List.filterMap_cons]
    cases hf : f a with
    | none => simp [hf, ih]
    | some b =>
      simp only [hf, List.length_cons, ih, List.map_cons, List.sum_cons,
        Option.isSome_some, if_pos]
      omega

theorem countP_filterMap_eq_sum {α β : Type} (l : List α) (f : α → Option β)
    (q : β → Bool) :
    (l.filterMap f).countP q
      = (l.map (fun x =>
          match f x with
          | some b => if q b then 1 else 0
          | none => 0)).sum := by
  induction l with
  | nil => rfl
  | cons a l ih =>
    simp only [List.filterMap_cons]
    cases hf : f a with
    | none => simp [hf, ih]
    | some b =>
      simp only [hf, List.countP_cons, ih, List.map_cons, List.sum_cons]
      by_cases hq : q b <;> simp [hq] <;> omega

theorem pairFlow_eq_filter {p r : Ident} {efs : FlowList} :
    pairFlow p r efs
      = flowOutOf (Node.agent p) (efs.filter (fun ef => decide (ef.1.2.1 = Node.cat r))) := by
  unfold pairFlow flowOutOf
  rw [sum_filter_ite]
  refine congrArg List.sum (List.map_congr_left ?_)
  intro ef _
  by_cases h1 : ef.1.1 = Node.agent p <;> by_cases h2 : ef.1.2.1 = Node.cat r <;>
    simp [h1, h2]

theorem sum_out_agents_eq {players : Players} {roles : Roles} {np : Int} {efs : FlowList}
    (hG : efs.map (·.1) = srcEdges players ++ prefEdges players roles ++ sinkEdges roles)
    (hfeas : Feasible np efs) (hp : (players.map (·.1)).Nodup) :
    (players.map (fun pl => flowOutOf (Node.agent pl.1) efs)).sum
      = flowOutOf Node.source efs := by
  have hbal : players.map (fun pl => flowOutOf (Node.agent pl.1) efs)
      = players.map (fun pl => flowInto (Node.agent pl.1) efs) :=
    List.map_congr_left (fun pl _ => flow_agent_balance hfeas pl.1)
  rw [hbal]
  have hmm : players.map (fun pl => flowInto (Node.agent pl.1) efs)
      = (players.map (fun pl => Node.agent pl.1)).map (fun n => flowInto n efs) := by
    rw [List.map_map]
    rfl
  have hnd : (players.map (fun pl => Node.agent pl.1)).Nodup := by
    have h1 : players.map (fun pl => Node.agent pl.1)
        = (players.map (·.1)).map Node.agent := by
      rw [List.map_map]
      rfl
    rw [h1]
    exact hp.map (fun a b h => by simpa using h)
  rw [hmm, sum_flowInto_nodes2 hnd efs]
  unfold flowOutOf
  refine congrArg List.sum (List.map_congr_left ?_)
  intro ef hef
  rcases flow_edge_cases hG hef with ⟨pl, hpl, he⟩ | ⟨pl, hpl, jr, _, _, he⟩ |
    ⟨rc, hrc, he⟩
  · have ht : ef.1.2.1 = Node.agent pl.1 := by rw [he]
    have hs : ef.1.1 = Node.source := by rw [he]
    rw [ht, hs, if_pos (List.mem_map.mpr ⟨pl, hpl, rfl⟩), if_pos rfl]
  · have ht : ef.1.2.1 = Node.cat jr.2 := by rw [he]
    have hs : ef.1.1 = Node.agent pl.1 := by rw [he]
    rw [ht, hs, if_neg ?_, if_neg (by simp)]
    intro hc
    obtain ⟨pl2, _, h2⟩ := List.mem_map.mp hc
    exact absurd h2 (by simp)
  · have ht : ef.1.2.1 = Node.sink := by rw [he]
    have hs : ef.1.1 = Node.cat rc.1 := by rw [he]
    rw [ht, hs, if_neg ?_, if_neg (by simp)]
    intro hc
    obtain ⟨pl2, _, h2⟩ := List.mem_map.mp hc
    exact absurd h2 (by simp)

theorem sum_pairFlow_eq_into {players : Players} {roles : Roles} {efs : FlowList}
    (hG : efs.map (·.1) = srcEdges players ++ prefEdges players roles ++ sinkEdges roles)
    (hp : (players.map (·.1)).Nodup) (r : Ident) :
    (players.map (fun pl => pairFlow pl.1 r efs)).sum = flowInto (Node.cat r) efs := by
  have hnd : (players.map (fun pl => Node.agent pl.1)).Nodup := by
    have h1 : players.map (fun pl => Node.agent pl.1)
        = (players.map (·.1)).map Node.agent := by
      rw [List.map_map]
      rfl
    rw [h1]
    exact hp.map (fun a b h => by simpa using h)
  have h1 : players.map (fun pl => pairFlow pl.1 r efs)
      = (players.map (fun pl => Node.agent pl.1)).map
          (fun n => flowOutOf n (efs.filter (fun ef => decide (ef.1.2.1 = Node.cat r)))) := by
    rw [List.map_map]
    exact List.map_congr_left (fun pl _ => pairFlow_eq_filter)
  rw [h1, sum_flowOutOf_nodes2 hnd _]
  have h2 : ((efs.filter (fun ef => decide (ef.1.2.1 = Node.cat r))).map
      (fun ef => if ef.1.1 ∈ players.map (fun pl => Node.agent pl.1) then ef.2 else 0)).sum
      = ((efs.filter (fun ef => decide (ef.1.2.1 = Node.cat r))).map (·.2)).sum := by
    refine congrArg List.sum (List.map_congr_left ?_)
    intro ef hef
    have hmem := List.mem_of_mem_filter hef
    have htgt : ef.1.2.1 = Node.cat r := by
      have h3 := List.of_mem_filter hef
      simpa using h3
    rcases flow_edge_cases hG hmem with ⟨pl, hpl, he⟩ | ⟨pl, hpl, jr, _, _, he⟩ |
      ⟨rc, hrc, he⟩
    · rw [he] at htgt
      exact absurd htgt (by simp)
    · have hs : ef.1.1 = Node.agent pl.1 := by rw [he]
      rw [hs, if_pos (List.mem_map.mpr ⟨pl, hpl, rfl⟩)]
    · rw [he] at htgt
      exact absurd htgt (by simp)
  rw [h2, sum_filter_ite]
  unfold flowInto
  refine congrArg List.sum (List.map_congr_left ?_)
  intro ef _
  by_cases hc : ef.1.2.1 = Node.cat r <;> simp [hc]

theorem isSome_term_eq_out {players : Players} {roles : Roles} {np : Int} {efs : FlowList}
    (hG : efs.map (·.1) = srcEdges players ++ prefEdges players roles ++ sinkEdges roles)
    (hfeas : Feasible np efs) (hp : (players.map (·.1)).Nodup) (p : Ident) :
    (if (firstPositiveTarget p efs).isSome then 1 else 0)
      = flowOutOf (Node.agent p) efs := by
  have hle := flow_out_agent_le_one hG hfeas hp p
  by_cases h : (firstPositiveTarget p efs).isSome
  · rw [if_pos h]
    have h2 := firstPositiveTarget_isSome_iff.mp h
    omega
  · rw [if_neg h]
    have h2 : ¬0 < flowOutOf (Node.agent p) efs :=
      fun hc => h (firstPositiveTarget_isSome_iff.mpr hc)
    omega

theorem match_term_eq_pairFlow {players : Players} {roles : Roles} {efs : FlowList}
    (hG : efs.map (·.1) = srcEdges players ++ prefEdges players roles ++ sinkEdges roles)
    {p : Ident} (hout : flowOutOf (Node.agent p) efs ≤ 1) (r : Ident) :
    (match firstPositiveTarget p efs with
      | some t => if nodeName t = r then 1 else 0
      | none => 0) = pairFlow p r efs := by
  cases hfp : firstPositiveTarget p efs with
  | none =>
    have hz : pairFlow p r efs = 0 := by
      unfold pairFlow
      refine List.sum_eq_zero ?_
      intro x hx
      obtain ⟨ef, hef, rfl⟩ := List.mem_map.mp hx
      by_cases hc : ef.1.1 = Node.agent p ∧ ef.1.2.1 = Node.cat r
      · rw [if_pos hc, firstPositiveTarget_none hfp ef hef hc.1]
      · rw [if_neg hc]
    rw [hz]
  | some t =>
    obtain ⟨ef0, hef0, hsrc0, hv0, htgt0⟩ := firstPositiveTarget_some hfp
    obtain ⟨r0, rfl⟩ : ∃ r0, t = Node.cat r0 := by
      rcases flow_edge_cases hG hef0 with ⟨pl, _, he⟩ | ⟨pl, _, jr, _, _, he⟩ |
        ⟨rc, _, he⟩
      · rw [he] at hsrc0
        exact absurd hsrc0 (by simp)
      · rw [he] at htgt0
        exact ⟨jr.2, htgt0.symm⟩
      · rw [he] at hsrc0
        exact absurd hsrc0 (by simp)
    have h1 : 1 ≤ pairFlow p r0 efs := by
      have h2 := le_pairFlow hef0 hsrc0 htgt0
      omega
    show (if nodeName (Node.cat r0) = r then 1 else 0) = pairFlow p r efs
    simp only [nodeName]
    by_cases hrr : r0 = r
    · subst hrr
      rw [if_pos rfl]
      have h2 := @pairFlow_le_out p r0 efs
      omega
    · rw [if_neg hrr]
      have h2 := @pairFlow_add_le_out p r0 r efs hrr
      omega

theorem decode_length_eq {players : Players} {roles : Roles} {efs : FlowList}
    (hG : efs.map (·.1) = srcEdges players ++ prefEdges players roles ++ sinkEdges roles)
    (hfeas : Feasible (numPositions roles) efs) (hp : (players.map (·.1)).Nodup) :
    ((decode players efs).length : Int) = numPositions roles := by
  rw [decode_eq_filterMap, length_filterMap_eq_sum]
  have hpt : players.map (fun pl =>
      if ((firstPositiveTarget pl.1 efs).map (fun t => (pl.1, nodeName t))).isSome
      then 1 else 0)
      = players.map (fun pl => flowOutOf (Node.agent pl.1) efs) := by
    refine List.map_congr_left ?_
    intro pl _
    have hiso : (Option.map (fun t => (pl.1, nodeName t))
        (firstPositiveTarget pl.1 efs)).isSome = (firstPositiveTarget pl.1 efs).isSome := by
      cases firstPositiveTarget pl.1 efs <;> rfl
    rw [hiso]
    exact isSome_term_eq_out hG hfeas hp pl.1
  rw [hpt, sum_out_agents_eq hG hfeas hp]
  exact flow_src_total hG hfeas

theorem decode_count_eq {players : Players} {roles : Roles} {efs : FlowList}
    (hG : efs.map (·.1) = srcEdges players ++ prefEdges players roles ++ sinkEdges roles)
    (hfeas : Feasible (numPositions roles) efs) (hp : (players.map (·.1)).Nodup)
    (hr : (roles.map (·.1)).Nodup) {rc : Ident × Int} (hrc : rc ∈ roles) :
    (((decode players efs).countP (fun pr => decide (pr.2 = rc.1))) : Int) = rc.2 := by
  rw [decode_eq_filterMap, countP_filterMap_eq_sum]
  have hsum : ((players.map (fun pl => pairFlow pl.1 rc.1 efs)).sum : Int) = rc.2 := by
    rw [sum_pairFlow_eq_into hG hp rc.1]
    exact flow_into_cat_eq_cap hG hfeas hr hrc
  refine Eq.trans ?_ hsum
  refine congrArg (fun n : Nat => (n : Int)) (congrArg List.sum (List.map_congr_left ?_))
  intro pl _
  have hterm := match_term_eq_pairFlow hG
    (flow_out_agent_le_one hG hfeas hp pl.1) rc.1
  cases hfp : firstPositiveTarget pl.1 efs with
  | none =>
    rw [hfp] at hterm
    simpa using hterm
  | some t =>
    rw [hfp] at hterm
    simpa using hterm

/-! ## Putting a run of `assign_roles` together -/

theorem assign_roles_some {players : Players} {roles : Roles}
    {asg : List (Ident × Ident)} {es : List Edge}
    (h : assign_roles players roles = some (asg, es)) :
    es = buildEdges players roles ∧
    ∃ efs, min_cost_flow (numPositions roles) (buildEdges players roles) = some efs ∧
      asg = decode players efs := by
  simp only [assign_roles] at h
  cases hm : min_cost_flow (numPositions roles) (buildEdges players roles) with
  | none =>
    rw [hm] at h
    exact absurd h (by simp)
  | some efs =>
    rw [hm] at h
    simp only [Option.some.injEq, Prod.mk.injEq] at h
    exact ⟨h.2.symm, efs, rfl, h.1.symm⟩

/-- A normal return of `assign_roles` on a dict-shaped input yields an optimal
feasible flow on the normalised graph, decoded into the assignment. -/
theorem assign_roles_run {players : Players} {roles : Roles}
    (hp : (players.map (·.1)).Nodup)
    (hprefs : ∀ pl ∈ players, pl.2.Nodup)
    (hr : (roles.map (·.1)).Nodup)
    {asg : List (Ident × Ident)} {es : List Edge}
    (h : assign_roles players roles = some (asg, es)) :
    ∃ efs,
      efs.map (·.1) = srcEdges players ++ prefEdges players roles ++ sinkEdges roles ∧
      Feasible (numPositions roles) efs ∧
      asg = decode players efs ∧
      es = buildEdges players roles ∧
      ∀ g : FlowList,
        g.map (·.1) = srcEdges players ++ prefEdges players roles ++ sinkEdges roles →
        Feasible (numPositions roles) g → flowCost efs ≤ flowCost g := by
  obtain ⟨hes, efs, hm, hdec⟩ := assign_roles_some h
  obtain ⟨hmap, hfeas, hopt⟩ := min_cost_flow_some_spec hm
  rw [buildEdges_eq hp hprefs hr] at hmap
  refine ⟨efs, hmap, hfeas, hdec, hes, ?_⟩
  intro g hg hgf
  exact hopt g (by rw [buildEdges_eq hp hprefs hr]; exact hg) hgf

theorem snd_mem_of_mem_enum {l : List Ident} {jr : Nat × Ident} (h : jr ∈ l.enum) :
    jr.2 ∈ l := by
  obtain ⟨-, h3, h4⟩ := List.mem_enumFrom (show (jr.1, jr.2) ∈ l.enumFrom 0 from h)
  rw [h4]
  exact List.getElem_mem _

theorem lookup_eq_none_iff {p : Ident} {asg : List (Ident × Ident)} :
    asg.lookup p = none ↔ p ∉ asg.map (·.1) := by
  induction asg with
  | nil => simp
  | cons pr asg ih =>
    obtain ⟨k, b⟩ := pr
    simp only [List.map_cons, List.mem_cons]
    by_cases h : p = k
    · subst h
      have hlk : List.lookup p ((p, b) :: asg) = some b := by
        simp [List.lookup_cons]
      rw [hlk]
      simp
    · have hbeq : (p == k) = false := beq_eq_false_iff_ne.mpr h
      have hstep : List.lookup p ((k, b) :: asg) = List.lookup p asg := by
        simp [List.lookup_cons, hbeq]
      rw [hstep, ih]
      constructor
      · intro h2 hc
        rcases hc with hc | hc
        · exact h hc
        · exact h2 hc
      · intro h2 hc
        exact h2 (Or.inr hc)

theorem decode_keys_sublist {players : Players} {efs : FlowList} :
    ((decode players efs).map (·.1)).Sublist (players.map (·.1)) := by
  rw [decode_eq_filterMap]
  induction players with
  | nil => simp
  | cons pl pls ih =>
    simp only [List.filterMap_cons, List.map_cons]
    cases hfp : firstPositiveTarget pl.1 efs with
    | none =>
      simp only [Option.map_none']
      exact ih.cons _
    | some t =>
      simp only [Option.map_some', List.map_cons]
      exact ih.cons₂ _

theorem decode_keys_nodup {players : Players} {efs : FlowList}
    (hp : (players.map (·.1)).Nodup) : ((decode players efs).map (·.1)).Nodup :=
  decode_keys_sublist.nodup hp

/-- Every pair of the decoded assignment names one of the players and a role
taken from its preference list that is a key of the role dict. -/
theorem mem_decode {players : Players} {roles : Roles} {efs : FlowList}
    (hG : efs.map (·.1) = srcEdges players ++ prefEdges players roles ++ sinkEdges roles)
    (hp : (players.map (·.1)).Nodup)
    {pr : Ident × Ident} (hpr : pr ∈ decode players efs) :
    ∃ pl ∈ players, pl.1 = pr.1 ∧ pr.2 ∈ pl.2 ∧ pr.2 ∈ roleKeys roles := by
  rw [decode_eq_filterMap] at hpr
  obtain ⟨pl, hpl, hF⟩ := List.mem_filterMap.mp hpr
  cases hfp : firstPositiveTarget pl.1 efs with
  | none =>
    rw [hfp] at hF
    exact absurd hF (by simp)
  | some t =>
    rw [hfp] at hF
    simp only [Option.map_some', Option.some.injEq] at hF
    obtain ⟨ef0, hef0, hsrc0, hv0, htgt0⟩ := firstPositiveTarget_some hfp
    rcases flow_edge_cases hG hef0 with ⟨pl2, hpl2, he⟩ | ⟨pl2, hpl2, jr, hjr, hrk, he⟩ |
      ⟨rc, hrc, he⟩
    · rw [he] at hsrc0
      exact absurd hsrc0 (by simp)
    · have hkey : pl2.1 = pl.1 := by
        rw [he] at hsrc0
        simpa using hsrc0
      have hpl12 : pl2 = pl := List.inj_on_of_nodup_map hp hpl2 hpl hkey
      have ht : t = Node.cat jr.2 := by
        rw [he] at htgt0
        exact htgt0.symm
      have hsnd : pr.2 = jr.2 := by
        rw [← hF, ht]
        rfl
      refine ⟨pl, hpl, by rw [← hF], ?_, by rw [hsnd]; exact hrk⟩
      rw [hsnd, ← hpl12]
      exact snd_mem_of_mem_enum hjr
    · rw [he] at hsrc0
      exact absurd hsrc0 (by simp)

theorem np_le_players {players : Players} {roles : Roles} {np : Int} {efs : FlowList}
    (hG : efs.map (·.1) = srcEdges players ++ prefEdges players roles ++ sinkEdges roles)
    (hfeas : Feasible np efs) :
    np ≤ (players.length : Int) := by
  rw [← flow_src_total hG hfeas]
  have h1 : flowOutOf Node.source efs ≤ players.length := by
    have h2 : flowOutOf Node.source efs
        ≤ (efs.map (fun ef => if ef.1.1 = Node.source then 1 else 0)).sum := by
      unfold flowOutOf
      refine List.sum_le_sum ?_
      intro ef hef
      by_cases hc : ef.1.1 = Node.source
      · rw [if_pos hc, if_pos hc]
        rcases flow_edge_cases hG hef with ⟨pl, _, he⟩ | ⟨pl, _, jr, _, _, he⟩ |
          ⟨rc, _, he⟩
        · have hcap := hfeas.1 ef hef
          rw [he] at hcap
          have h4 : (ef.2 : Int) ≤ 1 := by simpa using hcap
          exact_mod_cast h4
        · rw [he] at hc
          exact absurd hc (by simp)
        · rw [he] at hc
          exact absurd hc (by simp)
      · rw [if_neg hc, if_neg hc]
    have h3 : (efs.map (fun ef => if ef.1.1 = Node.source then 1 else 0)).sum
        = ((srcEdges players ++ prefEdges players roles ++ sinkEdges roles).map
            (fun e => if e.1 = Node.source then 1 else 0)).sum :=
      sum_map_fst hG (fun e => if e.1 = Node.source then 1 else 0)
    have hz1 : ((prefEdges players roles).map
        (fun e => if e.1 = Node.source then 1 else 0)).sum = 0 :=
      List.sum_eq_zero (by
        intro x hx
        obtain ⟨e, he, rfl⟩ := List.mem_map.mp hx
        obtain ⟨pl, _, jr, _, _, rfl⟩ := mem_prefEdges.mp he
        simp)
    have hz2 : ((sinkEdges roles).map
        (fun e => if e.1 = Node.source then 1 else 0)).sum = 0 :=
      List.sum_eq_zero (by
        intro x hx
        obtain ⟨e, he, rfl⟩ := List.mem_map.mp hx
        obtain ⟨rc, _, rfl⟩ := mem_sinkEdges.mp he
        simp)
    have hsrc : ((srcEdges players).map
        (fun e => if e.1 = Node.source then 1 else 0)).sum = players.length := by
      unfold srcEdges
      rw [List.map_map]
      have hconst : players.map
          ((fun e : Edge => if e.1 = Node.source then 1 else 0)
            ∘ (fun pl => (Node.source, Node.agent pl.1, ⟨1, 0⟩)))
          = players.map (fun _ => 1) :=
        List.map_congr_left (fun pl _ => by simp [Function.comp])
      rw [hconst]
      clear hconst h2 h3 hz1 hz2 hG hfeas
      induction players with
      | nil => rfl
      | cons pl pls ih =>
        simp only [List.map_cons, List.sum_cons, ih, List.length_cons]
        omega
    calc flowOutOf Node.source efs
        ≤ (efs.map (fun ef => if ef.1.1 = Node.source then 1 else 0)).sum := h2
      _ = _ := h3
      _ = players.length := by
          simp only [List.map_append, List.sum_append, hz1, hz2, hsrc, Nat.add_zero]
  exact_mod_cast h1

/-- **C10**: on a normal return every role is filled exactly to its capacity:
the number of players assigned to each role equals that role's capacity. -/
theorem C10_exact_capacity {players : Players} {roles : Roles}
    (hp : (players.map (·.1)).Nodup)
    (hprefs : ∀ pl ∈ players, pl.2.Nodup)
    (hr : (roles.map (·.1)).Nodup)
    {asg : List (Ident × Ident)} {es : List Edge}
    (h : assign_roles players roles = some (asg, es)) :
    ∀ rc ∈ roles, ((asg.countP (fun pr => decide (pr.2 = rc.1))) : Int) = rc.2 := by
  obtain ⟨efs, hG, hfeas, hdec, -, -⟩ := assign_roles_run hp hprefs hr h
  intro rc hrc
  rw [hdec]
  exact decode_count_eq hG hfeas hp hr hrc

/-- **C4**: on a normal return the number of assigned players equals the total
role capacity capped at the number of players. -/
theorem C4_flow_value {players : Players} {roles : Roles}
    (hp : (players.map (·.1)).Nodup)
    (hprefs : ∀ pl ∈ players, pl.2.Nodup)
    (hr : (roles.map (·.1)).Nodup)
    {asg : List (Ident × Ident)} {es : List Edge}
    (h : assign_roles players roles = some (asg, es)) :
    (asg.length : Int) = min (numPositions roles) (players.length : Int) := by
  obtain ⟨efs, hG, hfeas, hdec, -, -⟩ := assign_roles_run hp hprefs hr h
  have hlen : (asg.length : Int) = numPositions roles := by
    rw [hdec]
    exact decode_length_eq hG hfeas hp
  rw [hlen, min_eq_left (np_le_players hG hfeas)]

/-- **C1**: on a normal return the assignment is feasible: unique players, all
pairs drawn from the preference lists and role set, capacities respected. -/
theorem C1_feasibility {players : Players} {roles : Roles}
    (hp : (players.map (·.1)).Nodup)
    (hprefs : ∀ pl ∈ players, pl.2.Nodup)
    (hr : (roles.map (·.1)).Nodup)
    {asg : List (Ident × Ident)} {es : List Edge}
    (h : assign_roles players roles = some (asg, es)) :
    FeasAssign players roles asg := by
  obtain ⟨efs, hG, hfeas, hdec, -, -⟩ := assign_roles_run hp hprefs hr h
  refine ⟨?_, ?_, ?_, ?_⟩
  · rw [hdec]
    exact decode_keys_nodup hp
  · intro pr hpr
    rw [hdec] at hpr
    obtain ⟨pl, hpl, h1, h2, -⟩ := mem_decode hG hp hpr
    exact ⟨pl, hpl, h1, h2⟩
  · intro pr hpr
    rw [hdec] at hpr
    obtain ⟨pl, hpl, -, -, h3⟩ := mem_decode hG hp hpr
    exact h3
  · intro rc hrc
    rw [hdec]
    rw [decode_count_eq hG hfeas hp hr hrc]

/-- **C5 amended**: a negative capacity does not make graph construction fail;
the graph is built and contains the negative-capacity sink edge, and the solve
step then reports infeasibility (the generic exception), so no assignment is
returned. -/
theorem C5_negative_capacity {players : Players} {roles : Roles}
    (hp : (players.map (·.1)).Nodup)
    (hprefs : ∀ pl ∈ players, pl.2.Nodup)
    (hr : (roles.map (·.1)).Nodup)
    {rc : Ident × Int} (hrc : rc ∈ roles) (hneg : rc.2 < 0) :
    (Node.cat rc.1, Node.sink, (⟨rc.2, 0⟩ : EdgeData)) ∈ buildEdges players roles ∧
    assign_roles players roles = none := by
  have hmem : (Node.cat rc.1, Node.sink, (⟨rc.2, 0⟩ : EdgeData))
      ∈ buildEdges players roles := by
    rw [buildEdges_eq hp hprefs hr]
    exact List.mem_append.mpr (Or.inr (mem_sinkEdges.mpr ⟨rc, hrc, rfl⟩))
  refine ⟨hmem, ?_⟩
  cases hm : min_cost_flow (numPositions roles) (buildEdges players roles) with
  | none => simp [assign_roles, hm]
  | some efs =>
    obtain ⟨hmap, hfeas, -⟩ := min_cost_flow_some_spec hm
    have hmem2 : (Node.cat rc.1, Node.sink, (⟨rc.2, 0⟩ : EdgeData)) ∈ efs.map (·.1) := by
      rw [hmap]
      exact hmem
    obtain ⟨ef, hef, hef1⟩ := List.mem_map.mp hmem2
    have hcap := hfeas.1 ef hef
    rw [hef1] at hcap
    have h0 : (0 : Int) ≤ (ef.2 : Int) := by positivity
    simp only [] at hcap
    omega

theorem flow_into_agent_le_src_total {players : Players} {roles : Roles} {efs : FlowList}
    (hG : efs.map (·.1) = srcEdges players ++ prefEdges players roles ++ sinkEdges roles)
    (p : Ident) : flowInto (Node.agent p) efs ≤ flowOutOf Node.source efs := by
  unfold flowInto flowOutOf
  refine List.sum_le_sum ?_
  intro ef hef
  by_cases hc : ef.1.2.1 = Node.agent p
  · rw [if_pos hc]
    rcases flow_edge_cases hG hef with ⟨pl, _, he⟩ | ⟨pl, _, jr, _, _, he⟩ | ⟨rc, _, he⟩
    · have hs : ef.1.1 = Node.source := by rw [he]
      rw [if_pos hs]
    · rw [he] at hc
      exact absurd hc (by simp)
    · rw [he] at hc
      exact absurd hc (by simp)
  · rw [if_neg hc]
    exact Nat.zero_le _

/-- **C6**: when every role has capacity `0`, the solve succeeds (the zero flow
is feasible) and the returned assignment is empty. -/
theorem C6_zero_capacity {players : Players} {roles : Roles}
    (hp : (players.map (·.1)).Nodup)
    (hprefs : ∀ pl ∈ players, pl.2.Nodup)
    (hr : (roles.map (·.1)).Nodup)
    (hzero : ∀ rc ∈ roles, rc.2 = 0) :
    assign_roles players roles = some ([], buildEdges players roles) := by
  have hnp : numPositions roles = 0 := by
    unfold numPositions
    refine List.sum_eq_zero ?_
    intro x hx
    obtain ⟨rc, hrc, rfl⟩ := List.mem_map.mp hx
    exact hzero rc hrc
  have hGn : buildEdges players roles
      = srcEdges players ++ prefEdges players roles ++ sinkEdges roles :=
    buildEdges_eq hp hprefs hr
  have hgmap : ((buildEdges players roles).map (fun e => (e, 0))).map (·.1)
      = buildEdges players roles := by
    rw [List.map_map]
    exact (List.map_congr_left (fun e _ => rfl)).trans (List.map_id _)
  have hgfeas : Feasible (numPositions roles)
      ((buildEdges players roles).map (fun e => (e, 0))) := by
    constructor
    · intro ef hef
      obtain ⟨e, he, rfl⟩ := List.mem_map.mp hef
      rw [hGn] at he
      rcases mem_graph_cases he with ⟨pl, _, rfl⟩ | ⟨pl, _, jr, _, _, rfl⟩ |
        ⟨rc, hrc, rfl⟩
      · simp
      · simp
      · simp [hzero rc hrc]
    · intro n
      have hin : flowInto n ((buildEdges players roles).map (fun e => (e, 0))) = 0 := by
        unfold flowInto
        refine List.sum_eq_zero ?_
        intro x hx
        obtain ⟨ef, hef, rfl⟩ := List.mem_map.mp hx
        obtain ⟨e, _, rfl⟩ := List.mem_map.mp hef
        by_cases hc : (e, 0).1.2.1 = n <;> simp [hc]
      have hout : flowOutOf n ((buildEdges players roles).map (fun e => (e, 0))) = 0 := by
        unfold flowOutOf
        refine List.sum_eq_zero ?_
        intro x hx
        obtain ⟨ef, hef, rfl⟩ := List.mem_map.mp hx
        obtain ⟨e, _, rfl⟩ := List.mem_map.mp hef
        by_cases hc : (e, 0).1.1 = n <;> simp [hc]
      rw [netFlowAt, hin, hout, hnp]
      cases n <;> simp [demandOf]
  cases hm : min_cost_flow (numPositions roles) (buildEdges players roles) with
  | none =>
    have hs := min_cost_flow_isSome hgmap hgfeas
    rw [hm] at hs
    exact absurd hs (by simp)
  | some efs =>
    obtain ⟨hmap, hfeas, -⟩ := min_cost_flow_some_spec hm
    rw [hGn] at hmap
    have hout0 : ∀ p, flowOutOf (Node.agent p) efs = 0 := by
      intro p
      have h1 := flow_into_agent_le_src_total hmap p
      have h2 : (flowOutOf Node.source efs : Int) = 0 := by
        rw [flow_src_total hmap hfeas, hnp]
      have h3 : flowOutOf Node.source efs = 0 := by exact_mod_cast h2
      have h4 := flow_agent_balance hfeas p
      omega
    have hdec : decode players efs = [] := by
      rw [decode_eq_filterMap, List.filterMap_eq_nil]
      intro pl _
      cases hfp : firstPositiveTarget pl.1 efs with
      | none => rfl
      | some t =>
        have h5 := firstPositiveTarget_isSome_iff.mp (by rw [hfp]; rfl)
        rw [hout0] at h5
        omega
    simp only [assign_roles, hm, hdec]

theorem filter_key_mem_length {E : Players} {K : List Ident}
    (hE : (E.map (·.1)).Nodup) (hK : K.Nodup) (hsub : ∀ k ∈ K, k ∈ E.map (·.1)) :
    (E.filter (fun pl => decide (pl.1 ∈ K))).length = K.length := by
  have h1 : (E.map (·.1)).filter (fun k => decide (k ∈ K))
      = (E.filter ((fun k => decide (k ∈ K)) ∘ (·.1))).map (·.1) :=
    List.filter_map _ E
  have h2 : ((E.map (·.1)).filter (fun k => decide (k ∈ K))).Perm K := by
    refine (List.perm_ext_iff_of_nodup (hE.filter _) hK).mpr ?_
    intro a
    simp only [List.mem_filter, decide_eq_true_eq]
    constructor
    · rintro ⟨-, h3⟩
      exact h3
    · intro h3
      exact ⟨hsub a h3, h3⟩
  have h3 := h2.length_eq
  rw [h1, List.length_map] at h3
  exact h3

/-- **C7 amended**: when capacity is scarcer than the eligible players, the
number of *eligible* players left unassigned equals the number of eligible
players minus the total capacity. -/
theorem C7_eligible_unassigned {players : Players} {roles : Roles}
    (hp : (players.map (·.1)).Nodup)
    (hprefs : ∀ pl ∈ players, pl.2.Nodup)
    (hr : (roles.map (·.1)).Nodup)
    (hover : numPositions roles < ((eligiblePlayers players roles).length : Int))
    {asg : List (Ident × Ident)} {es : List Edge}
    (h : assign_roles players roles = some (asg, es)) :
    ((eligiblePlayers players roles).filter
        (fun pl => decide (asg.lookup pl.1 = none))).length
      = (eligiblePlayers players roles).length - (numPositions roles).toNat := by
  obtain ⟨efs, hG, hfeas, hdec, -, -⟩ := assign_roles_run hp hprefs hr h
  have hlen : (asg.length : Int) = numPositions roles := by
    rw [hdec]
    exact decode_length_eq hG hfeas hp
  have hnp0 : 0 ≤ numPositions roles := by
    rw [← hlen]
    positivity
  have hKnd : (asg.map (·.1)).Nodup := by
    rw [hdec]
    exact decode_keys_nodup hp
  have hEnd : ((eligiblePlayers players roles).map (·.1)).Nodup := by
    have hsub : ((eligiblePlayers players roles).map (·.1)).Sublist
        (players.map (·.1)) := (List.filter_sublist players).map _
    exact hsub.nodup hp
  have hsub : ∀ k ∈ asg.map (·.1), k ∈ (eligiblePlayers players roles).map (·.1) := by
    intro k hk
    obtain ⟨pr, hpr, rfl⟩ := List.mem_map.mp hk
    rw [hdec] at hpr
    obtain ⟨pl, hpl, h1, h2, h3⟩ := mem_decode hG hp hpr
    have helig : pl ∈ eligiblePlayers players roles := by
      unfold eligiblePlayers
      rw [List.mem_filter]
      refine ⟨hpl, ?_⟩
      rw [List.any_eq_true]
      exact ⟨pr.2, h2, by simp [h3]⟩
    exact List.mem_map.mpr ⟨pl, helig, h1⟩
  have hsome : ((eligiblePlayers players roles).filter
      (fun pl => decide (pl.1 ∈ asg.map (·.1)))).length = (asg.map (·.1)).length :=
    filter_key_mem_length hEnd hKnd hsub
  have hfe : (eligiblePlayers players roles).filter
      (fun pl => decide (asg.lookup pl.1 = none))
      = (eligiblePlayers players roles).filter
          (fun pl => !(decide (pl.1 ∈ asg.map (·.1)))) := by
    refine List.filter_congr ?_
    intro pl _
    by_cases hc : pl.1 ∈ asg.map (·.1)
    · have hn : ¬(asg.lookup pl.1 = none) := fun he =>
        (lookup_eq_none_iff.mp he) hc
      simp [hc, hn]
    · have hn : asg.lookup pl.1 = none := lookup_eq_none_iff.mpr hc
      simp [hc, hn]
  have hsplit := List.length_eq_length_filter_add
    (l := eligiblePlayers players roles)
    (fun pl => decide (pl.1 ∈ asg.map (·.1)))
  have hKlen : (asg.map (·.1)).length = asg.length := List.length_map asg _
  rw [hfe]
  omega

/-! ## Edge lookup and the duplicate-preference overwrite -/

theorem edgeDataOf_cons_of_ne {e : Edge} {es : List Edge} {u v : Node}
    (h : ¬(e.1 = u ∧ e.2.1 = v)) : edgeDataOf (e :: es) u v = edgeDataOf es u v := by
  unfold edgeDataOf
  rw [List.find?_cons]
  have hd : (decide (e.1 = u ∧ e.2.1 = v)) = false := by simp [h]
  simp only [hd]

theorem edgeDataOf_cons_of_eq {e : Edge} {es : List Edge} {u v : Node}
    (h : e.1 = u ∧ e.2.1 = v) : edgeDataOf (e :: es) u v = some e.2.2 := by
  unfold edgeDataOf
  rw [List.find?_cons]
  have hd : (decide (e.1 = u ∧ e.2.1 = v)) = true := by simp [h]
  simp only [hd]
  rfl

theorem edgeDataOf_addEdge_self {es : List Edge} {u v : Node} {d : EdgeData} :
    edgeDataOf (addEdge es u v d) u v = some d := by
  induction es with
  | nil =>
    simp only [addEdge]
    rw [edgeDataOf_cons_of_eq ⟨rfl, rfl⟩]
  | cons e es ih =>
    simp only [addEdge]
    by_cases hc : e.1 = u ∧ e.2.1 = v
    · rw [if_pos hc, edgeDataOf_cons_of_eq ⟨rfl, rfl⟩]
    · rw [if_neg hc, edgeDataOf_cons_of_ne hc, ih]

theorem edgeDataOf_addEdge_ne {es : List Edge} {u v u2 v2 : Node} {d : EdgeData}
    (h : ¬(u = u2 ∧ v = v2)) :
    edgeDataOf (addEdge es u v d) u2 v2 = edgeDataOf es u2 v2 := by
  induction es with
  | nil =>
    simp only [addEdge]
    rw [edgeDataOf_cons_of_ne (by simpa using h)]
  | cons e es ih =>
    simp only [addEdge]
    by_cases hc : e.1 = u ∧ e.2.1 = v
    · rw [if_pos hc]
      have hne : ¬((u, v, d).1 = u2 ∧ (u, v, d).2.1 = v2) := by simpa using h
      have hne2 : ¬(e.1 = u2 ∧ e.2.1 = v2) := by
        rw [hc.1, hc.2]
        simpa using h
      rw [edgeDataOf_cons_of_ne hne, edgeDataOf_cons_of_ne hne2]
    · rw [if_neg hc]
      by_cases he : e.1 = u2 ∧ e.2.1 = v2
      · rw [edgeDataOf_cons_of_eq he, edgeDataOf_cons_of_eq he]
      · rw [edgeDataOf_cons_of_ne he, edgeDataOf_cons_of_ne he, ih]

theorem mem_edgeKeys_addEdge {es : List Edge} {u v : Node} {d : EdgeData}
    {k : Node × Node} :
    k ∈ edgeKeys (addEdge es u v d) ↔ k ∈ edgeKeys es ∨ k = (u, v) := by
  induction es with
  | nil => simp [addEdge, edgeKeys]
  | cons e es ih =>
    simp only [addEdge]
    by_cases hc : e.1 = u ∧ e.2.1 = v
    · rw [if_pos hc]
      simp only [edgeKeys, List.map_cons, List.mem_cons]
      constructor
      · rintro (h | h)
        · exact Or.inr h
        · exact Or.inl (Or.inr h)
      · rintro ((h | h) | h)
        · refine Or.inl ?_
          rw [h, hc.1, hc.2]
        · exact Or.inr h
        · exact Or.inl h
    · rw [if_neg hc]
      simp only [edgeKeys, List.map_cons, List.mem_cons] at ih ⊢
      constructor
      · rintro (h | h)
        · exact Or.inl (Or.inl h)
        · rcases ih.mp h with h | h
          · exact Or.inl (Or.inr h)
          · exact Or.inr h
      · rintro ((h | h) | h)
        · exact Or.inl h
        · exact Or.inr (ih.mpr (Or.inl h))
        · exact Or.inr (ih.mpr (Or.inr h))

theorem edgeKeys_nodup_addEdge {es : List Edge} {u v : Node} {d : EdgeData}
    (h : (edgeKeys es).Nodup) : (edgeKeys (addEdge es u v d)).Nodup := by
  induction es with
  | nil => simp [addEdge, edgeKeys]
  | cons e es ih =>
    simp only [edgeKeys, List.map_cons, List.nodup_cons] at h
    obtain ⟨hne, hnd⟩ := h
    simp only [addEdge]
    by_cases hc : e.1 = u ∧ e.2.1 = v
    · rw [if_pos hc]
      simp only [edgeKeys, List.map_cons, List.nodup_cons]
      rw [← hc.1, ← hc.2]
      exact ⟨hne, hnd⟩
    · rw [if_neg hc]
      simp only [edgeKeys, List.map_cons, List.nodup_cons]
      refine ⟨?_, ih hnd⟩
      intro hmem
      rcases mem_edgeKeys_addEdge.mp hmem with hmem | hmem
      · exact hne hmem
      · exact hc ⟨congrArg Prod.fst hmem, congrArg Prod.snd hmem⟩

theorem snd_mem_of_mem_enumFrom {l : List Ident} {i : Nat} {jr : Nat × Ident}
    (h : jr ∈ l.enumFrom i) : jr.2 ∈ l := by
  obtain ⟨-, h3, h4⟩ := List.mem_enumFrom (show (jr.1, jr.2) ∈ l.enumFrom i from h)
  rw [h4]
  exact List.getElem_mem _

theorem exists_mem_enumFrom {l : List Ident} {r : Ident} (h : r ∈ l) :
    ∀ i : Nat, ∃ j, (j, r) ∈ l.enumFrom i := by
  induction l with
  | nil => exact absurd h (List.not_mem_nil r)
  | cons x l ih =>
    intro i
    rcases List.mem_cons.mp h with rfl | hmem
    · exact ⟨i, by rw [show List.enumFrom i (r :: l) = (i, r) :: List.enumFrom (i + 1) l
        from rfl]; simp⟩
    · obtain ⟨j, hj⟩ := ih hmem (i + 1)
      exact ⟨j, by rw [show List.enumFrom i (x :: l) = (i, x) :: List.enumFrom (i + 1) l
        from rfl]; exact List.mem_cons_of_mem _ hj⟩

theorem getLastD_of_ne_nil {l : List Nat} (h : l ≠ []) (a b : Nat) :
    l.getLastD a = l.getLastD b := by
  rw [List.getLastD_eq_getLast?, List.getLastD_eq_getLast?]
  obtain ⟨x, hx⟩ := Option.isSome_iff_exists.mp (List.getLast?_isSome.mpr h)
  rw [hx]
  rfl

theorem inner_fold_not_mem (roles : Roles) (p r : Ident) :
    ∀ (prefs : List Ident) (i : Nat) (es0 : List Edge), r ∉ prefs →
    edgeDataOf
        ((prefs.enumFrom i).foldl
          (fun es ir =>
            if ir.2 ∈ roleKeys roles then addEdge es (.agent p) (.cat ir.2) ⟨1, ir.1⟩
            else es)
          es0)
        (Node.agent p) (Node.cat r)
      = edgeDataOf es0 (Node.agent p) (Node.cat r) := by
  intro prefs
  induction prefs with
  | nil => intro i es0 _; rfl
  | cons x prefs ih =>
    intro i es0 hnot
    have hx : ¬r = x := fun hc => hnot (hc ▸ List.mem_cons_self x prefs)
    have hmem : r ∉ prefs := fun hc => hnot (List.mem_cons_of_mem _ hc)
    rw [show List.enumFrom i (x :: prefs) = (i, x) :: List.enumFrom (i + 1) prefs from rfl]
    simp only [List.foldl_cons]
    by_cases hxk : x ∈ roleKeys roles
    · rw [if_pos hxk, ih (i + 1) _ hmem,
        edgeDataOf_addEdge_ne (by simp; exact fun hc => hx hc.symm)]
    · rw [if_neg hxk, ih (i + 1) _ hmem]

theorem inner_fold_lastIdx (roles : Roles) (p r : Ident) (hrk : r ∈ roleKeys roles) :
    ∀ (prefs : List Ident) (i : Nat) (es0 : List Edge), r ∈ prefs →
    edgeDataOf
        ((prefs.enumFrom i).foldl
          (fun es ir =>
            if ir.2 ∈ roleKeys roles then addEdge es (.agent p) (.cat ir.2) ⟨1, ir.1⟩
            else es)
          es0)
        (Node.agent p) (Node.cat r)
      = some ⟨1, (((prefs.enumFrom i).filter
          (fun ir => decide (ir.2 = r))).map (·.1)).getLastD 0⟩ := by
  intro prefs
  induction prefs with
  | nil => intro i es0 h; exact absurd h (List.not_mem_nil r)
  | cons x prefs ih =>
    intro i es0 hmem0
    rw [show List.enumFrom i (x :: prefs) = (i, x) :: List.enumFrom (i + 1) prefs from rfl]
    simp only [List.foldl_cons]
    by_cases hx : x = r
    · subst hx
      rw [if_pos hrk]
      have hfc : ((i, x) :: List.enumFrom (i + 1) prefs).filter
          (fun ir => decide (ir.2 = x))
          = (i, x) :: (List.enumFrom (i + 1) prefs).filter
              (fun ir => decide (ir.2 = x)) := by
        simp [List.filter_cons]
      rw [hfc]
      by_cases hmem : x ∈ prefs
      · rw [ih (i + 1) _ hmem]
        have hne : ((List.enumFrom (i + 1) prefs).filter
            (fun ir => decide (ir.2 = x))).map (·.1) ≠ [] := by
          obtain ⟨j, hj⟩ := exists_mem_enumFrom hmem (i + 1)
          have hjf : (j, x) ∈ (List.enumFrom (i + 1) prefs).filter
              (fun ir => decide (ir.2 = x)) :=
            List.mem_filter.mpr ⟨hj, by simp⟩
          exact List.ne_nil_of_mem (List.mem_map.mpr ⟨(j, x), hjf, rfl⟩)
        rw [List.map_cons, List.getLastD_cons, getLastD_of_ne_nil hne i 0]
      · rw [inner_fold_not_mem roles p x prefs (i + 1) _ hmem, edgeDataOf_addEdge_self]
        have hz : (List.enumFrom (i + 1) prefs).filter (fun ir => decide (ir.2 = x)) = [] := by
          rw [List.filter_eq_nil]
          intro jr hjr
          simp only [decide_eq_true_eq]
          intro hc
          exact hmem (hc ▸ snd_mem_of_mem_enumFrom hjr)
        rw [hz]
        rfl
    · have hmem : r ∈ prefs := by
        rcases List.mem_cons.mp hmem0 with hc | hc
        · exact absurd hc.symm hx
        · exact hc
      have hfc : ((i, x) :: List.enumFrom (i + 1) prefs).filter
          (fun ir => decide (ir.2 = r))
          = (List.enumFrom (i + 1) prefs).filter (fun ir => decide (ir.2 = r)) := by
        simp [List.filter_cons, hx]
      rw [hfc]
      by_cases hxk : x ∈ roleKeys roles
      · rw [if_pos hxk, ih (i + 1) _ hmem]
      · rw [if_neg hxk, ih (i + 1) _ hmem]

theorem inner_fold_preserve_other (roles : Roles) {p q : Ident} (hpq : q ≠ p)
    (r : Ident) (prefs : List Ident) :
    ∀ (i : Nat) (es0 : List Edge),
    edgeDataOf
        ((prefs.enumFrom i).foldl
          (fun es ir =>
            if ir.2 ∈ roleKeys roles then addEdge es (.agent q) (.cat ir.2) ⟨1, ir.1⟩
            else es)
          es0)
        (Node.agent p) (Node.cat r)
      = edgeDataOf es0 (Node.agent p) (Node.cat r) := by
  induction prefs with
  | nil => intro i es0; rfl
  | cons x prefs ih =>
    intro i es0
    rw [show List.enumFrom i (x :: prefs) = (i, x) :: List.enumFrom (i + 1) prefs from rfl]
    simp only [List.foldl_cons]
    by_cases hxk : x ∈ roleKeys roles
    · rw [if_pos hxk, ih (i + 1) _,
        edgeDataOf_addEdge_ne (by simp; exact fun hc _ => hpq hc)]
    · rw [if_neg hxk, ih (i + 1) _]

theorem sink_fold_preserve (p r : Ident) (rcs : Roles) :
    ∀ es0 : List Edge,
    edgeDataOf (rcs.foldl (fun es rc => addEdge es (.cat rc.1) .sink ⟨rc.2, 0⟩) es0)
        (Node.agent p) (Node.cat r)
      = edgeDataOf es0 (Node.agent p) (Node.cat r) := by
  induction rcs with
  | nil => intro es0; rfl
  | cons rc rcs ih =>
    intro es0
    simp only [List.foldl_cons]
    rw [ih _, edgeDataOf_addEdge_ne (by simp)]

theorem src_fold_keys_nodup (players : Players) :
    ∀ es0 : List Edge, (edgeKeys es0).Nodup →
    (edgeKeys (players.foldl
        (fun es pl => addEdge es .source (.agent pl.1) ⟨1, 0⟩) es0)).Nodup := by
  induction players with
  | nil => intro es0 h; exact h
  | cons pl pls ih =>
    intro es0 h
    exact ih _ (edgeKeys_nodup_addEdge h)

theorem pref_fold_keys_nodup (players : Players) (roles : Roles) :
    ∀ es0 : List Edge, (edgeKeys es0).Nodup →
    (edgeKeys (players.foldl
        (fun es pl =>
          pl.2.enum.foldl
            (fun es ir =>
              if ir.2 ∈ roleKeys roles then addEdge es (.agent pl.1) (.cat ir.2) ⟨1, ir.1⟩
              else es)
            es)
        es0)).Nodup := by
  induction players with
  | nil => intro es0 h; exact h
  | cons pl pls ih =>
    intro es0 h
    refine ih _ ?_
    have hinner : ∀ (l : List (Nat × Ident)) (es1 : List Edge), (edgeKeys es1).Nodup →
        (edgeKeys (l.foldl
          (fun es ir =>
            if ir.2 ∈ roleKeys roles then addEdge es (.agent pl.1) (.cat ir.2) ⟨1, ir.1⟩
            else es)
          es1)).Nodup := by
      intro l
      induction l with
      | nil => intro es1 h1; exact h1
      | cons ir irs ih2 =>
        intro es1 h1
        simp only [List.foldl_cons]
        refine ih2 _ ?_
        by_cases hc : ir.2 ∈ roleKeys roles
        · rw [if_pos hc]
          exact edgeKeys_nodup_addEdge h1
        · rw [if_neg hc]
          exact h1
    exact hinner pl.2.enum es0 h

theorem sink_fold_keys_nodup (rcs : Roles) :
    ∀ es0 : List Edge, (edgeKeys es0).Nodup →
    (edgeKeys (rcs.foldl
        (fun es rc => addEdge es (.cat rc.1) .sink ⟨rc.2, 0⟩) es0)).Nodup := by
  induction rcs with
  | nil => intro es0 h; exact h
  | cons rc rcs ih =>
    intro es0 h
    exact ih _ (edgeKeys_nodup_addEdge h)

/-- The built graph never holds two edges with the same endpoints, whatever the
input: `add_edge` overwrites instead of duplicating. -/
theorem buildEdges_keys_nodup (players : Players) (roles : Roles) :
    (edgeKeys (buildEdges players roles)).Nodup := by
  simp only [buildEdges]
  exact sink_fold_keys_nodup roles _
    (pref_fold_keys_nodup players roles _
      (src_fold_keys_nodup players [] (by simp [edgeKeys])))

theorem outer_fold_preserve (roles : Roles) (p r : Ident) :
    ∀ (l2 : Players), (∀ q ∈ l2, q.1 ≠ p) → ∀ es1 : List Edge,
    edgeDataOf (l2.foldl
        (fun es pl =>
          pl.2.enum.foldl
            (fun es ir =>
              if ir.2 ∈ roleKeys roles then addEdge es (.agent pl.1) (.cat ir.2) ⟨1, ir.1⟩
              else es)
            es)
        es1) (Node.agent p) (Node.cat r)
      = edgeDataOf es1 (Node.agent p) (Node.cat r) := by
  intro l2
  induction l2 with
  | nil => intro _ es1; rfl
  | cons pl2 l2 ih =>
    intro hother es1
    simp only [List.foldl_cons]
    have henum : pl2.2.enum = pl2.2.enumFrom 0 := rfl
    rw [ih (fun q hq => hother q (List.mem_cons_of_mem _ hq)) _, henum,
      inner_fold_preserve_other roles (hother pl2 (by simp)) r pl2.2 0 es1]

theorem outer_pref_fold_edgeDataOf {players : Players} {roles : Roles}
    (hp : (players.map (·.1)).Nodup) {p : Ident} {prefs : List Ident}
    (hpl : (p, prefs) ∈ players) {r : Ident} (hrk : r ∈ roleKeys roles)
    (hmem : r ∈ prefs) (es0 : List Edge) :
    edgeDataOf (players.foldl
        (fun es pl =>
          pl.2.enum.foldl
            (fun es ir =>
              if ir.2 ∈ roleKeys roles then addEdge es (.agent pl.1) (.cat ir.2) ⟨1, ir.1⟩
              else es)
            es)
        es0)
        (Node.agent p) (Node.cat r)
      = some ⟨1, ((prefs.enum.filter (fun ir => decide (ir.2 = r))).map (·.1)).getLastD 0⟩ := by
  obtain ⟨l1, l2, rfl⟩ := List.append_of_mem hpl
  have hkeys : ((l1 ++ (p, prefs) :: l2).map (·.1)).Nodup := hp
  rw [List.map_append, List.map_cons] at hkeys
  rw [List.nodup_append] at hkeys
  obtain ⟨-, hk2, hdisj⟩ := hkeys
  rw [List.nodup_cons] at hk2
  obtain ⟨hpnotin2, -⟩ := hk2
  have hother2 : ∀ pl2 ∈ l2, pl2.1 ≠ p := by
    intro pl2 hpl2 hc
    exact hpnotin2 (hc ▸ List.mem_map.mpr ⟨pl2, hpl2, rfl⟩)
  rw [List.foldl_append, List.foldl_cons]
  rw [outer_fold_preserve roles p r l2 hother2 _]
  exact inner_fold_lastIdx roles p r hrk prefs 0 _ hmem

/-- Looking up the `(agent, role)` edge of a player whose preference list
mentions the role (possibly several times) yields capacity 1 and the rank of
the last occurrence. -/
theorem buildEdges_edgeDataOf_lastRank {players : Players} {roles : Roles}
    (hp : (players.map (·.1)).Nodup) {p : Ident} {prefs : List Ident}
    (hpl : (p, prefs) ∈ players) {r : Ident} (hrk : r ∈ roleKeys roles)
    (hmem : r ∈ prefs) {k : Nat} (hk : lastRank prefs r = some k) :
    edgeDataOf (buildEdges players roles) (Node.agent p) (Node.cat r)
      = some ⟨1, k⟩ := by
  simp only [buildEdges]
  rw [sink_fold_preserve p r roles _,
    outer_pref_fold_edgeDataOf hp hpl hrk hmem _]
  unfold lastRank at hk
  rw [List.getLastD_eq_getLast?, hk]
  rfl

theorem countP_eq_key_le_one {l : List (Node × Node)} (h : l.Nodup) (a : Node × Node) :
    l.countP (fun x => decide (x = a)) ≤ 1 := by
  induction l with
  | nil => simp
  | cons x l ih =>
    rw [List.countP_cons]
    simp only [List.nodup_cons] at h
    by_cases hc : x = a
    · subst hc
      have hz : l.countP (fun y => decide (y = x)) = 0 := by
        rw [List.countP_eq_zero]
        intro y hy
        simp only [decide_eq_true_eq]
        intro hc2
        exact h.1 (hc2 ▸ hy)
      simp [hz]
    · have hd : (decide (x = a)) = false := by simp [hc]
      have hih := ih h.2
      simp only [hd, Bool.false_eq_true, if_false]
      omega

/-- **C8**: when a preference list repeats a role, the graph still holds a
single `agent → role` edge for the pair, and its weight is the rank of the
last occurrence (later `add_edge` calls overwrote the earlier rank). -/
theorem C8_duplicate_pref {players : Players} {roles : Roles}
    (hp : (players.map (·.1)).Nodup)
    {p : Ident} {prefs : List Ident} (hpl : (p, prefs) ∈ players)
    {r : Ident} (hdup : 1 < prefs.count r) (hrk : r ∈ roleKeys roles)
    {k : Nat} (hk : lastRank prefs r = some k) :
    (buildEdges players roles).countP
        (fun e => decide (e.1 = Node.agent p ∧ e.2.1 = Node.cat r)) = 1 ∧
    (Node.agent p, Node.cat r, (⟨1, k⟩ : EdgeData)) ∈ buildEdges players roles := by
  have hmem : r ∈ prefs := by
    have hpos : 0 < prefs.count r := by omega
    exact List.count_pos_iff.mp hpos
  have hdata := buildEdges_edgeDataOf_lastRank hp hpl hrk hmem hk
  unfold edgeDataOf at hdata
  cases hfind : (buildEdges players roles).find?
      (fun e => decide (e.1 = Node.agent p ∧ e.2.1 = Node.cat r)) with
  | none =>
    rw [hfind] at hdata
    exact absurd hdata (by simp)
  | some e =>
    rw [hfind] at hdata
    simp only [Option.map_some', Option.some.injEq] at hdata
    have hpe := List.find?_some hfind
    simp only [decide_eq_true_eq] at hpe
    have hem := List.mem_of_find?_eq_some hfind
    have he : e = (Node.agent p, Node.cat r, (⟨1, k⟩ : EdgeData)) := by
      obtain ⟨h1, h2⟩ := hpe
      calc e = (e.1, e.2.1, e.2.2) := rfl
        _ = (Node.agent p, Node.cat r, (⟨1, k⟩ : EdgeData)) := by rw [h1, h2, hdata]
    constructor
    · have hnd := buildEdges_keys_nodup players roles
      have hcnt : (buildEdges players roles).countP
          (fun e => decide (e.1 = Node.agent p ∧ e.2.1 = Node.cat r))
          = (edgeKeys (buildEdges players roles)).countP
              (fun k => decide (k = (Node.agent p, Node.cat r))) := by
        rw [edgeKeys, List.countP_map]
        refine List.countP_congr ?_
        intro x _
        simp [Function.comp, Prod.ext_iff]
      rw [hcnt]
      have hmemk : (Node.agent p, Node.cat r) ∈ edgeKeys (buildEdges players roles) := by
        unfold edgeKeys
        refine List.mem_map.mpr ⟨e, hem, ?_⟩
        rw [he]
      have hle := countP_eq_key_le_one hnd (Node.agent p, Node.cat r)
      have hge : 0 < (edgeKeys (buildEdges players roles)).countP
          (fun k => decide (k = (Node.agent p, Node.cat r))) :=
        List.countP_pos.mpr ⟨_, hmemk, by simp⟩
      omega
    · rw [← he]
      exact hem

theorem getElem_mem_enumFrom (l : List Ident) :
    ∀ (i j : Nat) (h : j < l.length), (i + j, l[j]) ∈ l.enumFrom i := by
  induction l with
  | nil =>
    intro i j h
    simp at h
  | cons x l ih =>
    intro i j h
    rw [show List.enumFrom i (x :: l) = (i, x) :: List.enumFrom (i + 1) l from rfl]
    cases j with
    | zero => simp
    | succ j =>
      have hj : j < l.length := by
        simp only [List.length_cons] at h
        omega
      have h2 := ih (i + 1) j hj
      have harith : (i + 1 + j, l[j]) = (i + (j + 1), (x :: l)[j + 1]) := by
        simp only [List.getElem_cons_succ]
        have hidx : i + 1 + j = i + (j + 1) := by omega
        rw [hidx]
      exact List.mem_cons_of_mem _ (harith ▸ h2)

theorem mem_enum_iff_indexOf {prefs : List Ident} (hnd : prefs.Nodup) {jr : Nat × Ident} :
    jr ∈ prefs.enum ↔ jr.2 ∈ prefs ∧ jr.1 = prefs.indexOf jr.2 := by
  constructor
  · intro hjr
    obtain ⟨-, h3, h4⟩ :=
      List.mem_enumFrom (show (jr.1, jr.2) ∈ prefs.enumFrom 0 from hjr)
    have hlt : jr.1 - 0 < prefs.length := by omega
    constructor
    · rw [h4]
      exact List.getElem_mem _
    · have h5 := List.indexOf_getElem hnd (jr.1 - 0) hlt
      rw [← h4] at h5
      omega
  · rintro ⟨hmem, hidx⟩
    have hlt : prefs.indexOf jr.2 < prefs.length := List.indexOf_lt_length.mpr hmem
    have h2 := getElem_mem_enumFrom prefs 0 (prefs.indexOf jr.2) hlt
    have h3 : (0 + prefs.indexOf jr.2, prefs[prefs.indexOf jr.2]) = jr := by
      rw [List.getElem_indexOf hlt]
      have h4 : 0 + prefs.indexOf jr.2 = jr.1 := by omega
      rw [h4]
    exact h3 ▸ h2

/-- **C3**: the built graph has exactly one edge per `(u, v)` pair, and its
edges are exactly: one `source → player` edge of capacity 1 and weight 0 per
player, one `player → role` edge of capacity 1 and weight the zero-based rank
for exactly the pairs whose role is a key of the role dict, and one
`role → sink` edge of capacity the role's capacity and weight 0 per role. -/
theorem C3_graph_edges {players : Players} {roles : Roles}
    (hp : (players.map (·.1)).Nodup)
    (hprefs : ∀ pl ∈ players, pl.2.Nodup)
    (hr : (roles.map (·.1)).Nodup) :
    (edgeKeys (buildEdges players roles)).Nodup ∧
    ∀ e : Edge, e ∈ buildEdges players roles ↔
      ((∃ pl ∈ players, e = (.source, .agent pl.1, ⟨1, 0⟩)) ∨
       (∃ pl ∈ players, ∃ r, r ∈ pl.2 ∧ r ∈ roleKeys roles ∧
          e = (.agent pl.1, .cat r, ⟨1, pl.2.indexOf r⟩)) ∨
       (∃ rc ∈ roles, e = (.cat rc.1, .sink, ⟨rc.2, 0⟩))) := by
  refine ⟨buildEdges_keys_nodup players roles, ?_⟩
  intro e
  rw [buildEdges_eq hp hprefs hr]
  constructor
  · intro he
    rcases mem_graph_cases he with h | h | h
    · exact Or.inl h
    · obtain ⟨pl, hpl, jr, hjr, hrk, rfl⟩ := h
      refine Or.inr (Or.inl ⟨pl, hpl, jr.2, snd_mem_of_mem_enum hjr, hrk, ?_⟩)
      have h2 := (mem_enum_iff_indexOf (hprefs pl hpl)).mp hjr
      rw [h2.2]
    · exact Or.inr (Or.inr h)
  · intro h
    rcases h with ⟨pl, hpl, rfl⟩ | ⟨pl, hpl, r, hrmem, hrk, rfl⟩ | ⟨rc, hrc, rfl⟩
    · exact List.mem_append.mpr
        (Or.inl (List.mem_append.mpr (Or.inl (mem_srcEdges.mpr ⟨pl, hpl, rfl⟩))))
    · refine List.mem_append.mpr
        (Or.inl (List.mem_append.mpr (Or.inr (mem_prefEdges.mpr
          ⟨pl, hpl, (pl.2.indexOf r, r), ?_, hrk, rfl⟩))))
      exact (mem_enum_iff_indexOf (hprefs pl hpl)).mpr ⟨hrmem, rfl⟩
    · exact List.mem_append.mpr (Or.inr (mem_sinkEdges.mpr ⟨rc, hrc, rfl⟩))

/-! ## The decoded assignment's total cost equals the flow's cost -/

theorem sum_flowOut_general {ns : List Node} (hnd : ns.Nodup) (efs : FlowList)
    (g : Edge × Nat → Nat) :
    (ns.map (fun n => (efs.map (fun ef => if ef.1.1 = n then g ef else 0)).sum)).sum
      = (efs.map (fun ef => if ef.1.1 ∈ ns then g ef else 0)).sum := by
  induction efs with
  | nil =>
    simp only [List.map_nil, List.sum_nil]
    exact List.sum_eq_zero (by
      intro x hx
      obtain ⟨k, _, rfl⟩ := List.mem_map.mp hx
      simp)
  | cons ef efs ih =>
    have hstep : ∀ n, ((ef :: efs).map (fun ef => if ef.1.1 = n then g ef else 0)).sum
        = (if ef.1.1 = n then g ef else 0)
          + (efs.map (fun ef => if ef.1.1 = n then g ef else 0)).sum := by
      intro n
      simp
    simp only [hstep, List.map_cons, List.sum_cons]
    rw [sum_map_add, ih]
    congr 1
    by_cases hm : ef.1.1 ∈ ns
    · rw [if_pos hm, sum_map_ite_eq hnd hm]
    · rw [if_neg hm]
      exact List.sum_eq_zero (by
        intro x hx
        obtain ⟨k, hk, rfl⟩ := List.mem_map.mp hx
        have hnk : ¬ef.1.1 = k := fun hc => hm (by rw [hc]; exact hk)
        rw [if_neg hnk])

theorem sum_filterMap_eq_sum {α β : Type} (l : List α) (f : α → Option β)
    (g : β → Nat) :
    ((l.filterMap f).map g).sum
      = (l.map (fun x =>
          match f x with
          | some b => g b
          | none => 0)).sum := by
  induction l with
  | nil => rfl
  | cons a l ih =>
    simp only [List.filterMap_cons]
    cases hf : f a with
    | none => simp [hf, ih]
    | some b => simp [hf, ih]

theorem lookup_of_mem {players : Players} (hp : (players.map (·.1)).Nodup)
    {pl : Ident × List Ident} (hpl : pl ∈ players) :
    players.lookup pl.1 = some pl.2 := by
  induction players with
  | nil => exact absurd hpl (List.not_mem_nil pl)
  | cons q qs ih =>
    obtain ⟨qk, qv⟩ := q
    simp only [List.map_cons, List.nodup_cons] at hp
    obtain ⟨hq, hp2⟩ := hp
    rcases List.mem_cons.mp hpl with rfl | hmem
    · simp [List.lookup_cons]
    · have hne : (pl.1 == qk) = false := by
        refine beq_eq_false_iff_ne.mpr ?_
        intro hc
        exact hq (hc ▸ List.mem_map.mpr ⟨pl, hmem, rfl⟩)
      simp only [List.lookup_cons, hne]
      exact ih hp2 hmem

theorem pref_edge_data {players : Players} {roles : Roles}
    (hprefs : ∀ pl ∈ players, pl.2.Nodup) {p r : Ident} {d : EdgeData}
    (he : (Node.agent p, Node.cat r, d)
      ∈ srcEdges players ++ prefEdges players roles ++ sinkEdges roles) :
    ∃ pl ∈ players, pl.1 = p ∧ r ∈ pl.2 ∧ r ∈ roleKeys roles ∧
      d = ⟨1, pl.2.indexOf r⟩ := by
  rcases mem_graph_cases he with ⟨pl, _, heq⟩ | ⟨pl, hpl, jr, hjr, hrk, heq⟩ |
    ⟨rc, _, heq⟩
  · exact absurd heq (by simp)
  · simp only [Prod.mk.injEq, Node.agent.injEq, Node.cat.injEq] at heq
    obtain ⟨h1, h2, h3⟩ := heq
    obtain ⟨hmem, hidx⟩ := (mem_enum_iff_indexOf (hprefs pl hpl)).mp hjr
    refine ⟨pl, hpl, h1.symm, h2 ▸ hmem, h2 ▸ hrk, ?_⟩
    rw [h3, hidx, h2]
  · exact absurd heq (by simp)

theorem wOut_eq_rank {players : Players} {roles : Roles} {efs : FlowList} {np : Int}
    (hG : efs.map (·.1) = srcEdges players ++ prefEdges players roles ++ sinkEdges roles)
    (hfeas : Feasible np efs)
    (hp : (players.map (·.1)).Nodup)
    (hprefs : ∀ pl ∈ players, pl.2.Nodup)
    {pl : Ident × List Ident} (hpl : pl ∈ players) :
    (efs.map (fun ef =>
        if ef.1.1 = Node.agent pl.1 then ef.2 * ef.1.2.2.weight else 0)).sum
      = (match firstPositiveTarget pl.1 efs with
         | some t => (prefsOf players pl.1).indexOf (nodeName t)
         | none => 0) := by
  cases hfp : firstPositiveTarget pl.1 efs with
  | none =>
    show (efs.map (fun ef =>
        if ef.1.1 = Node.agent pl.1 then ef.2 * ef.1.2.2.weight else 0)).sum = 0
    refine List.sum_eq_zero ?_
    intro x hx
    obtain ⟨ef, hef, rfl⟩ := List.mem_map.mp hx
    by_cases hc : ef.1.1 = Node.agent pl.1
    · rw [if_pos hc, firstPositiveTarget_none hfp ef hef hc]
      simp
    · rw [if_neg hc]
  | some t =>
    obtain ⟨ef0, hef0, hsrc0, hv0, htgt0⟩ := firstPositiveTarget_some hfp
    obtain ⟨r0, rfl⟩ : ∃ r0, t = Node.cat r0 := by
      rcases flow_edge_cases hG hef0 with ⟨pl2, _, he⟩ | ⟨pl2, _, jr, _, _, he⟩ |
        ⟨rc, _, he⟩
      · rw [he] at hsrc0
        exact absurd hsrc0 (by simp)
      · rw [he] at htgt0
        exact ⟨jr.2, htgt0.symm⟩
      · rw [he] at hsrc0
        exact absurd hsrc0 (by simp)
    show (efs.map (fun ef =>
        if ef.1.1 = Node.agent pl.1 then ef.2 * ef.1.2.2.weight else 0)).sum
      = (prefsOf players pl.1).indexOf (nodeName (Node.cat r0))
    have hprefsOf : prefsOf players pl.1 = pl.2 := by
      unfold prefsOf
      rw [lookup_of_mem hp hpl]
      rfl
    rw [hprefsOf, show nodeName (Node.cat r0) = r0 from rfl]
    have hout1 := flow_out_agent_le_one hG hfeas hp pl.1
    have hpf0 : pairFlow pl.1 r0 efs = 1 := by
      have h2 := match_term_eq_pairFlow hG hout1 r0
      rw [hfp] at h2
      have h3 : (if r0 = r0 then 1 else 0) = pairFlow pl.1 r0 efs := h2
      rw [if_pos rfl] at h3
      exact h3.symm
    have hpfne : ∀ r, r ≠ r0 → pairFlow pl.1 r efs = 0 := by
      intro r hrne
      have h2 := match_term_eq_pairFlow hG hout1 r
      rw [hfp] at h2
      have h3 : (if r0 = r then 1 else 0) = pairFlow pl.1 r efs := h2
      rw [if_neg (fun hc => hrne hc.symm)] at h3
      exact h3.symm
    have hpt : (efs.map (fun ef =>
        if ef.1.1 = Node.agent pl.1 then ef.2 * ef.1.2.2.weight else 0)).sum
        = (efs.map (fun ef =>
            (if ef.1.1 = Node.agent pl.1 ∧ ef.1.2.1 = Node.cat r0 then ef.2 else 0)
              * pl.2.indexOf r0)).sum := by
      refine congrArg List.sum (List.map_congr_left ?_)
      intro ef hef
      by_cases hc : ef.1.1 = Node.agent pl.1
      · rw [if_pos hc]
        rcases flow_edge_cases hG hef with ⟨pl2, _, he⟩ | ⟨pl2, hpl2, jr, hjr, hrk, he⟩ |
          ⟨rc, _, he⟩
        · rw [he] at hc
          exact absurd hc (by simp)
        · have hkey : pl2.1 = pl.1 := by
            rw [he] at hc
            simpa using hc
          have hpl2eq : pl2 = pl := List.inj_on_of_nodup_map hp hpl2 hpl hkey
          have htgt : ef.1.2.1 = Node.cat jr.2 := by rw [he]
          have hw : ef.1.2.2.weight = jr.1 := by rw [he]
          have hidx := (mem_enum_iff_indexOf (hprefs pl2 hpl2)).mp hjr
          by_cases hrx : jr.2 = r0
          · rw [if_pos ⟨hc, by rw [htgt, hrx]⟩, hw, hidx.2, hrx, hpl2eq]
          · have hv : ef.2 = 0 := by
              have h3 := le_pairFlow hef hc htgt
              rw [hpfne jr.2 hrx] at h3
              omega
            rw [hv]
            have hc2 : ¬(ef.1.1 = Node.agent pl.1 ∧ ef.1.2.1 = Node.cat r0) := by
              rintro ⟨-, hc3⟩
              rw [htgt] at hc3
              exact hrx (by simpa using hc3)
            rw [if_neg hc2]
            simp
        · rw [he] at hc
          exact absurd hc (by simp)
      · rw [if_neg hc, if_neg (fun hc2 => hc hc2.1)]
        simp
    rw [hpt, List.sum_map_mul_right]
    have hpair : (efs.map (fun ef =>
        if ef.1.1 = Node.agent pl.1 ∧ ef.1.2.1 = Node.cat r0 then ef.2 else 0)).sum
        = pairFlow pl.1 r0 efs := rfl
    rw [hpair, hpf0, one_mul]

/-- The total preference rank of the decoded assignment equals the cost of the
flow it was decoded from (all non-preference edges have weight 0). -/
theorem rankCost_decode_eq_flowCost {players : Players} {roles : Roles}
    {efs : FlowList} {np : Int}
    (hG : efs.map (·.1) = srcEdges players ++ prefEdges players roles ++ sinkEdges roles)
    (hfeas : Feasible np efs)
    (hp : (players.map (·.1)).Nodup)
    (hprefs : ∀ pl ∈ players, pl.2.Nodup) :
    rankCost players (decode players efs) = flowCost efs := by
  unfold rankCost
  rw [decode_eq_filterMap,
    @sum_filterMap_eq_sum (Ident × List Ident) (Ident × Ident) players
      (fun pl => (firstPositiveTarget pl.1 efs).map (fun t => (pl.1, nodeName t)))
      (fun pr => (prefsOf players pr.1).indexOf pr.2)]
  have hstep : (players.map (fun pl =>
      (efs.map (fun ef =>
        if ef.1.1 = Node.agent pl.1 then ef.2 * ef.1.2.2.weight else 0)).sum)).sum
      = flowCost efs := by
    have hns : (players.map (fun pl => Node.agent pl.1)).Nodup := by
      have h1 : players.map (fun pl => Node.agent pl.1)
          = (players.map (·.1)).map Node.agent := by
        rw [List.map_map]
        rfl
      rw [h1]
      exact hp.map (fun a b h => by simpa using h)
    have hmm2 : players.map (fun pl =>
        (efs.map (fun ef =>
          if ef.1.1 = Node.agent pl.1 then ef.2 * ef.1.2.2.weight else 0)).sum)
        = (players.map (fun pl => Node.agent pl.1)).map (fun n =>
            (efs.map (fun ef =>
              if ef.1.1 = n then ef.2 * ef.1.2.2.weight else 0)).sum) := by
      rw [List.map_map]
      rfl
    rw [hmm2, sum_flowOut_general hns efs (fun ef => ef.2 * ef.1.2.2.weight)]
    unfold flowCost
    refine congrArg List.sum (List.map_congr_left ?_)
    intro ef hef
    by_cases hm : ef.1.1 ∈ players.map (fun pl => Node.agent pl.1)
    · rw [if_pos hm]
    · rw [if_neg hm]
      rcases flow_edge_cases hG hef with ⟨pl2, _, he⟩ | ⟨pl2, hpl2, jr, _, _, he⟩ |
        ⟨rc, _, he⟩
      · have hw : ef.1.2.2.weight = 0 := by rw [he]
        rw [hw]
        simp
      · have hsrc : ef.1.1 = Node.agent pl2.1 := by rw [he]
        exact absurd (hsrc ▸ List.mem_map.mpr ⟨pl2, hpl2, rfl⟩) hm
      · have hw : ef.1.2.2.weight = 0 := by rw [he]
        rw [hw]
        simp
  refine Eq.trans ?_ hstep
  refine congrArg List.sum (List.map_congr_left ?_)
  intro pl hpl
  have h := wOut_eq_rank hG hfeas hp hprefs hpl
  cases hfp : firstPositiveTarget pl.1 efs with
  | none =>
    rw [hfp] at h
    exact h.symm
  | some t =>
    rw [hfp] at h
    exact h.symm

/-- **C9**: on one and the same input, any two flows satisfying the solver
contract (feasible, of minimum cost among the feasible flows on the built
graph) decode to assignments of identical total rank cost: whichever optimal
flow the library returns on each of two identical calls, the two returned
assignments have the same total cost, even if the pairings differ.  (The
embedding of `assign_roles` itself is a pure function, so two calls also
either both fail or both return.) -/
theorem C9_cost_determinism {players : Players} {roles : Roles}
    (hp : (players.map (·.1)).Nodup)
    (hprefs : ∀ pl ∈ players, pl.2.Nodup)
    (hr : (roles.map (·.1)).Nodup)
    {f g : FlowList}
    (hfm : f.map (·.1) = buildEdges players roles)
    (hff : Feasible (numPositions roles) f)
    (hfopt : ∀ h2 : FlowList, h2.map (·.1) = buildEdges players roles →
      Feasible (numPositions roles) h2 → flowCost f ≤ flowCost h2)
    (hgm : g.map (·.1) = buildEdges players roles)
    (hgf : Feasible (numPositions roles) g)
    (hgopt : ∀ h2 : FlowList, h2.map (·.1) = buildEdges players roles →
      Feasible (numPositions roles) h2 → flowCost g ≤ flowCost h2) :
    rankCost players (decode players f) = rankCost players (decode players g) := by
  have hGf : f.map (·.1)
      = srcEdges players ++ prefEdges players roles ++ sinkEdges roles := by
    rw [hfm, buildEdges_eq hp hprefs hr]
  have hGg : g.map (·.1)
      = srcEdges players ++ prefEdges players roles ++ sinkEdges roles := by
    rw [hgm, buildEdges_eq hp hprefs hr]
  rw [rankCost_decode_eq_flowCost hGf hff hp hprefs,
    rankCost_decode_eq_flowCost hGg hgf hp hprefs]
  exact le_antisymm (hfopt g hgm hgf) (hgopt f hfm hff)

/-! ## Flows induced by saturating assignments (towards optimality) -/

theorem prefEdgesFrom_cons {roles : Roles} {p x : Ident} {prefs : List Ident} {i : Nat} :
    prefEdgesFrom roles p i (x :: prefs)
      = (if x ∈ roleKeys roles then [(Node.agent p, Node.cat x, (⟨1, i⟩ : EdgeData))] else [])
        ++ prefEdgesFrom roles p (i + 1) prefs := by
  simp only [prefEdgesFrom,
    show List.enumFrom i (x :: prefs) = (i, x) :: List.enumFrom (i + 1) prefs from rfl,
    List.filterMap_cons]
  by_cases hx : x ∈ roleKeys roles
  · rw [if_pos hx, if_pos hx]
    rfl
  · rw [if_neg hx, if_neg hx]
    rfl

theorem sum_prefEdgesFrom {roles : Roles} {p : Ident} (prefs : List Ident)
    (g : Edge → Nat) :
    ∀ i : Nat,
    ((prefEdgesFrom roles p i prefs).map g).sum
      = ((prefs.enumFrom i).map (fun jr =>
          if jr.2 ∈ roleKeys roles then g (.agent p, .cat jr.2, ⟨1, jr.1⟩) else 0)).sum := by
  induction prefs with
  | nil => intro i; rfl
  | cons x prefs ih =>
    intro i
    rw [prefEdgesFrom_cons,
      show List.enumFrom i (x :: prefs) = (i, x) :: List.enumFrom (i + 1) prefs from rfl]
    simp only [List.map_append, List.sum_append, List.map_cons, List.sum_cons]
    by_cases hx : x ∈ roleKeys roles
    · rw [if_pos hx, if_pos hx, ih (i + 1)]
      simp
    · rw [if_neg hx, if_neg hx, ih (i + 1)]
      simp

theorem sum_map_flatMap {α β : Type} (l : List α) (f : α → List β) (g : β → Nat) :
    ((l.flatMap f).map g).sum = (l.map (fun x => ((f x).map g).sum)).sum := by
  induction l with
  | nil => rfl
  | cons a l ih =>
    simp only [List.flatMap_cons, List.map_append, List.sum_append, List.map_cons,
      List.sum_cons, ih]

theorem sum_prefEdges_general (players : Players) (roles : Roles) (g : Edge → Nat) :
    ((prefEdges players roles).map g).sum
      = (players.map (fun pl =>
          ((pl.2.enumFrom 0).map (fun jr =>
            if jr.2 ∈ roleKeys roles then g (.agent pl.1, .cat jr.2, ⟨1, jr.1⟩)
            else 0)).sum)).sum := by
  unfold prefEdges
  rw [sum_map_flatMap]
  refine congrArg List.sum (List.map_congr_left ?_)
  intro pl _
  exact sum_prefEdgesFrom pl.2 g 0

theorem sum_enumFrom_unique {prefs : List Ident} (hnd : prefs.Nodup) {r0 : Ident}
    (hmem : r0 ∈ prefs) (v : Nat → Nat) :
    ∀ i : Nat,
    ((prefs.enumFrom i).map (fun jr => if jr.2 = r0 then v jr.1 else 0)).sum
      = v (i + prefs.indexOf r0) := by
  induction prefs with
  | nil => exact absurd hmem (List.not_mem_nil r0)
  | cons x prefs ih =>
    intro i
    rw [show List.enumFrom i (x :: prefs) = (i, x) :: List.enumFrom (i + 1) prefs from rfl]
    simp only [List.map_cons, List.sum_cons, List.nodup_cons] at hnd ⊢
    obtain ⟨hxnot, hnd2⟩ := hnd
    by_cases hx : x = r0
    · subst hx
      rw [if_pos rfl]
      have hz : ((prefs.enumFrom (i + 1)).map
          (fun jr => if jr.2 = x then v jr.1 else 0)).sum = 0 :=
        List.sum_eq_zero (by
          intro y hy
          obtain ⟨jr, hjr, rfl⟩ := List.mem_map.mp hy
          have hne : ¬jr.2 = x := fun hc => hxnot (hc ▸ snd_mem_of_mem_enumFrom hjr)
          rw [if_neg hne])
      rw [hz]
      have hidx : (x :: prefs).indexOf x = 0 := by simp [List.indexOf_cons]
      rw [hidx]
      simp
    · rw [if_neg (by simpa using hx)]
      have hmem2 : r0 ∈ prefs := by
        rcases List.mem_cons.mp hmem with hc | hc
        · exact absurd hc.symm hx
        · exact hc
      rw [ih hnd2 hmem2 (i + 1)]
      have hidx : (x :: prefs).indexOf r0 = prefs.indexOf r0 + 1 := by
        have hbeq : (x == r0) = false := beq_eq_false_iff_ne.mpr hx
        simp [List.indexOf_cons, hbeq]
      rw [hidx]
      have harith : i + 1 + prefs.indexOf r0 = i + (prefs.indexOf r0 + 1) := by omega
      rw [harith]
      omega

theorem sum_enumFrom_zero {prefs : List Ident} {r0 : Ident} (hnot : r0 ∉ prefs)
    (v : Nat → Nat) (i : Nat) :
    ((prefs.enumFrom i).map (fun jr => if jr.2 = r0 then v jr.1 else 0)).sum = 0 :=
  List.sum_eq_zero (by
    intro y hy
    obtain ⟨jr, hjr, rfl⟩ := List.mem_map.mp hy
    have hne : ¬jr.2 = r0 := fun hc => hnot (hc ▸ snd_mem_of_mem_enumFrom hjr)
    rw [if_neg hne])

theorem sum_ite_eq_countP {α : Type} (l : List α) (q : α → Prop) [DecidablePred q] :
    (l.map (fun x => if q x then 1 else 0)).sum = l.countP (fun x => decide (q x)) := by
  induction l with
  | nil => rfl
  | cons a l ih =>
    simp only [List.map_cons, List.sum_cons, List.countP_cons, ih]
    by_cases hq : q a
    · simp [hq]
      omega
    · simp [hq]

theorem sum_ite_key_nat {roles : Roles} (hnd : (roles.map (·.1)).Nodup)
    (F : Ident × Int → Nat) {r : Ident} {c : Int} (hm : (r, c) ∈ roles) :
    (roles.map (fun rc => if rc.1 = r then F rc else 0)).sum = F (r, c) := by
  induction roles with
  | nil => exact absurd hm (List.not_mem_nil _)
  | cons rc rcs ih =>
    simp only [List.map_cons, List.nodup_cons] at hnd
    obtain ⟨hn, hnd2⟩ := hnd
    simp only [List.map_cons, List.sum_cons]
    by_cases h : rc.1 = r
    · rw [if_pos h]
      have hrc : rc = (r, c) := by
        rcases List.mem_cons.mp hm with heq | hm2
        · rw [heq]
        · exact absurd (by rw [h]; exact List.mem_map.mpr ⟨(r, c), hm2, rfl⟩) hn
      have hz : (rcs.map (fun rc => if rc.1 = r then F rc else 0)).sum = 0 :=
        List.sum_eq_zero (by
          intro x hx
          obtain ⟨k, hk, rfl⟩ := List.mem_map.mp hx
          have hkr : ¬k.1 = r := by
            intro hc
            exact hn (by rw [h, ← hc]; exact List.mem_map.mpr ⟨k, hk, rfl⟩)
          rw [if_neg hkr])
      rw [hrc, hz, Nat.add_zero]
    · rw [if_neg h]
      have hm2 : (r, c) ∈ rcs := by
        rcases List.mem_cons.mp hm with heq | hm2
        · exact absurd (by rw [← heq]) h
        · exact hm2
      simp [ih hnd2 hm2]

theorem sum_ite_key_zero_nat {roles : Roles} (F : Ident × Int → Nat) {r : Ident}
    (hnot : r ∉ roleKeys roles) :
    (roles.map (fun rc => if rc.1 = r then F rc else 0)).sum = 0 :=
  List.sum_eq_zero (by
    intro x hx
    obtain ⟨rc, hrc, rfl⟩ := List.mem_map.mp hx
    have hne : ¬rc.1 = r := fun hc =>
      hnot (hc ▸ List.mem_map.mpr ⟨rc, hrc, rfl⟩)
    rw [if_neg hne])

theorem flowOfAssignment_map_fst (es : List Edge) (asg : List (Ident × Ident)) :
    (flowOfAssignment es asg).map (·.1) = es := by
  unfold flowOfAssignment
  rw [List.map_map]
  exact List.map_id es

theorem ofAsg_flowInto (es : List Edge) (asg : List (Ident × Ident)) (n : Node) :
    flowInto n (flowOfAssignment es asg)
      = (es.map (fun e => if e.2.1 = n then assignFlowVal asg e else 0)).sum := by
  unfold flowInto flowOfAssignment
  rw [List.map_map]
  rfl

theorem ofAsg_flowOutOf (es : List Edge) (asg : List (Ident × Ident)) (n : Node) :
    flowOutOf n (flowOfAssignment es asg)
      = (es.map (fun e => if e.1 = n then assignFlowVal asg e else 0)).sum := by
  unfold flowOutOf flowOfAssignment
  rw [List.map_map]
  rfl

theorem ofAsg_flowCost (es : List Edge) (asg : List (Ident × Ident)) :
    flowCost (flowOfAssignment es asg)
      = (es.map (fun e => assignFlowVal asg e * e.2.2.weight)).sum := by
  unfold flowCost flowOfAssignment
  rw [List.map_map]
  rfl

theorem sum_src_general (players : Players) (g : Edge → Nat) :
    ((srcEdges players).map g).sum
      = (players.map (fun pl => g (.source, .agent pl.1, ⟨1, 0⟩))).sum := by
  unfold srcEdges
  rw [List.map_map]
  rfl

theorem sum_sink_general (roles : Roles) (g : Edge → Nat) :
    ((sinkEdges roles).map g).sum
      = (roles.map (fun rc => g (.cat rc.1, .sink, ⟨rc.2, 0⟩))).sum := by
  unfold sinkEdges
  rw [List.map_map]
  rfl

theorem players_key_inj {players : Players} (hp : (players.map (·.1)).Nodup)
    {pl pl2 : Ident × List Ident} (h1 : pl ∈ players) (h2 : pl2 ∈ players)
    (hk : pl.1 = pl2.1) : pl = pl2 :=
  List.inj_on_of_nodup_map hp h1 h2 hk

theorem asg_pair_unique {asg : List (Ident × Ident)}
    (hknd : (asg.map (·.1)).Nodup) {p a b : Ident}
    (h1 : (p, a) ∈ asg) (h2 : (p, b) ∈ asg) : a = b := by
  have h := List.inj_on_of_nodup_map hknd h1 h2 rfl
  exact congrArg Prod.snd h

theorem sum_ite_pkey {players : Players} (hp : (players.map (·.1)).Nodup)
    (F : Ident × List Ident → Nat) {pl0 : Ident × List Ident} (hm : pl0 ∈ players) :
    (players.map (fun pl => if pl.1 = pl0.1 then F pl else 0)).sum = F pl0 := by
  induction players with
  | nil => exact absurd hm (List.not_mem_nil _)
  | cons q qs ih =>
    simp only [List.map_cons, List.nodup_cons] at hp
    obtain ⟨hq, hp2⟩ := hp
    simp only [List.map_cons, List.sum_cons]
    by_cases h : q.1 = pl0.1
    · rw [if_pos h]
      have hq0 : q = pl0 := by
        rcases List.mem_cons.mp hm with heq | hm2
        · rw [heq]
        · exact absurd (by rw [h]; exact List.mem_map.mpr ⟨pl0, hm2, rfl⟩) hq
      have hz : (qs.map (fun pl => if pl.1 = pl0.1 then F pl else 0)).sum = 0 :=
        List.sum_eq_zero (by
          intro x hx
          obtain ⟨k, hk, rfl⟩ := List.mem_map.mp hx
          have hkr : ¬k.1 = pl0.1 := by
            intro hc
            exact hq (by rw [h, ← hc]; exact List.mem_map.mpr ⟨k, hk, rfl⟩)
          rw [if_neg hkr])
      rw [hq0, hz, Nat.add_zero]
    · rw [if_neg h]
      have hm2 : pl0 ∈ qs := by
        rcases List.mem_cons.mp hm with heq | hm2
        · exact absurd (by rw [← heq]) h
        · exact hm2
      simp [ih hp2 hm2]

theorem sum_players_mem_asg {players : Players} (hp : (players.map (·.1)).Nodup)
    (r : Ident) :
    ∀ asg : List (Ident × Ident), (asg.map (·.1)).Nodup →
      (∀ pr ∈ asg, pr.1 ∈ players.map (·.1)) →
      (players.map (fun pl => if (pl.1, r) ∈ asg then 1 else 0)).sum
        = asg.countP (fun pr => decide (pr.2 = r)) := by
  intro asg
  induction asg with
  | nil =>
    intro _ _
    simp [List.countP_nil]
  | cons pr asg1 ih =>
    intro hknd hval
    simp only [List.map_cons, List.nodup_cons] at hknd
    obtain ⟨hhead, htail⟩ := hknd
    have hsplit : ∀ pl : Ident × List Ident,
        (if (pl.1, r) ∈ pr :: asg1 then (1 : Nat) else 0)
          = (if (pl.1, r) = pr then 1 else 0)
            + (if (pl.1, r) ∈ asg1 then 1 else 0) := by
      intro pl
      by_cases h1 : (pl.1, r) = pr
      · have h2 : pr ∉ asg1 := by
          intro hc
          exact hhead (List.mem_map.mpr ⟨pr, hc, rfl⟩)
        simp [List.mem_cons, h1, h2]
      · by_cases h2 : (pl.1, r) ∈ asg1 <;> simp [List.mem_cons, h1, h2]
    have hmapc : players.map (fun pl => if (pl.1, r) ∈ pr :: asg1 then (1 : Nat) else 0)
        = players.map (fun pl =>
            (if (pl.1, r) = pr then 1 else 0)
              + (if (pl.1, r) ∈ asg1 then 1 else 0)) :=
      List.map_congr_left (fun pl _ => hsplit pl)
    rw [hmapc, sum_map_add,
      ih htail (fun q hq => hval q (List.mem_cons_of_mem pr hq)),
      List.countP_cons]
    by_cases hpr2 : pr.2 = r
    · have hkey : pr.1 ∈ players.map (·.1) := hval pr (List.mem_cons_self pr asg1)
      obtain ⟨pl0, hpl0, hpk⟩ := List.mem_map.mp hkey
      have heqv : ∀ pl : Ident × List Ident,
          (if (pl.1, r) = pr then (1 : Nat) else 0)
            = if pl.1 = pl0.1 then 1 else 0 := by
        intro pl
        by_cases hc : pl.1 = pl0.1
        · have hpp : (pl.1, r) = pr := by
            rw [hc, hpk, ← hpr2]
          rw [if_pos hpp, if_pos hc]
        · have hpp : ¬(pl.1, r) = pr := by
            intro he
            exact hc (by rw [hpk]; exact congrArg Prod.fst he)
          rw [if_neg hpp, if_neg hc]
      have hm1 : (players.map (fun pl => if (pl.1, r) = pr then (1 : Nat) else 0)).sum
          = 1 := by
        rw [List.map_congr_left (fun pl _ => heqv pl)]
        exact sum_ite_pkey hp (fun _ => 1) hpl0
      rw [hm1]
      simp [hpr2]
      omega
    · have hm0 : (players.map (fun pl => if (pl.1, r) = pr then (1 : Nat) else 0)).sum
          = 0 :=
        List.sum_eq_zero (by
          intro x hx
          obtain ⟨pl, _, rfl⟩ := List.mem_map.mp hx
          have hne : ¬(pl.1, r) = pr := by
            intro he
            exact hpr2 (by rw [← he])
          rw [if_neg hne])
      rw [hm0]
      simp [hpr2]

theorem length_eq_sum_counts {roles : Roles} (hr : (roles.map (·.1)).Nodup) :
    ∀ asg : List (Ident × Ident), (∀ pr ∈ asg, pr.2 ∈ roleKeys roles) →
      asg.length
        = (roles.map (fun rc =>
            asg.countP (fun pr => decide (pr.2 = rc.1)))).sum := by
  intro asg
  induction asg with
  | nil =>
    intro _
    refine (List.sum_eq_zero ?_).symm
    intro x hx
    obtain ⟨rc, -, rfl⟩ := List.mem_map.mp hx
    rfl
  | cons pr asg1 ih =>
    intro hrk
    have hrc : ∀ rc : Ident × Int,
        (pr :: asg1).countP (fun q => decide (q.2 = rc.1))
          = asg1.countP (fun q => decide (q.2 = rc.1))
            + (if pr.2 = rc.1 then 1 else 0) := by
      intro rc
      rw [List.countP_cons]
      by_cases h : pr.2 = rc.1 <;> simp [h]
    rw [List.map_congr_left (fun rc _ => hrc rc), sum_map_add]
    have h1 : (roles.map (fun rc => if pr.2 = rc.1 then (1 : Nat) else 0)).sum
        = 1 := by
      have hmem : pr.2 ∈ roleKeys roles := hrk pr (List.mem_cons_self pr asg1)
      obtain ⟨rc0, hrc0, hr0⟩ := List.mem_map.mp hmem
      have hflip : ∀ rc : Ident × Int,
          (if pr.2 = rc.1 then (1 : Nat) else 0) = if rc.1 = pr.2 then 1 else 0 := by
        intro rc
        by_cases h : pr.2 = rc.1
        · rw [if_pos h, if_pos h.symm]
        · rw [if_neg h, if_neg (fun hc => h hc.symm)]
      rw [List.map_congr_left (fun rc _ => hflip rc)]
      have hm2 : (pr.2, rc0.2) ∈ roles := by
        have heta : (pr.2, rc0.2) = rc0 := by rw [← hr0]
        rw [heta]
        exact hrc0
      exact sum_ite_key_nat hr (fun _ => 1) hm2
    rw [List.length_cons, h1, ih (fun q hq => hrk q (List.mem_cons_of_mem pr hq))]

theorem asg_length_eq_np {roles : Roles} (hr : (roles.map (·.1)).Nodup)
    {asg : List (Ident × Ident)} (hrk : ∀ pr ∈ asg, pr.2 ∈ roleKeys roles)
    (hsat : Saturating roles asg) :
    (asg.length : Int) = numPositions roles := by
  rw [length_eq_sum_counts hr asg hrk, cast_sum_map]
  unfold numPositions
  refine congrArg List.sum (List.map_congr_left ?_)
  intro rc hrc
  exact hsat rc hrc

theorem ofAsg_capacity {players : Players} {roles : Roles}
    {asg : List (Ident × Ident)} (hsat : Saturating roles asg) :
    ∀ ef ∈ flowOfAssignment
        (srcEdges players ++ prefEdges players roles ++ sinkEdges roles) asg,
      (ef.2 : Int) ≤ ef.1.2.2.capacity := by
  intro ef hef
  obtain ⟨e, he, rfl⟩ := List.mem_map.mp hef
  rcases mem_graph_cases he with ⟨pl, hpl, rfl⟩ | ⟨pl, hpl, jr, hjr, hrk2, rfl⟩ |
    ⟨rc, hrc, rfl⟩
  · by_cases h : asg.any (fun pr => pr.1 == pl.1) <;> simp [assignFlowVal, h]
  · by_cases h : (pl.1, jr.2) ∈ asg <;> simp [assignFlowVal, h]
  · exact le_of_eq (hsat rc hrc)

theorem ofAsg_into_split (players : Players) (roles : Roles)
    (asg : List (Ident × Ident)) (n : Node) :
    flowInto n (flowOfAssignment
        (srcEdges players ++ prefEdges players roles ++ sinkEdges roles) asg)
      = (players.map (fun pl => if Node.agent pl.1 = n then
            (if asg.any (fun pr => pr.1 == pl.1) then 1 else 0) else 0)).sum
        + (players.map (fun pl => ((pl.2.enumFrom 0).map (fun jr =>
            if jr.2 ∈ roleKeys roles then
              (if Node.cat jr.2 = n then
                (if (pl.1, jr.2) ∈ asg then 1 else 0) else 0)
            else 0)).sum)).sum
        + (roles.map (fun rc => if Node.sink = n then
            asg.countP (fun pr => decide (pr.2 = rc.1)) else 0)).sum := by
  rw [ofAsg_flowInto, List.map_append, List.map_append, List.sum_append,
    List.sum_append,
    sum_src_general players (fun e => if e.2.1 = n then assignFlowVal asg e else 0),
    sum_prefEdges_general players roles
      (fun e => if e.2.1 = n then assignFlowVal asg e else 0),
    sum_sink_general roles (fun e => if e.2.1 = n then assignFlowVal asg e else 0)]
  rfl

theorem ofAsg_out_split (players : Players) (roles : Roles)
    (asg : List (Ident × Ident)) (n : Node) :
    flowOutOf n (flowOfAssignment
        (srcEdges players ++ prefEdges players roles ++ sinkEdges roles) asg)
      = (players.map (fun pl => if Node.source = n then
            (if asg.any (fun pr => pr.1 == pl.1) then 1 else 0) else 0)).sum
        + (players.map (fun pl => ((pl.2.enumFrom 0).map (fun jr =>
            if jr.2 ∈ roleKeys roles then
              (if Node.agent pl.1 = n then
                (if (pl.1, jr.2) ∈ asg then 1 else 0) else 0)
            else 0)).sum)).sum
        + (roles.map (fun rc => if Node.cat rc.1 = n then
            asg.countP (fun pr => decide (pr.2 = rc.1)) else 0)).sum := by
  rw [ofAsg_flowOutOf, List.map_append, List.map_append, List.sum_append,
    List.sum_append,
    sum_src_general players (fun e => if e.1 = n then assignFlowVal asg e else 0),
    sum_prefEdges_general players roles
      (fun e => if e.1 = n then assignFlowVal asg e else 0),
    sum_sink_general roles (fun e => if e.1 = n then assignFlowVal asg e else 0)]
  rfl

theorem src_sum_eq_length {players : Players} {asg : List (Ident × Ident)}
    (hp : (players.map (·.1)).Nodup) (hknd : (asg.map (·.1)).Nodup)
    (hsub : ∀ pr ∈ asg, pr.1 ∈ players.map (·.1)) :
    (players.map (fun pl =>
        if asg.any (fun pr => pr.1 == pl.1) then 1 else 0)).sum = asg.length := by
  have hpt : ∀ pl : Ident × List Ident,
      (if asg.any (fun pr => pr.1 == pl.1) then (1 : Nat) else 0)
        = if pl.1 ∈ asg.map (·.1) then 1 else 0 := by
    intro pl
    by_cases h : pl.1 ∈ asg.map (·.1)
    · obtain ⟨pr, hpr, hpr1⟩ := List.mem_map.mp h
      have hany : asg.any (fun pr => pr.1 == pl.1) = true :=
        List.any_eq_true.mpr ⟨pr, hpr, beq_iff_eq.mpr hpr1⟩
      simp [hany, h]
    · have hany : asg.any (fun pr => pr.1 == pl.1) = false := by
        rw [List.any_eq_false]
        intro pr hpr
        simp only [beq_iff_eq]
        intro hc
        exact h (List.mem_map.mpr ⟨pr, hpr, hc⟩)
      simp [hany, h]
  rw [List.map_congr_left (fun pl _ => hpt pl),
    sum_ite_eq_countP players (fun pl => pl.1 ∈ asg.map (·.1)),
    List.countP_eq_length_filter]
  have hlen := filter_key_mem_length hp hknd (K := asg.map (·.1)) (by
    intro k hk
    obtain ⟨pr, hpr, rfl⟩ := List.mem_map.mp hk
    exact hsub pr hpr)
  rw [hlen, List.length_map]

theorem ofAsg_net_source {players : Players} {roles : Roles}
    {asg : List (Ident × Ident)}
    (hp : (players.map (·.1)).Nodup) (hknd : (asg.map (·.1)).Nodup)
    (hsub : ∀ pr ∈ asg, pr.1 ∈ players.map (·.1))
    (hr : (roles.map (·.1)).Nodup)
    (hrk : ∀ pr ∈ asg, pr.2 ∈ roleKeys roles)
    (hsat : Saturating roles asg) :
    netFlowAt Node.source (flowOfAssignment
        (srcEdges players ++ prefEdges players roles ++ sinkEdges roles) asg)
      = demandOf (numPositions roles) Node.source := by
  have hin : flowInto Node.source (flowOfAssignment
      (srcEdges players ++ prefEdges players roles ++ sinkEdges roles) asg) = 0 :=
    flowInto_eq_zero (by
      intro ef hef
      obtain ⟨e, he, rfl⟩ := List.mem_map.mp hef
      rcases mem_graph_cases he with ⟨pl, -, rfl⟩ | ⟨pl, -, jr, -, -, rfl⟩ |
        ⟨rc, -, rfl⟩ <;> simp)
  have hout : flowOutOf Node.source (flowOfAssignment
      (srcEdges players ++ prefEdges players roles ++ sinkEdges roles) asg)
      = asg.length := by
    rw [ofAsg_out_split]
    have h1 : players.map (fun pl => if Node.source = Node.source then
          (if asg.any (fun pr => pr.1 == pl.1) then (1 : Nat) else 0) else 0)
        = players.map (fun pl =>
            if asg.any (fun pr => pr.1 == pl.1) then 1 else 0) :=
      List.map_congr_left (fun pl _ => if_pos rfl)
    have h2 : (players.map (fun pl => ((pl.2.enumFrom 0).map (fun jr =>
        if jr.2 ∈ roleKeys roles then
          (if Node.agent pl.1 = Node.source then
            (if (pl.1, jr.2) ∈ asg then 1 else 0) else 0)
        else 0)).sum)).sum = 0 :=
      List.sum_eq_zero (by
        intro x hx
        obtain ⟨pl, -, rfl⟩ := List.mem_map.mp hx
        exact List.sum_eq_zero (by
          intro y hy
          obtain ⟨jr, -, rfl⟩ := List.mem_map.mp hy
          by_cases hK : jr.2 ∈ roleKeys roles
          · rw [if_pos hK, if_neg (by simp)]
          · rw [if_neg hK]))
    have h3 : (roles.map (fun rc => if Node.cat rc.1 = Node.source then
        asg.countP (fun pr => decide (pr.2 = rc.1)) else 0)).sum = 0 :=
      List.sum_eq_zero (by
        intro x hx
        obtain ⟨rc, -, rfl⟩ := List.mem_map.mp hx
        rw [if_neg (by simp)])
    rw [h1, h2, h3, src_sum_eq_length hp hknd hsub]
    omega
  unfold netFlowAt
  rw [hin, hout]
  simp only [demandOf]
  have := asg_length_eq_np hr hrk hsat
  omega

theorem ofAsg_net_sink {players : Players} {roles : Roles}
    {asg : List (Ident × Ident)}
    (hr : (roles.map (·.1)).Nodup)
    (hrk : ∀ pr ∈ asg, pr.2 ∈ roleKeys roles)
    (hsat : Saturating roles asg) :
    netFlowAt Node.sink (flowOfAssignment
        (srcEdges players ++ prefEdges players roles ++ sinkEdges roles) asg)
      = demandOf (numPositions roles) Node.sink := by
  have hout : flowOutOf Node.sink (flowOfAssignment
      (srcEdges players ++ prefEdges players roles ++ sinkEdges roles) asg) = 0 :=
    flowOutOf_eq_zero (by
      intro ef hef
      obtain ⟨e, he, rfl⟩ := List.mem_map.mp hef
      rcases mem_graph_cases he with ⟨pl, -, rfl⟩ | ⟨pl, -, jr, -, -, rfl⟩ |
        ⟨rc, -, rfl⟩ <;> simp)
  have hin : flowInto Node.sink (flowOfAssignment
      (srcEdges players ++ prefEdges players roles ++ sinkEdges roles) asg)
      = asg.length := by
    rw [ofAsg_into_split]
    have h1 : (players.map (fun pl => if Node.agent pl.1 = Node.sink then
        (if asg.any (fun pr => pr.1 == pl.1) then (1 : Nat) else 0) else 0)).sum
        = 0 :=
      List.sum_eq_zero (by
        intro x hx
        obtain ⟨pl, -, rfl⟩ := List.mem_map.mp hx
        rw [if_neg (by simp)])
    have h2 : (players.map (fun pl => ((pl.2.enumFrom 0).map (fun jr =>
        if jr.2 ∈ roleKeys roles then
          (if Node.cat jr.2 = Node.sink then
            (if (pl.1, jr.2) ∈ asg then 1 else 0) else 0)
        else 0)).sum)).sum = 0 :=
      List.sum_eq_zero (by
        intro x hx
        obtain ⟨pl, -, rfl⟩ := List.mem_map.mp hx
        exact List.sum_eq_zero (by
          intro y hy
          obtain ⟨jr, -, rfl⟩ := List.mem_map.mp hy
          by_cases hK : jr.2 ∈ roleKeys roles
          · rw [if_pos hK, if_neg (by simp)]
          · rw [if_neg hK]))
    have h3 : roles.map (fun rc => if Node.sink = Node.sink then
          asg.countP (fun pr => decide (pr.2 = rc.1)) else 0)
        = roles.map (fun rc => asg.countP (fun pr => decide (pr.2 = rc.1))) :=
      List.map_congr_left (fun rc _ => if_pos rfl)
    rw [h1, h2, h3, ← length_eq_sum_counts hr asg hrk]
    omega
  unfold netFlowAt
  rw [hin, hout]
  simp only [demandOf]
  have := asg_length_eq_np hr hrk hsat
  omega

theorem any_indicator (q : Ident) (asg : List (Ident × Ident)) :
    (if asg.any (fun pr => pr.1 == q) then (1 : Nat) else 0)
      = if q ∈ asg.map (·.1) then 1 else 0 := by
  by_cases h : q ∈ asg.map (·.1)
  · obtain ⟨pr, hpr, hpr1⟩ := List.mem_map.mp h
    have hany : asg.any (fun pr => pr.1 == q) = true :=
      List.any_eq_true.mpr ⟨pr, hpr, beq_iff_eq.mpr hpr1⟩
    simp [hany, h]
  · have hany : asg.any (fun pr => pr.1 == q) = false := by
      rw [List.any_eq_false]
      intro pr hpr
      simp only [beq_iff_eq]
      intro hc
      exact h (List.mem_map.mpr ⟨pr, hpr, hc⟩)
    simp [hany, h]

theorem ofAsg_net_agent {players : Players} {roles : Roles}
    {asg : List (Ident × Ident)}
    (hp : (players.map (·.1)).Nodup)
    (hprefs : ∀ pl ∈ players, pl.2.Nodup)
    (hknd : (asg.map (·.1)).Nodup)
    (hval : ∀ pr ∈ asg, ∃ pl ∈ players, pl.1 = pr.1 ∧ pr.2 ∈ pl.2)
    (hrk : ∀ pr ∈ asg, pr.2 ∈ roleKeys roles)
    (p : Ident) :
    netFlowAt (Node.agent p) (flowOfAssignment
        (srcEdges players ++ prefEdges players roles ++ sinkEdges roles) asg)
      = demandOf (numPositions roles) (Node.agent p) := by
  have hin : flowInto (Node.agent p) (flowOfAssignment
      (srcEdges players ++ prefEdges players roles ++ sinkEdges roles) asg)
      = (players.map (fun pl => if pl.1 = p then
          (if pl.1 ∈ asg.map (·.1) then (1 : Nat) else 0) else 0)).sum := by
    rw [ofAsg_into_split]
    have h1 : players.map (fun pl => if Node.agent pl.1 = Node.agent p then
          (if asg.any (fun pr => pr.1 == pl.1) then (1 : Nat) else 0) else 0)
        = players.map (fun pl => if pl.1 = p then
            (if pl.1 ∈ asg.map (·.1) then (1 : Nat) else 0) else 0) :=
      List.map_congr_left (by
        intro pl _
        by_cases hc : pl.1 = p
        · rw [if_pos (by rw [hc]), if_pos hc, any_indicator pl.1 asg]
        · rw [if_neg (by simp [hc]), if_neg hc])
    have h2 : (players.map (fun pl => ((pl.2.enumFrom 0).map (fun jr =>
        if jr.2 ∈ roleKeys roles then
          (if Node.cat jr.2 = Node.agent p then
            (if (pl.1, jr.2) ∈ asg then 1 else 0) else 0)
        else 0)).sum)).sum = 0 :=
      List.sum_eq_zero (by
        intro x hx
        obtain ⟨pl, -, rfl⟩ := List.mem_map.mp hx
        exact List.sum_eq_zero (by
          intro y hy
          obtain ⟨jr, -, rfl⟩ := List.mem_map.mp hy
          by_cases hK : jr.2 ∈ roleKeys roles
          · rw [if_pos hK, if_neg (by simp)]
          · rw [if_neg hK]))
    have h3 : (roles.map (fun rc => if Node.sink = Node.agent p then
        asg.countP (fun pr => decide (pr.2 = rc.1)) else 0)).sum = 0 :=
      List.sum_eq_zero (by
        intro x hx
        obtain ⟨rc, -, rfl⟩ := List.mem_map.mp hx
        rw [if_neg (by simp)])
    rw [h1, h2, h3]
    omega
  have hout : flowOutOf (Node.agent p) (flowOfAssignment
      (srcEdges players ++ prefEdges players roles ++ sinkEdges roles) asg)
      = (players.map (fun pl => if pl.1 = p then
          ((pl.2.enumFrom 0).map (fun jr =>
            if jr.2 ∈ roleKeys roles then
              (if (pl.1, jr.2) ∈ asg then (1 : Nat) else 0)
            else 0)).sum else 0)).sum := by
    rw [ofAsg_out_split]
    have h1 : (players.map (fun pl => if Node.source = Node.agent p then
        (if asg.any (fun pr => pr.1 == pl.1) then (1 : Nat) else 0) else 0)).sum
        = 0 :=
      List.sum_eq_zero (by
        intro x hx
        obtain ⟨pl, -, rfl⟩ := List.mem_map.mp hx
        rw [if_neg (by simp)])
    have h2 : players.map (fun pl => ((pl.2.enumFrom 0).map (fun jr =>
          if jr.2 ∈ roleKeys roles then
            (if Node.agent pl.1 = Node.agent p then
              (if (pl.1, jr.2) ∈ asg then 1 else 0) else 0)
          else 0)).sum)
        = players.map (fun pl => if pl.1 = p then
            ((pl.2.enumFrom 0).map (fun jr =>
              if jr.2 ∈ roleKeys roles then
                (if (pl.1, jr.2) ∈ asg then (1 : Nat) else 0)
              else 0)).sum else 0) :=
      List.map_congr_left (by
        intro pl _
        by_cases hc : pl.1 = p
        · rw [if_pos hc]
          refine congrArg List.sum (List.map_congr_left ?_)
          intro jr _
          by_cases hK : jr.2 ∈ roleKeys roles
          · rw [if_pos hK, if_pos hK, if_pos (by rw [hc])]
          · rw [if_neg hK, if_neg hK]
        · rw [if_neg hc]
          refine List.sum_eq_zero ?_
          intro y hy
          obtain ⟨jr, -, rfl⟩ := List.mem_map.mp hy
          by_cases hK : jr.2 ∈ roleKeys roles
          · rw [if_pos hK, if_neg (by simp [hc])]
          · rw [if_neg hK])
    have h3 : (roles.map (fun rc => if Node.cat rc.1 = Node.agent p then
        asg.countP (fun pr => decide (pr.2 = rc.1)) else 0)).sum = 0 :=
      List.sum_eq_zero (by
        intro x hx
        obtain ⟨rc, -, rfl⟩ := List.mem_map.mp hx
        rw [if_neg (by simp)])
    rw [h1, h2, h3]
    omega
  have hAB : ∀ pl ∈ players,
      (if pl.1 ∈ asg.map (·.1) then (1 : Nat) else 0)
        = ((pl.2.enumFrom 0).map (fun jr =>
            if jr.2 ∈ roleKeys roles then
              (if (pl.1, jr.2) ∈ asg then (1 : Nat) else 0)
            else 0)).sum := by
    intro pl hpl
    by_cases hmem : pl.1 ∈ asg.map (·.1)
    · rw [if_pos hmem]
      obtain ⟨pr, hpr, hpr1⟩ := List.mem_map.mp hmem
      have hpm : (pl.1, pr.2) ∈ asg := by
        have heta : (pl.1, pr.2) = pr := by rw [← hpr1]
        rw [heta]
        exact hpr
      have hr0k : pr.2 ∈ roleKeys roles := hrk pr hpr
      obtain ⟨pl2, hpl2, hk2, hm2⟩ := hval pr hpr
      have hpe : pl2 = pl := players_key_inj hp hpl2 hpl (by rw [hk2, hpr1])
      have hr0p : pr.2 ∈ pl.2 := hpe ▸ hm2
      have hcongr : (pl.2.enumFrom 0).map (fun jr =>
            if jr.2 ∈ roleKeys roles then
              (if (pl.1, jr.2) ∈ asg then (1 : Nat) else 0)
            else 0)
          = (pl.2.enumFrom 0).map (fun jr => if jr.2 = pr.2 then (1 : Nat) else 0) :=
        List.map_congr_left (by
          intro jr _
          by_cases hj : jr.2 = pr.2
          · rw [if_pos (by rw [hj]; exact hr0k), if_pos (by rw [hj]; exact hpm),
              if_pos hj]
          · by_cases hK : jr.2 ∈ roleKeys roles
            · rw [if_pos hK, if_neg (fun hc => hj (asg_pair_unique hknd hc hpm)),
                if_neg hj]
            · rw [if_neg hK, if_neg hj])
      rw [hcongr]
      exact (sum_enumFrom_unique (hprefs pl hpl) hr0p (fun _ => 1) 0).symm
    · rw [if_neg hmem]
      refine (List.sum_eq_zero ?_).symm
      intro y hy
      obtain ⟨jr, -, rfl⟩ := List.mem_map.mp hy
      by_cases hK : jr.2 ∈ roleKeys roles
      · rw [if_pos hK,
          if_neg (fun hc => hmem (List.mem_map.mpr ⟨(pl.1, jr.2), hc, rfl⟩))]
      · rw [if_neg hK]
  have hio : (players.map (fun pl => if pl.1 = p then
        (if pl.1 ∈ asg.map (·.1) then (1 : Nat) else 0) else 0)).sum
      = (players.map (fun pl => if pl.1 = p then
          ((pl.2.enumFrom 0).map (fun jr =>
            if jr.2 ∈ roleKeys roles then
              (if (pl.1, jr.2) ∈ asg then (1 : Nat) else 0)
            else 0)).sum else 0)).sum := by
    refine congrArg List.sum (List.map_congr_left ?_)
    intro pl hpl
    by_cases hc : pl.1 = p
    · rw [if_pos hc, if_pos hc, hAB pl hpl]
    · rw [if_neg hc, if_neg hc]
  unfold netFlowAt
  rw [hin, hout, hio]
  simp only [demandOf]
  omega

theorem ofAsg_net_cat {players : Players} {roles : Roles}
    {asg : List (Ident × Ident)}
    (hp : (players.map (·.1)).Nodup)
    (hprefs : ∀ pl ∈ players, pl.2.Nodup)
    (hknd : (asg.map (·.1)).Nodup)
    (hval : ∀ pr ∈ asg, ∃ pl ∈ players, pl.1 = pr.1 ∧ pr.2 ∈ pl.2)
    (hr : (roles.map (·.1)).Nodup)
    (r : Ident) :
    netFlowAt (Node.cat r) (flowOfAssignment
        (srcEdges players ++ prefEdges players roles ++ sinkEdges roles) asg)
      = demandOf (numPositions roles) (Node.cat r) := by
  have h1in : (players.map (fun pl => if Node.agent pl.1 = Node.cat r then
      (if asg.any (fun pr => pr.1 == pl.1) then (1 : Nat) else 0) else 0)).sum
      = 0 :=
    List.sum_eq_zero (by
      intro x hx
      obtain ⟨pl, -, rfl⟩ := List.mem_map.mp hx
      rw [if_neg (by simp)])
  have h3in : (roles.map (fun rc => if Node.sink = Node.cat r then
      asg.countP (fun pr => decide (pr.2 = rc.1)) else 0)).sum = 0 :=
    List.sum_eq_zero (by
      intro x hx
      obtain ⟨rc, -, rfl⟩ := List.mem_map.mp hx
      rw [if_neg (by simp)])
  have h1out : (players.map (fun pl => if Node.source = Node.cat r then
      (if asg.any (fun pr => pr.1 == pl.1) then (1 : Nat) else 0) else 0)).sum
      = 0 :=
    List.sum_eq_zero (by
      intro x hx
      obtain ⟨pl, -, rfl⟩ := List.mem_map.mp hx
      rw [if_neg (by simp)])
  have h2out : (players.map (fun pl => ((pl.2.enumFrom 0).map (fun jr =>
      if jr.2 ∈ roleKeys roles then
        (if Node.agent pl.1 = Node.cat r then
          (if (pl.1, jr.2) ∈ asg then 1 else 0) else 0)
      else 0)).sum)).sum = 0 :=
    List.sum_eq_zero (by
      intro x hx
      obtain ⟨pl, -, rfl⟩ := List.mem_map.mp hx
      exact List.sum_eq_zero (by
        intro y hy
        obtain ⟨jr, -, rfl⟩ := List.mem_map.mp hy
        by_cases hK : jr.2 ∈ roleKeys roles
        · rw [if_pos hK, if_neg (by simp)]
        · rw [if_neg hK]))
  by_cases hRK : r ∈ roleKeys roles
  · obtain ⟨rc0, hrc0, hr0⟩ := List.mem_map.mp hRK
    have hout : flowOutOf (Node.cat r) (flowOfAssignment
        (srcEdges players ++ prefEdges players roles ++ sinkEdges roles) asg)
        = asg.countP (fun pr => decide (pr.2 = r)) := by
      rw [ofAsg_out_split, h1out, h2out]
      have h3 : roles.map (fun rc => if Node.cat rc.1 = Node.cat r then
            asg.countP (fun pr => decide (pr.2 = rc.1)) else 0)
          = roles.map (fun rc => if rc.1 = r then
              asg.countP (fun pr => decide (pr.2 = rc.1)) else 0) :=
        List.map_congr_left (by
          intro rc _
          by_cases hc : rc.1 = r
          · rw [if_pos (by rw [hc]), if_pos hc]
          · rw [if_neg (by simp [hc]), if_neg hc])
      rw [h3]
      have hm2 : (r, rc0.2) ∈ roles := by
        have heta : (r, rc0.2) = rc0 := by rw [← hr0]
        rw [heta]
        exact hrc0
      rw [sum_ite_key_nat hr
        (fun rc => asg.countP (fun pr => decide (pr.2 = rc.1))) hm2]
      show 0 + 0 + asg.countP (fun pr => decide (pr.2 = r))
        = asg.countP (fun pr => decide (pr.2 = r))
      omega
    have hinner : ∀ pl ∈ players,
        ((pl.2.enumFrom 0).map (fun jr =>
          if jr.2 ∈ roleKeys roles then
            (if Node.cat jr.2 = Node.cat r then
              (if (pl.1, jr.2) ∈ asg then (1 : Nat) else 0) else 0)
          else 0)).sum
        = if (pl.1, r) ∈ asg then 1 else 0 := by
      intro pl hpl
      have hcongr : (pl.2.enumFrom 0).map (fun jr =>
            if jr.2 ∈ roleKeys roles then
              (if Node.cat jr.2 = Node.cat r then
                (if (pl.1, jr.2) ∈ asg then (1 : Nat) else 0) else 0)
            else 0)
          = (pl.2.enumFrom 0).map (fun jr =>
              if jr.2 = r then (if (pl.1, r) ∈ asg then (1 : Nat) else 0) else 0) :=
        List.map_congr_left (by
          intro jr _
          by_cases hj : jr.2 = r
          · rw [hj, if_pos hRK, if_pos rfl, if_pos rfl]
          · by_cases hK : jr.2 ∈ roleKeys roles
            · rw [if_pos hK, if_neg (by simp [hj]), if_neg hj]
            · rw [if_neg hK, if_neg hj])
      rw [hcongr]
      by_cases hrp : r ∈ pl.2
      · exact sum_enumFrom_unique (hprefs pl hpl) hrp
          (fun _ => if (pl.1, r) ∈ asg then 1 else 0) 0
      · rw [sum_enumFrom_zero hrp
          (fun _ => if (pl.1, r) ∈ asg then 1 else 0) 0]
        have hnm : (pl.1, r) ∉ asg := by
          intro hc
          obtain ⟨pl2, hpl2, hk2, hm2⟩ := hval (pl.1, r) hc
          have hpe : pl2 = pl := players_key_inj hp hpl2 hpl hk2
          exact hrp (hpe ▸ hm2)
        rw [if_neg hnm]
    have hin : flowInto (Node.cat r) (flowOfAssignment
        (srcEdges players ++ prefEdges players roles ++ sinkEdges roles) asg)
        = asg.countP (fun pr => decide (pr.2 = r)) := by
      rw [ofAsg_into_split, h1in, h3in]
      rw [List.map_congr_left hinner]
      rw [sum_players_mem_asg hp r asg hknd (by
        intro pr hpr
        obtain ⟨pl, hpl, hk, -⟩ := hval pr hpr
        exact List.mem_map.mpr ⟨pl, hpl, hk⟩)]
      omega
    unfold netFlowAt
    rw [hin, hout]
    simp only [demandOf]
    omega
  · have hout : flowOutOf (Node.cat r) (flowOfAssignment
        (srcEdges players ++ prefEdges players roles ++ sinkEdges roles) asg)
        = 0 := by
      rw [ofAsg_out_split, h1out, h2out]
      have h3 : (roles.map (fun rc => if Node.cat rc.1 = Node.cat r then
          asg.countP (fun pr => decide (pr.2 = rc.1)) else 0)).sum = 0 :=
        List.sum_eq_zero (by
          intro x hx
          obtain ⟨rc, hrc, rfl⟩ := List.mem_map.mp hx
          rw [if_neg (by
            intro hc
            have hcr : rc.1 = r := Node.cat.inj hc
            have hmm : rc.1 ∈ roleKeys roles := List.mem_map.mpr ⟨rc, hrc, rfl⟩
            exact hRK (hcr ▸ hmm))])
      rw [h3]
    have hin : flowInto (Node.cat r) (flowOfAssignment
        (srcEdges players ++ prefEdges players roles ++ sinkEdges roles) asg)
        = 0 := by
      rw [ofAsg_into_split, h1in, h3in]
      have h2 : (players.map (fun pl => ((pl.2.enumFrom 0).map (fun jr =>
          if jr.2 ∈ roleKeys roles then
            (if Node.cat jr.2 = Node.cat r then
              (if (pl.1, jr.2) ∈ asg then 1 else 0) else 0)
          else 0)).sum)).sum = 0 :=
        List.sum_eq_zero (by
          intro x hx
          obtain ⟨pl, -, rfl⟩ := List.mem_map.mp hx
          exact List.sum_eq_zero (by
            intro y hy
            obtain ⟨jr, -, rfl⟩ := List.mem_map.mp hy
            by_cases hK : jr.2 ∈ roleKeys roles
            · rw [if_pos hK, if_neg (by
                intro hc
                have hcr : jr.2 = r := Node.cat.inj hc
                exact hRK (hcr ▸ hK))]
            · rw [if_neg hK]))
      rw [h2]
    unfold netFlowAt
    rw [hin, hout]
    simp only [demandOf]
    omega

/-- A feasible saturating assignment induces a feasible flow on the built
network. -/
theorem ofAsg_feasible {players : Players} {roles : Roles}
    {asg : List (Ident × Ident)}
    (hp : (players.map (·.1)).Nodup)
    (hprefs : ∀ pl ∈ players, pl.2.Nodup)
    (hr : (roles.map (·.1)).Nodup)
    (hknd : (asg.map (·.1)).Nodup)
    (hval : ∀ pr ∈ asg, ∃ pl ∈ players, pl.1 = pr.1 ∧ pr.2 ∈ pl.2)
    (hrk : ∀ pr ∈ asg, pr.2 ∈ roleKeys roles)
    (hsat : Saturating roles asg) :
    Feasible (numPositions roles) (flowOfAssignment
      (srcEdges players ++ prefEdges players roles ++ sinkEdges roles) asg) := by
  have hsub : ∀ pr ∈ asg, pr.1 ∈ players.map (·.1) := by
    intro pr hpr
    obtain ⟨pl, hpl, hk, -⟩ := hval pr hpr
    exact List.mem_map.mpr ⟨pl, hpl, hk⟩
  constructor
  · exact ofAsg_capacity hsat
  · intro n
    cases n with
    | source => exact ofAsg_net_source hp hknd hsub hr hrk hsat
    | sink => exact ofAsg_net_sink hr hrk hsat
    | agent p => exact ofAsg_net_agent hp hprefs hknd hval hrk p
    | cat r => exact ofAsg_net_cat hp hprefs hknd hval hr r

theorem sum_enumFrom_idx {prefs : List Ident} (hnd : prefs.Nodup) {r0 : Ident}
    (hmem : r0 ∈ prefs) :
    ((prefs.enumFrom 0).map (fun jr => if jr.2 = r0 then jr.1 else 0)).sum
      = prefs.indexOf r0 := by
  have h := sum_enumFrom_unique hnd hmem (fun i => i) 0
  simpa using h

theorem pref_cost_eq_rankCost {players : Players} {roles : Roles}
    (hp : (players.map (·.1)).Nodup)
    (hprefs : ∀ pl ∈ players, pl.2.Nodup) :
    ∀ asg : List (Ident × Ident), (asg.map (·.1)).Nodup →
      (∀ pr ∈ asg, ∃ pl ∈ players, pl.1 = pr.1 ∧ pr.2 ∈ pl.2) →
      (∀ pr ∈ asg, pr.2 ∈ roleKeys roles) →
      (players.map (fun pl => ((pl.2.enumFrom 0).map (fun jr =>
        if jr.2 ∈ roleKeys roles then
          (if (pl.1, jr.2) ∈ asg then jr.1 else 0)
        else 0)).sum)).sum = rankCost players asg := by
  intro asg
  induction asg with
  | nil =>
    intro _ _ _
    rw [show rankCost players [] = 0 from rfl]
    refine List.sum_eq_zero ?_
    intro x hx
    obtain ⟨pl, -, rfl⟩ := List.mem_map.mp hx
    refine List.sum_eq_zero ?_
    intro y hy
    obtain ⟨jr, -, rfl⟩ := List.mem_map.mp hy
    by_cases hK : jr.2 ∈ roleKeys roles
    · rw [if_pos hK, if_neg (List.not_mem_nil _)]
    · rw [if_neg hK]
  | cons pr asg1 ih =>
    intro hknd hval hrk
    simp only [List.map_cons, List.nodup_cons] at hknd
    obtain ⟨hhead, htail⟩ := hknd
    have hsplit : ∀ (pl : Ident × List Ident) (jr : Nat × Ident),
        (if jr.2 ∈ roleKeys roles then
          (if (pl.1, jr.2) ∈ pr :: asg1 then jr.1 else 0) else 0)
          = (if jr.2 ∈ roleKeys roles then
              (if (pl.1, jr.2) = pr then jr.1 else 0) else 0)
            + (if jr.2 ∈ roleKeys roles then
                (if (pl.1, jr.2) ∈ asg1 then jr.1 else 0) else 0) := by
      intro pl jr
      by_cases hK : jr.2 ∈ roleKeys roles
      · rw [if_pos hK, if_pos hK, if_pos hK]
        by_cases h1 : (pl.1, jr.2) = pr
        · have h2 : pr ∉ asg1 := fun hc =>
            hhead (List.mem_map.mpr ⟨pr, hc, rfl⟩)
          simp [List.mem_cons, h1, h2]
        · by_cases h2 : (pl.1, jr.2) ∈ asg1 <;> simp [List.mem_cons, h1, h2]
      · rw [if_neg hK, if_neg hK, if_neg hK]
    have hinner : ∀ pl : Ident × List Ident,
        ((pl.2.enumFrom 0).map (fun jr =>
          if jr.2 ∈ roleKeys roles then
            (if (pl.1, jr.2) ∈ pr :: asg1 then jr.1 else 0) else 0)).sum
          = ((pl.2.enumFrom 0).map (fun jr =>
              if jr.2 ∈ roleKeys roles then
                (if (pl.1, jr.2) = pr then jr.1 else 0) else 0)).sum
            + ((pl.2.enumFrom 0).map (fun jr =>
                if jr.2 ∈ roleKeys roles then
                  (if (pl.1, jr.2) ∈ asg1 then jr.1 else 0) else 0)).sum := by
      intro pl
      rw [List.map_congr_left (fun jr _ => hsplit pl jr), sum_map_add]
    rw [List.map_congr_left (fun pl (_ : pl ∈ players) => hinner pl), sum_map_add,
      ih htail (fun q hq => hval q (List.mem_cons_of_mem pr hq))
        (fun q hq => hrk q (List.mem_cons_of_mem pr hq))]
    obtain ⟨pl0, hpl0, hk0, hm0⟩ := hval pr (List.mem_cons_self pr asg1)
    have hkr0 : pr.2 ∈ roleKeys roles := hrk pr (List.mem_cons_self pr asg1)
    have hconv : ∀ pl : Ident × List Ident,
        ((pl.2.enumFrom 0).map (fun jr =>
          if jr.2 ∈ roleKeys roles then
            (if (pl.1, jr.2) = pr then jr.1 else 0) else 0)).sum
          = if pl.1 = pr.1 then
              ((pl.2.enumFrom 0).map (fun jr =>
                if jr.2 = pr.2 then jr.1 else 0)).sum
            else 0 := by
      intro pl
      by_cases hc : pl.1 = pr.1
      · rw [if_pos hc]
        refine congrArg List.sum (List.map_congr_left ?_)
        intro jr _
        by_cases hj : jr.2 = pr.2
        · have hpe : (pl.1, jr.2) = pr := by rw [hc, hj]
          rw [if_pos (by rw [hj]; exact hkr0), if_pos hpe, if_pos hj]
        · have hne : ¬(pl.1, jr.2) = pr := by
            intro he
            exact hj (congrArg Prod.snd he)
          by_cases hK : jr.2 ∈ roleKeys roles
          · rw [if_pos hK, if_neg hne, if_neg hj]
          · rw [if_neg hK, if_neg hj]
      · rw [if_neg hc]
        refine List.sum_eq_zero ?_
        intro y hy
        obtain ⟨jr, -, rfl⟩ := List.mem_map.mp hy
        have hne : ¬(pl.1, jr.2) = pr := fun he => hc (congrArg Prod.fst he)
        by_cases hK : jr.2 ∈ roleKeys roles
        · rw [if_pos hK, if_neg hne]
        · rw [if_neg hK]
    have hfirst : (players.map (fun pl => ((pl.2.enumFrom 0).map (fun jr =>
        if jr.2 ∈ roleKeys roles then
          (if (pl.1, jr.2) = pr then jr.1 else 0) else 0)).sum)).sum
        = (prefsOf players pr.1).indexOf pr.2 := by
      rw [List.map_congr_left (fun pl (_ : pl ∈ players) => hconv pl), ← hk0,
        sum_ite_pkey hp (fun pl => ((pl.2.enumFrom 0).map (fun jr =>
          if jr.2 = pr.2 then jr.1 else 0)).sum) hpl0,
        sum_enumFrom_idx (hprefs pl0 hpl0) hm0]
      unfold prefsOf
      rw [lookup_of_mem hp hpl0]
      rfl
    rw [hfirst]
    have hrc : rankCost players (pr :: asg1)
        = (prefsOf players pr.1).indexOf pr.2 + rankCost players asg1 := by
      unfold rankCost
      rw [List.map_cons, List.sum_cons]
    rw [hrc]

/-- The flow induced on the built network by a feasible assignment costs
exactly the assignment's total preference rank. -/
theorem ofAsg_cost {players : Players} {roles : Roles}
    {asg : List (Ident × Ident)}
    (hp : (players.map (·.1)).Nodup)
    (hprefs : ∀ pl ∈ players, pl.2.Nodup)
    (hknd : (asg.map (·.1)).Nodup)
    (hval : ∀ pr ∈ asg, ∃ pl ∈ players, pl.1 = pr.1 ∧ pr.2 ∈ pl.2)
    (hrk : ∀ pr ∈ asg, pr.2 ∈ roleKeys roles) :
    flowCost (flowOfAssignment
        (srcEdges players ++ prefEdges players roles ++ sinkEdges roles) asg)
      = rankCost players asg := by
  rw [ofAsg_flowCost, List.map_append, List.map_append, List.sum_append,
    List.sum_append,
    sum_src_general players (fun e => assignFlowVal asg e * e.2.2.weight),
    sum_prefEdges_general players roles
      (fun e => assignFlowVal asg e * e.2.2.weight),
    sum_sink_general roles (fun e => assignFlowVal asg e * e.2.2.weight)]
  have h1 : (players.map (fun pl =>
      assignFlowVal asg (.source, .agent pl.1, ⟨1, 0⟩)
        * (Prod.snd (Prod.snd ((.source, .agent pl.1, ⟨1, 0⟩) : Edge))).weight)).sum
      = 0 :=
    List.sum_eq_zero (by
      intro x hx
      obtain ⟨pl, -, rfl⟩ := List.mem_map.mp hx
      simp)
  have h3 : (roles.map (fun rc =>
      assignFlowVal asg (.cat rc.1, .sink, ⟨rc.2, 0⟩)
        * (Prod.snd (Prod.snd ((.cat rc.1, .sink, ⟨rc.2, 0⟩) : Edge))).weight)).sum
      = 0 :=
    List.sum_eq_zero (by
      intro x hx
      obtain ⟨rc, -, rfl⟩ := List.mem_map.mp hx
      simp)
  have h2 : players.map (fun pl => ((pl.2.enumFrom 0).map (fun jr =>
        if jr.2 ∈ roleKeys roles then
          assignFlowVal asg (.agent pl.1, .cat jr.2, ⟨1, jr.1⟩)
            * (Prod.snd (Prod.snd ((.agent pl.1, .cat jr.2, ⟨1, jr.1⟩) : Edge))).weight
        else 0)).sum)
      = players.map (fun pl => ((pl.2.enumFrom 0).map (fun jr =>
          if jr.2 ∈ roleKeys roles then
            (if (pl.1, jr.2) ∈ asg then jr.1 else 0)
          else 0)).sum) :=
    List.map_congr_left (by
      intro pl _
      refine congrArg List.sum (List.map_congr_left ?_)
      intro jr _
      by_cases hK : jr.2 ∈ roleKeys roles
      · rw [if_pos hK, if_pos hK]
        by_cases hm : (pl.1, jr.2) ∈ asg <;> simp [assignFlowVal, hm]
      · rw [if_neg hK, if_neg hK])
  rw [h1, h3, h2, pref_cost_eq_rankCost hp hprefs asg hknd hval hrk]
  omega

/-- **C2 (amended)**: on a normal return of `assign_roles` (dict-shaped input),
the returned assignment's total cost — the sum over assigned players of the
zero-based rank of the assigned role in that player's preference list — is at
most the total cost of every feasible assignment that fills every role exactly
to its capacity.  (The comparison class must be so restricted: the solver
saturates the sink demand, so the returned assignment is only optimal among
saturating assignments, not among all feasible ones — see the
counterexample.) -/
theorem C2_optimality {players : Players} {roles : Roles}
    (hp : (players.map (·.1)).Nodup)
    (hprefs : ∀ pl ∈ players, pl.2.Nodup)
    (hr : (roles.map (·.1)).Nodup)
    {asg : List (Ident × Ident)} {es : List Edge}
    (h : assign_roles players roles = some (asg, es))
    {asg2 : List (Ident × Ident)}
    (hfa : FeasAssign players roles asg2) (hsat : Saturating roles asg2) :
    rankCost players asg ≤ rankCost players asg2 := by
  obtain ⟨efs, hG, hfeas, hdec, -, hopt⟩ := assign_roles_run hp hprefs hr h
  obtain ⟨hknd, hval, hrk, -⟩ := hfa
  have hcost : rankCost players asg = flowCost efs := by
    rw [hdec]
    exact rankCost_decode_eq_flowCost hG hfeas hp hprefs
  have hle := hopt
    (flowOfAssignment
      (srcEdges players ++ prefEdges players roles ++ sinkEdges roles) asg2)
    (flowOfAssignment_map_fst _ _)
    (ofAsg_feasible hp hprefs hr hknd hval hrk hsat)
  rw [hcost, ← ofAsg_cost hp hprefs hknd hval hrk]
  exact hle

/-- Witness for C2: on `players = [A ↦ [X], B ↦ [Y]]`,
`roles = [X ↦ 1, Y ↦ 0]` the call returns `[(A, X)]`, and its cost is minimal
among saturating feasible assignments — here instantiated at `[(A, X)]`
itself. -/
theorem C2_optimality_witness :
    assign_roles [("A", ["X"]), ("B", ["Y"])] [("X", 1), ("Y", 0)]
      = some ([("A", "X")],
          buildEdges [("A", ["X"]), ("B", ["Y"])] [("X", 1), ("Y", 0)])
    ∧ rankCost [("A", ["X"]), ("B", ["Y"])] [("A", "X")]
        ≤ rankCost [("A", ["X"]), ("B", ["Y"])] [("A", "X")] :=
  ⟨by decide,
    @C2_optimality [("A", ["X"]), ("B", ["Y"])] [("X", 1), ("Y", 0)]
      (by decide) (by decide) (by decide)
      [("A", "X")] (buildEdges [("A", ["X"]), ("B", ["Y"])] [("X", 1), ("Y", 0)])
      (by decide)
      [("A", "X")] (by unfold FeasAssign; decide) (by unfold Saturating; decide)⟩

/-- Counterexample to the unamended C2: with `players = [A ↦ [X], B ↦ [X, Y]]`
and `roles = [X ↦ 1, Y ↦ 1]`, `assign_roles` returns normally with the
assignment `[(A, X), (B, Y)]` of total cost `0 + 1 = 1`, yet the empty
assignment is also feasible (each role at most its capacity, no player twice)
and costs `0 < 1`: the returned assignment is *not* ≤-minimal over all
feasible assignments, only over the saturating ones. -/
theorem C2_counterexample :
    assign_roles [("A", ["X"]), ("B", ["X", "Y"])] [("X", 1), ("Y", 1)]
      = some ([("A", "X"), ("B", "Y")],
          buildEdges [("A", ["X"]), ("B", ["X", "Y"])] [("X", 1), ("Y", 1)])
    ∧ FeasAssign [("A", ["X"]), ("B", ["X", "Y"])] [("X", 1), ("Y", 1)] []
    ∧ rankCost [("A", ["X"]), ("B", ["X", "Y"])] []
        < rankCost [("A", ["X"]), ("B", ["X", "Y"])] [("A", "X"), ("B", "Y")] :=
  ⟨by decide, by unfold FeasAssign; decide, by decide⟩

/-- Witness for C1 at `players = [A ↦ [X], B ↦ [Y]]`, `roles = [X ↦ 1, Y ↦ 0]`:
the call returns `[(A, X)]`, which is a feasible assignment. -/
theorem C1_feasibility_witness :
    assign_roles [("A", ["X"]), ("B", ["Y"])] [("X", 1), ("Y", 0)]
      = some ([("A", "X")],
          buildEdges [("A", ["X"]), ("B", ["Y"])] [("X", 1), ("Y", 0)])
    ∧ FeasAssign [("A", ["X"]), ("B", ["Y"])] [("X", 1), ("Y", 0)] [("A", "X")] :=
  ⟨by decide,
    @C1_feasibility [("A", ["X"]), ("B", ["Y"])] [("X", 1), ("Y", 0)]
      (by decide) (by decide) (by decide)
      [("A", "X")] (buildEdges [("A", ["X"]), ("B", ["Y"])] [("X", 1), ("Y", 0)])
      (by decide)⟩

/-- Witness for C3: at `players = [A ↦ [X], B ↦ [Y]]`, `roles = [X ↦ 1, Y ↦ 0]`
the built graph has pairwise distinct `(u, v)` edge keys. -/
theorem C3_graph_edges_witness :
    (edgeKeys (buildEdges [("A", ["X"]), ("B", ["Y"])] [("X", 1), ("Y", 0)])).Nodup :=
  (@C3_graph_edges [("A", ["X"]), ("B", ["Y"])] [("X", 1), ("Y", 0)]
    (by decide) (by decide) (by decide)).1

/-- Witness for C4: on the same input the returned assignment has
`min(1 + 0, 2) = 1` pair. -/
theorem C4_flow_value_witness :
    assign_roles [("A", ["X"]), ("B", ["Y"])] [("X", 1), ("Y", 0)]
      = some ([("A", "X")],
          buildEdges [("A", ["X"]), ("B", ["Y"])] [("X", 1), ("Y", 0)])
    ∧ ((([("A", "X")] : List (Ident × Ident)).length : Int)
        = min (numPositions [("X", 1), ("Y", 0)])
            ((([("A", ["X"]), ("B", ["Y"])] : Players).length : Int))) :=
  ⟨by decide,
    @C4_flow_value [("A", ["X"]), ("B", ["Y"])] [("X", 1), ("Y", 0)]
      (by decide) (by decide) (by decide)
      [("A", "X")] (buildEdges [("A", ["X"]), ("B", ["Y"])] [("X", 1), ("Y", 0)])
      (by decide)⟩

/-- Witness for C5 at `players = [A ↦ [X]]`, `roles = [X ↦ -1]`: the graph is
built and holds the negative-capacity sink edge, and the call fails at the
solve. -/
theorem C5_negative_capacity_witness :
    (Node.cat "X", Node.sink, (⟨-1, 0⟩ : EdgeData))
        ∈ buildEdges [("A", ["X"])] [("X", -1)]
    ∧ assign_roles [("A", ["X"])] [("X", -1)] = none :=
  @C5_negative_capacity [("A", ["X"])] [("X", -1)]
    (by decide) (by decide) (by decide) ("X", -1) (by decide) (by decide)

/-- Counterexample to the unamended C5: with `players = [A ↦ [X]]` and
`roles = [X ↦ -1]`, graph construction does *not* fail — no `ConfigError`
exists anywhere in the program — and the full three-edge network (including
the capacity `-1` sink edge) is built; the failure only happens afterwards, at
the solve step, as the generic infeasibility exception (`none` here). -/
theorem C5_counterexample :
    buildEdges [("A", ["X"])] [("X", -1)]
      = [(Node.source, Node.agent "A", ⟨1, 0⟩),
         (Node.agent "A", Node.cat "X", ⟨1, 0⟩),
         (Node.cat "X", Node.sink, ⟨-1, 0⟩)]
    ∧ assign_roles [("A", ["X"])] [("X", -1)] = none :=
  ⟨by decide, by decide⟩

/-- Witness for C6 at `players = [A ↦ [X]]`, `roles = [X ↦ 0]`: all capacities
are zero and the call returns the empty assignment, not an error. -/
theorem C6_zero_capacity_witness :
    assign_roles [("A", ["X"])] [("X", 0)]
      = some ([], buildEdges [("A", ["X"])] [("X", 0)]) :=
  @C6_zero_capacity [("A", ["X"])] [("X", 0)]
    (by decide) (by decide) (by decide) (by decide)

/-- Witness for C7 at `players = [A ↦ [X], B ↦ [X]]`, `roles = [X ↦ 1]`: both
players are eligible, capacity 1 < 2, the call assigns `[(B, X)]` and exactly
`2 - 1 = 1` eligible player is left unassigned. -/
theorem C7_eligible_unassigned_witness :
    assign_roles [("A", ["X"]), ("B", ["X"])] [("X", 1)]
      = some ([("B", "X")], buildEdges [("A", ["X"]), ("B", ["X"])] [("X", 1)])
    ∧ ((eligiblePlayers [("A", ["X"]), ("B", ["X"])] [("X", 1)]).filter
          (fun pl => decide ((([("B", "X")] : List (Ident × Ident)).lookup pl.1)
            = none))).length
        = (eligiblePlayers [("A", ["X"]), ("B", ["X"])] [("X", 1)]).length
          - (numPositions [("X", 1)]).toNat :=
  ⟨by decide,
    @C7_eligible_unassigned [("A", ["X"]), ("B", ["X"])] [("X", 1)]
      (by decide) (by decide) (by decide) (by decide)
      [("B", "X")] (buildEdges [("A", ["X"]), ("B", ["X"])] [("X", 1)])
      (by decide)⟩

/-- Counterexample to the unamended C7: with `players = [A ↦ [X], B ↦ [X],
C ↦ []]` and `roles = [X ↦ 1]`, capacity (1) is below the number of eligible
players (2: A and B), the call returns `[(B, X)]`, and the number of *agents*
absent from the assignment is `2` (A and the ineligible C) — not
`eligible − capacity = 1`.  Only the count of absent *eligible* agents obeys
the formula. -/
theorem C7_counterexample :
    assign_roles [("A", ["X"]), ("B", ["X"]), ("C", [])] [("X", 1)]
      = some ([("B", "X")],
          buildEdges [("A", ["X"]), ("B", ["X"]), ("C", [])] [("X", 1)])
    ∧ numPositions [("X", 1)]
        < ((eligiblePlayers [("A", ["X"]), ("B", ["X"]), ("C", [])]
            [("X", 1)]).length : Int)
    ∧ (([("A", ["X"]), ("B", ["X"]), ("C", [])] : Players).filter
          (fun pl => decide ((([("B", "X")] : List (Ident × Ident)).lookup pl.1)
            = none))).length
        ≠ (eligiblePlayers [("A", ["X"]), ("B", ["X"]), ("C", [])]
            [("X", 1)]).length
          - (numPositions [("X", 1)]).toNat :=
  ⟨by decide, by decide, by decide⟩

/-- Witness for C8 at `players = [A ↦ [X, Y, X]]`, `roles = [X ↦ 1, Y ↦ 1]`:
`X` occurs twice in A's list; the graph holds exactly one `A → X` edge and its
weight is `2`, the rank of the last occurrence. -/
theorem C8_duplicate_pref_witness :
    (buildEdges [("A", ["X", "Y", "X"])] [("X", 1), ("Y", 1)]).countP
        (fun e => decide (e.1 = Node.agent "A" ∧ e.2.1 = Node.cat "X")) = 1
    ∧ (Node.agent "A", Node.cat "X", (⟨1, 2⟩ : EdgeData))
        ∈ buildEdges [("A", ["X", "Y", "X"])] [("X", 1), ("Y", 1)] :=
  @C8_duplicate_pref [("A", ["X", "Y", "X"])] [("X", 1), ("Y", 1)]
    (by decide) "A" ["X", "Y", "X"] (by decide) "X" (by decide) (by decide)
    2 (by decide)

/-- Witness for C9: at `players = [A ↦ [X], B ↦ [Y]]`, `roles = [X ↦ 1,
Y ↦ 0]` the solver model returns a concrete optimal flow; instantiating both
runs of C9 with it (its optimality coming from the solver contract) yields
equal decoded costs. -/
theorem C9_cost_determinism_witness :
    rankCost [("A", ["X"]), ("B", ["Y"])]
        (decode [("A", ["X"]), ("B", ["Y"])]
          [((Node.source, Node.agent "A", ⟨1, 0⟩), 1),
           ((Node.source, Node.agent "B", ⟨1, 0⟩), 0),
           ((Node.agent "A", Node.cat "X", ⟨1, 0⟩), 1),
           ((Node.agent "B", Node.cat "Y", ⟨1, 0⟩), 0),
           ((Node.cat "X", Node.sink, ⟨1, 0⟩), 1),
           ((Node.cat "Y", Node.sink, ⟨0, 0⟩), 0)])
      = rankCost [("A", ["X"]), ("B", ["Y"])]
          (decode [("A", ["X"]), ("B", ["Y"])]
            [((Node.source, Node.agent "A", ⟨1, 0⟩), 1),
             ((Node.source, Node.agent "B", ⟨1, 0⟩), 0),
             ((Node.agent "A", Node.cat "X", ⟨1, 0⟩), 1),
             ((Node.agent "B", Node.cat "Y", ⟨1, 0⟩), 0),
             ((Node.cat "X", Node.sink, ⟨1, 0⟩), 1),
             ((Node.cat "Y", Node.sink, ⟨0, 0⟩), 0)]) := by
  have hm : min_cost_flow (numPositions [("X", 1), ("Y", 0)])
      (buildEdges [("A", ["X"]), ("B", ["Y"])] [("X", 1), ("Y", 0)])
      = some [((Node.source, Node.agent "A", ⟨1, 0⟩), 1),
          ((Node.source, Node.agent "B", ⟨1, 0⟩), 0),
          ((Node.agent "A", Node.cat "X", ⟨1, 0⟩), 1),
          ((Node.agent "B", Node.cat "Y", ⟨1, 0⟩), 0),
          ((Node.cat "X", Node.sink, ⟨1, 0⟩), 1),
          ((Node.cat "Y", Node.sink, ⟨0, 0⟩), 0)] := by decide
  obtain ⟨h1, h2, h3⟩ := min_cost_flow_some_spec hm
  exact C9_cost_determinism (by decide) (by decide) (by decide)
    h1 h2 h3 h1 h2 h3

/-- Witness for C10: at `players = [A ↦ [X], B ↦ [Y]]`, `roles = [X ↦ 1,
Y ↦ 0]` the returned assignment fills `X` with exactly 1 player and `Y` with
exactly 0. -/
theorem C10_exact_capacity_witness :
    assign_roles [("A", ["X"]), ("B", ["Y"])] [("X", 1), ("Y", 0)]
      = some ([("A", "X")],
          buildEdges [("A", ["X"]), ("B", ["Y"])] [("X", 1), ("Y", 0)])
    ∧ ∀ rc ∈ ([("X", 1), ("Y", 0)] : Roles),
        ((([("A", "X")] : List (Ident × Ident)).countP
          (fun pr => decide (pr.2 = rc.1))) : Int) = rc.2 :=
  ⟨by decide,
    @C10_exact_capacity [("A", ["X"]), ("B", ["Y"])] [("X", 1), ("Y", 0)]
      (by decide) (by decide) (by decide)
      [("A", "X")] (buildEdges [("A", ["X"]), ("B", ["Y"])] [("X", 1), ("Y", 0)])
      (by decide)⟩
